import Mathlib

/-!
Verification of the Catmull-Clark subdivision core
(`src/3_catmark_subdiv`: `mesh/mesh.cpp`, `mesh/mesh.h`, `mesh/vertex.h`,
`mesh/halfedge.h`, `subdivision/catmullclarksubdivider.cpp`).

Shallow embedding conventions:
  * C++ pointers into the mesh's entity arenas become `Nat` array positions;
    a nullable pointer becomes `Option Nat`.
  * `QVector3D` (float coordinates) is embedded as a triple of rationals;
    all stencil arithmetic is exact.
  * `QVector<T>` becomes `List T`; `v[i] = x` becomes `List.set`,
    reads become `List.getD` with the type's default element.
  * The transcendental `cosf(2*pi/n)` in the limit projection has no exact
    rational value, so it is passed as a parameter `cosw : Nat -> Rat`.
  * The repository does not contain `halfedge.cpp`, `vertex.cpp` or `face.h`:
    the accessors declared in `halfedge.h` / `vertex.h` are modelled from the
    header comments and the spec, and are marked `Modelled from the spec:`.
-/

namespace Catmark

/-- Exact-coordinate stand-in for QVector3D. -/
structure Vec3 where
  x : ℚ
  y : ℚ
  z : ℚ
deriving DecidableEq, Repr

def Vec3.zero : Vec3 := ⟨0, 0, 0⟩

def Vec3.add (a b : Vec3) : Vec3 := ⟨a.x + b.x, a.y + b.y, a.z + b.z⟩

instance : Add Vec3 := ⟨Vec3.add⟩

/-- Scalar multiplication, `q * v` on QVector3D. -/
def Vec3.smul (q : ℚ) (a : Vec3) : Vec3 := ⟨q * a.x, q * a.y, q * a.z⟩

/-- Componentwise division by a scalar, `v / q` on QVector3D. -/
def Vec3.div (a : Vec3) (q : ℚ) : Vec3 := ⟨a.x / q, a.y / q, a.z / q⟩

/-- `mesh/halfedge.h`: origin, next, prev, twin, face pointers, `index`,
`edgeIndex` and the integer `sharpness` field. -/
structure HalfEdge where
  origin : Nat
  next : Nat
  prev : Nat
  twin : Option Nat
  face : Nat
  index : Nat
  edgeIndex : Nat
  sharpness : Int
deriving DecidableEq, Repr

/-- `mesh/vertex.h`: coords, `out` half-edge, valence, index.
`valence = 0` is the in-class initializer visible in the header. -/
structure Vertex where
  coords : Vec3
  out : Option Nat
  valence : Nat
  index : Nat
deriving DecidableEq, Repr

/-- The face record (its header is not in the repository): one incident
half-edge `side`, `valence` sides, a stable `index`.  The derived display
normal is omitted (never read by the verified core). -/
structure Face where
  side : Nat
  valence : Nat
  index : Nat
deriving DecidableEq, Repr

def dHalfEdge : HalfEdge := ⟨0, 0, 0, none, 0, 0, 0, 0⟩

def dVertex : Vertex := ⟨Vec3.zero, none, 0, 0⟩

def dFace : Face := ⟨0, 0, 0⟩

instance : Inhabited HalfEdge := ⟨dHalfEdge⟩

instance : Inhabited Vertex := ⟨dVertex⟩

instance : Inhabited Face := ⟨dFace⟩

/-- `mesh/mesh.h`: entity arenas, the cached undirected-edge count, and the
`originalCoords` backup used by the limit-position display toggle.  The
display-only buffers (vertexCoords, polyIndices, edge/vertex colors, normals)
are not part of the verified state. -/
structure Mesh where
  vertices : List Vertex
  halfEdges : List HalfEdge
  faces : List Face
  edgeCount : Nat
  originalCoords : List Vec3
deriving DecidableEq, Repr

def Mesh.vert (m : Mesh) (i : Nat) : Vertex := m.vertices.getD i dVertex

def Mesh.he (m : Mesh) (i : Nat) : HalfEdge := m.halfEdges.getD i dHalfEdge

def Mesh.face (m : Mesh) (i : Nat) : Face := m.faces.getD i dFace

def Mesh.numVerts (m : Mesh) : Nat := m.vertices.length

def Mesh.numHalfEdges (m : Mesh) : Nat := m.halfEdges.length

def Mesh.numFaces (m : Mesh) : Nat := m.faces.length

def Mesh.numEdges (m : Mesh) : Nat := m.edgeCount

/-- `HalfEdge::twinIdx()`: `-1` when the twin is absent (the encoding is pinned
by `setHalfEdgeData`, which maps `twinIdx < 0` back to a null twin). -/
def HalfEdge.twinIdx (e : HalfEdge) : Int :=
  match e.twin with
  | none => -1
  | some t => (t : Int)

/-- `HalfEdge::isBoundaryEdge()`. Modelled from the spec: `halfedge.h` states
that a boundary half-edge has a null twin (implementation file not in repo). -/
def HalfEdge.isBoundaryEdge (e : HalfEdge) : Bool := e.twin.isNone

/-- `HalfEdge::isSharpEdge()`. Modelled from the spec: the `halfedge.h`
declaration documents it as `sharpness > 0 or == -1 (infinite)`
(implementation file not in repo). -/
def HalfEdge.isSharpEdge (e : HalfEdge) : Bool :=
  decide (0 < e.sharpness) || decide (e.sharpness = -1)

/-- One step of the incident-edge ring walk `edge = edge->prev->twin`. -/
def ringStep (m : Mesh) (e : Nat) : Option Nat := (m.he ((m.he e).prev)).twin

/-- Modelled from the spec: walking `out -> prev -> twin` must cycle back to
`out` after exactly `valence` steps for an interior vertex, and terminates at
a half-edge with no twin for a boundary vertex (`Vertex::isBoundaryVertex` is
declared in `vertex.h`; its implementation file is not in the repo). -/
def boundaryCheckWalk (m : Mesh) (out : Nat) : Nat → Nat → Bool
  | 0, _ => false
  | k + 1, e =>
    match ringStep m e with
    | none => true
    | some e2 => if e2 = out then false else boundaryCheckWalk m out k e2

def Mesh.isBoundaryVertexAt (m : Mesh) (vi : Nat) : Bool :=
  let o := (m.vert vi).out.getD 0
  boundaryCheckWalk m o ((m.vert vi).valence) o

/-- Modelled from the spec: `Vertex::nextBoundaryHalfEdge` returns the
boundary half-edge leaving the vertex, found by walking `twin->next` from
`out` until the twin is absent (implementation file not in the repo). -/
def nextBoundaryWalk (m : Mesh) : Nat → Nat → Option Nat
  | 0, _ => none
  | k + 1, e =>
    match (m.he e).twin with
    | none => some e
    | some t => nextBoundaryWalk m k ((m.he t).next)

def Mesh.nextBoundaryHalfEdgeAt (m : Mesh) (vi : Nat) : Option Nat :=
  nextBoundaryWalk m (m.numHalfEdges + 1) ((m.vert vi).out.getD 0)

/-- Modelled from the spec: `Vertex::prevBoundaryHalfEdge` returns the
boundary half-edge pointing into the vertex, found by walking `prev->twin`
from `out` until the prev's twin is absent (implementation not in the repo). -/
def prevBoundaryWalk (m : Mesh) : Nat → Nat → Option Nat
  | 0, _ => none
  | k + 1, e =>
    let p := (m.he e).prev
    match (m.he p).twin with
    | none => some p
    | some t => prevBoundaryWalk m k t

def Mesh.prevBoundaryHalfEdgeAt (m : Mesh) (vi : Nat) : Option Nat :=
  prevBoundaryWalk m (m.numHalfEdges + 1) ((m.vert vi).out.getD 0)

/-! ## CatmullClarkSubdivider: geometry refinement stencils -/

/-- `CatmullClarkSubdivider::facePoint` corner accumulation:
`edge = face.side`, `valence` iterations of `edgePt += edge->origin->coords;
edge = edge->next`. -/
def facePointAccum (m : Mesh) : Nat → Nat → Vec3
  | 0, _ => Vec3.zero
  | k + 1, e => (m.vert ((m.he e).origin)).coords + facePointAccum m k ((m.he e).next)

/-- `CatmullClarkSubdivider::facePoint`: mean of the face's corner coords. -/
def facePoint (m : Mesh) (f : Nat) : Vec3 :=
  (facePointAccum m ((m.face f).valence) ((m.face f).side)).div (((m.face f).valence : ℚ))

/-- `CatmullClarkSubdivider::boundaryEdgePoint`: midpoint of the edge. -/
def boundaryEdgePoint (m : Mesh) (h : Nat) : Vec3 :=
  ((m.vert ((m.he h).origin)).coords + (m.vert ((m.he ((m.he h).next)).origin)).coords).div 2

/-- `CatmullClarkSubdivider::sharpEdgePoint`: midpoint of the edge (kept as a
separate function, as in the source). -/
def sharpEdgePoint (m : Mesh) (h : Nat) : Vec3 :=
  ((m.vert ((m.he h).origin)).coords + (m.vert ((m.he ((m.he h).next)).origin)).coords).div 2

/-- `CatmullClarkSubdivider::edgePoint`: midpoint averaged with the mean of
the two adjacent faces' face points.  Dereferences `edge.twin->face`; only
called on interior edges. -/
def edgePoint (m : Mesh) (h : Nat) : Vec3 :=
  (boundaryEdgePoint m h +
    (facePoint m ((m.he h).face) + facePoint m ((m.he ((m.he h).twin.getD 0)).face)).div 2).div 2

/-- `CatmullClarkSubdivider::vertexPoint` accumulation: `valence` iterations of
`R += midpoint(edge); Q += facePoint(edge->face); edge = edge->prev->twin`.
Returns (R-sum, Q-sum). -/
def smoothAccum (m : Mesh) : Nat → Nat → Vec3 × Vec3
  | 0, _ => (Vec3.zero, Vec3.zero)
  | k + 1, e =>
    let rest := smoothAccum m k ((ringStep m e).getD 0)
    (((m.vert ((m.he e).origin)).coords + (m.vert ((m.he ((m.he e).next)).origin)).coords).div 2
        + rest.1,
      facePoint m ((m.he e).face) + rest.2)

/-- `CatmullClarkSubdivider::vertexPoint`: `(Q/n + 2(R/n) + S*(n-3)) / n`. -/
def vertexPoint (m : Mesh) (vi : Nat) : Vec3 :=
  let v := m.vert vi
  let n : ℚ := (v.valence : ℚ)
  let rq := smoothAccum m v.valence (v.out.getD 0)
  let Q := rq.2.div n
  let R := rq.1.div n
  (Q + Vec3.smul 2 R + Vec3.smul (n - 3) v.coords).div n

/-- `CatmullClarkSubdivider::boundaryVertexPoint`:
`(2*S + midpoint(nextBoundary) + midpoint(prevBoundary)) / 4`. -/
def boundaryVertexPoint (m : Mesh) (vi : Nat) : Vec3 :=
  (Vec3.smul 2 (m.vert vi).coords
      + boundaryEdgePoint m ((m.nextBoundaryHalfEdgeAt vi).getD 0)
      + boundaryEdgePoint m ((m.prevBoundaryHalfEdgeAt vi).getD 0)).div 4

/-- One body execution of the `countCreaseEdges` do-while loop: insert the
edge index into the set if the half-edge is sharp (QSet insertion modelled by
an append guarded by `contains`). -/
def creaseBody (m : Mesh) (e : Nat) (acc : List Nat) : List Nat :=
  if (m.he e).isSharpEdge && !(acc.contains ((m.he e).edgeIndex))
    then acc ++ [(m.he e).edgeIndex] else acc

/-- `CatmullClarkSubdivider::countCreaseEdges` do-while loop.  The fuel is
`maxIterations - iterations`; the C++ loop continues while the stepped edge is
non-null, differs from `vertex.out`, and `iterations < maxIterations` after
the post-step increment, so the loop recurses only when the fuel is at least
2 — with fuel 0 or 1 the body runs once and the loop stops regardless of the
step, which the first two equations state directly. -/
def creaseRingAccum (m : Mesh) (out : Nat) : Nat → Nat → List Nat → List Nat
  | 0, e, acc => creaseBody m e acc
  | 1, e, acc => creaseBody m e acc
  | f + 2, e, acc =>
    let acc2 := creaseBody m e acc
    match ringStep m e with
    | none => acc2
    | some e2 =>
      if e2 = out then acc2
      else creaseRingAccum m out (f + 1) e2 acc2

/-- `CatmullClarkSubdivider::countCreaseEdges`: number of distinct sharp
`edgeIndex` values collected around the vertex (`maxIterations = 2*valence`). -/
def countCreaseEdges (m : Mesh) (vi : Nat) : Nat :=
  let o := (m.vert vi).out.getD 0
  (creaseRingAccum m o ((m.vert vi).valence * 2) o []).length

/-- Whether the `creaseVertexPoint` search treats the current half-edge as a
new crease edge: sharp, and its `edgeIndex` is not among the found ones (the
found set holds at most the first crease edge's index when the loop is still
running). -/
def creaseIsNew (m : Mesh) (e : Nat) (ce1 : Option Nat) : Bool :=
  (m.he e).isSharpEdge &&
    (match ce1 with
     | none => true
     | some c1 => !((m.he c1).edgeIndex == (m.he e).edgeIndex))

/-- One body execution of the `creaseVertexPoint` search when the loop stops
after it (fuel exhausted, null step, or back at `out`): a second crease edge
still returns immediately, otherwise only the first-found state advances. -/
def creaseFindStop (m : Mesh) (e : Nat) (ce1 : Option Nat) : Option Nat × Option Nat :=
  match ce1, creaseIsNew m e ce1 with
  | some c1, true => (some c1, some e)
  | _, _ => (if creaseIsNew m e ce1 then some e else ce1, none)

/-- `CatmullClarkSubdivider::creaseVertexPoint` search loop: remembers the
first sharp half-edge, breaks as soon as a sharp half-edge with a different
`edgeIndex` is found.  Same loop/fuel shape as `creaseRingAccum`. -/
def creaseFindLoop (m : Mesh) (out : Nat) : Nat → Nat → Option Nat → Option Nat × Option Nat
  | 0, e, ce1 => creaseFindStop m e ce1
  | 1, e, ce1 => creaseFindStop m e ce1
  | f + 2, e, ce1 =>
    match ce1, creaseIsNew m e ce1 with
    | some c1, true => (some c1, some e)
    | _, _ =>
      let ce2 := if creaseIsNew m e ce1 then some e else ce1
      match ringStep m e with
      | none => (ce2, none)
      | some e2 =>
        if e2 = out then (ce2, none)
        else creaseFindLoop m out (f + 1) e2 ce2

/-- `CatmullClarkSubdivider::creaseVertexPoint`:
`0.5*S + 0.25*sharpEdgePoint(ce1) + 0.25*sharpEdgePoint(ce2)`, falling back to
the unchanged position when two crease edges are not found. -/
def creaseVertexPoint (m : Mesh) (vi : Nat) : Vec3 :=
  let o := (m.vert vi).out.getD 0
  match creaseFindLoop m o ((m.vert vi).valence * 2) o none with
  | (some c1, some c2) =>
    Vec3.smul (1/2) (m.vert vi).coords + Vec3.smul (1/4) (sharpEdgePoint m c1)
      + Vec3.smul (1/4) (sharpEdgePoint m c2)
  | _ => (m.vert vi).coords

/-! ## CatmullClarkSubdivider: the subdivision step -/

/-- `CatmullClarkSubdivider::reserveSizes`; `QVector::resize` keeps the prefix
and default-constructs new elements (here the vectors are always empty). -/
def resizeL {α : Type} (l : List α) (n : Nat) (d : α) : List α :=
  l.take n ++ List.replicate (n - l.length) d

def reserveSizes (cm nm : Mesh) : Mesh :=
  { nm with
    vertices := resizeL nm.vertices (cm.numVerts + cm.numFaces + cm.numEdges) dVertex
    halfEdges := resizeL nm.halfEdges (cm.numHalfEdges * 4) dHalfEdge
    faces := resizeL nm.faces cm.numHalfEdges dFace
    edgeCount := 2 * cm.numEdges + cm.numHalfEdges }

/-- Face-point write of `geometryRefinement`:
`newVertices[numVerts + faces[f].index] = Vertex(facePoint, nullptr, faces[f].valence, i)`. -/
def facePointStep (cm nm : Mesh) (f : Nat) : Mesh :=
  let i := cm.numVerts + (cm.face f).index
  { nm with vertices := nm.vertices.set i ⟨facePoint cm f, none, (cm.face f).valence, i⟩ }

/-- Coordinates and valence stored for an edge point: boundary / sharp /
smooth interior branch of the edge-point loop. -/
def edgePointValue (cm : Mesh) (h : Nat) : Vec3 × Nat :=
  if (cm.he h).isBoundaryEdge then (boundaryEdgePoint cm h, 3)
  else if (cm.he h).isSharpEdge then (sharpEdgePoint cm h, 4)
  else (edgePoint cm h, 4)

/-- Edge-point write of `geometryRefinement`: processed only when
`h > twinIdx`. -/
def edgePointStep (cm nm : Mesh) (h : Nat) : Mesh :=
  if (h : Int) > (cm.he h).twinIdx then
    let v := cm.numVerts + cm.numFaces + (cm.he h).edgeIndex
    { nm with vertices := nm.vertices.set v ⟨(edgePointValue cm h).1, none, (edgePointValue cm h).2, v⟩ }
  else nm

/-- Coordinates stored for a vertex point: boundary / corner (3 or more
crease edges) / crease (exactly 2) / smooth branch of the vertex-point loop. -/
def vertexPointValue (cm : Mesh) (v : Nat) : Vec3 :=
  if cm.isBoundaryVertexAt v then boundaryVertexPoint cm v
  else
    let ncc := countCreaseEdges cm v
    if 3 ≤ ncc then (cm.vert v).coords
    else if ncc = 2 then creaseVertexPoint cm v
    else vertexPoint cm v

/-- Vertex-point write of `geometryRefinement`. -/
def vertexPointStep (cm nm : Mesh) (v : Nat) : Mesh :=
  { nm with vertices := nm.vertices.set v ⟨vertexPointValue cm v, none, (cm.vert v).valence, v⟩ }

/-- `CatmullClarkSubdivider::geometryRefinement`: face points, then edge
points, then vertex points. -/
def geometryRefinement (cm nm : Mesh) : Mesh :=
  let nm1 := (List.range cm.numFaces).foldl (facePointStep cm) nm
  let nm2 := (List.range cm.numHalfEdges).foldl (edgePointStep cm) nm1
  (List.range cm.numVerts).foldl (vertexPointStep cm) nm2

/-- Modelled from the spec: `nextIdx`, `prevIdx`, `faceIdx` of a freshly
created half-edge (null pointers) fall back to quad index arithmetic — next
and prev inside the 4-cycle, face `idx / 4`. -/
def quadNextIdx (h : Nat) : Nat := 4 * (h / 4) + (h + 1) % 4

def quadPrevIdx (h : Nat) : Nat := 4 * (h / 4) + (h + 3) % 4

def quadFaceIdx (h : Nat) : Nat := h / 4

/-- `CatmullClarkSubdivider::setHalfEdgeData`: fills the half-edge record,
then `origin->out = halfEdge; origin->index = vertIdx; face->side = halfEdge`.
The sharpness field is not touched by this function. -/
def setHalfEdgeData (nm : Mesh) (h edgeIdx vertIdx : Nat) (twinIdx : Int) : Mesh :=
  let heRec : HalfEdge :=
    { origin := vertIdx, next := quadNextIdx h, prev := quadPrevIdx h,
      twin := if twinIdx < 0 then none else some twinIdx.toNat,
      face := quadFaceIdx h, index := h, edgeIndex := edgeIdx,
      sharpness := (nm.he h).sharpness }
  let nm1 := { nm with halfEdges := nm.halfEdges.set h heRec }
  let v := nm1.vert vertIdx
  let nm2 := { nm1 with vertices := nm1.vertices.set vertIdx { v with out := some h, index := vertIdx } }
  let f := nm2.face (quadFaceIdx h)
  { nm2 with faces := nm2.faces.set (quadFaceIdx h) { f with side := h } }

/-- Write only the sharpness field of half-edge `p`. -/
def setSharpAt (m : Mesh) (p : Nat) (s : Int) : Mesh :=
  { m with halfEdges := m.halfEdges.set p { m.he p with sharpness := s } }

/-- `topologyRefinement` child-index formulas (lines 344-360 of
`catmullclarksubdivider.cpp`). -/
def twinIdx1 (cm : Mesh) (h : Nat) : Int :=
  match (cm.he h).twin with
  | none => -1
  | some t => 4 * ((cm.he ((cm.he t).next)).index : Int) + 3

def twinIdx2 (cm : Mesh) (h : Nat) : Int := 4 * ((cm.he ((cm.he h).next)).index : Int) + 2

def twinIdx3 (cm : Mesh) (h : Nat) : Int := 4 * ((cm.he ((cm.he h).prev)).index : Int) + 1

def twinIdx4 (cm : Mesh) (h : Nat) : Int := 4 * (cm.he ((cm.he h).prev)).twinIdx

def vertIdx1 (cm : Mesh) (h : Nat) : Nat := (cm.vert ((cm.he h).origin)).index

def vertIdx2 (cm : Mesh) (h : Nat) : Nat := cm.numVerts + cm.numFaces + (cm.he h).edgeIndex

def vertIdx3 (cm : Mesh) (h : Nat) : Nat := cm.numVerts + (cm.face ((cm.he h).face)).index

def vertIdx4 (cm : Mesh) (h : Nat) : Nat :=
  cm.numVerts + cm.numFaces + (cm.he ((cm.he h).prev)).edgeIndex

def edgeIdx1 (cm : Mesh) (h : Nat) : Nat :=
  2 * (cm.he h).edgeIndex + (if (h : Int) > (cm.he h).twinIdx then 0 else 1)

def edgeIdx2 (cm : Mesh) (h : Nat) : Nat := 2 * cm.numEdges + h

def edgeIdx3 (cm : Mesh) (h : Nat) : Nat := 2 * cm.numEdges + (cm.he ((cm.he h).prev)).index

def edgeIdx4 (cm : Mesh) (h : Nat) : Nat :=
  2 * (cm.he ((cm.he h).prev)).edgeIndex
    + (if ((cm.he ((cm.he h).prev)).index : Int) > (cm.he ((cm.he h).prev)).twinIdx then 1 else 0)

/-- Crease decay `if (s > 0) s-1 else if (s == -1) -1 else 0`. -/
def newSharpnessOf (s : Int) : Int := if 0 < s then s - 1 else if s = -1 then -1 else 0

/-- The four `setHalfEdgeData` calls of the split loop body (lines 362-365). -/
def refineSet (cm nm : Mesh) (h : Nat) : Mesh :=
  setHalfEdgeData (setHalfEdgeData (setHalfEdgeData (setHalfEdgeData nm
    (4 * h) (edgeIdx1 cm h) (vertIdx1 cm h) (twinIdx1 cm h))
    (4 * h + 1) (edgeIdx2 cm h) (vertIdx2 cm h) (twinIdx2 cm h))
    (4 * h + 2) (edgeIdx3 cm h) (vertIdx3 cm h) (twinIdx3 cm h))
    (4 * h + 3) (edgeIdx4 cm h) (vertIdx4 cm h) (twinIdx4 cm h)

/-- Perform a sequence of sharpness stores in order. -/
def applySharpWrites (x : Mesh) (ws : List (Nat × Int)) : Mesh :=
  ws.foldl (fun y pv => setSharpAt y pv.1 pv.2) x

/-- The ordered sharpness stores of the split loop body (lines 367-409):
`h1` and its twin get the decayed sharpness of the original edge, `h4` and its
twin the decayed sharpness of `prev`'s edge, `h2`/`h3` and their twins are set
smooth.  The twin pointers of `h2`/`h3` are read from the state after the
`setHalfEdgeData` calls; the preceding sharpness stores do not modify twin
fields, so this matches the source's read order. -/
def sharpWriteList (cm nmSet : Mesh) (h : Nat) : List (Nat × Int) :=
  let s1 := newSharpnessOf ((cm.he h).sharpness)
  let s4 := newSharpnessOf ((cm.he ((cm.he h).prev)).sharpness)
  [(4 * h, s1)]
    ++ (if 0 ≤ twinIdx1 cm h then [((twinIdx1 cm h).toNat, s1)] else [])
    ++ [(4 * h + 3, s4)]
    ++ (if 0 ≤ twinIdx4 cm h then [((twinIdx4 cm h).toNat, s4)] else [])
    ++ [(4 * h + 1, (0 : Int)), (4 * h + 2, (0 : Int))]
    ++ (match (nmSet.he (4 * h + 1)).twin with | some t => [(t, (0 : Int))] | none => [])
    ++ (match (nmSet.he (4 * h + 2)).twin with | some t => [(t, (0 : Int))] | none => [])

/-- Body of the half-edge split loop of
`CatmullClarkSubdivider::topologyRefinement` for one original half-edge `h`:
the four `setHalfEdgeData` calls followed by the sharpness propagation, in
source order. -/
def refineStep (cm nm : Mesh) (h : Nat) : Mesh :=
  applySharpWrites (refineSet cm nm h) (sharpWriteList cm (refineSet cm nm h) h)

/-- First loop of `topologyRefinement`: every new face gets its index and
valence 4. -/
def facesInitStep (nm : Mesh) (f : Nat) : Mesh :=
  { nm with faces := nm.faces.set f { nm.face f with index := f, valence := 4 } }

def topologyRefinement (cm nm : Mesh) : Mesh :=
  (List.range cm.numHalfEdges).foldl (refineStep cm)
    ((List.range nm.numFaces).foldl facesInitStep nm)

def emptyMesh : Mesh := ⟨[], [], [], 0, []⟩

/-- The three phases of `subdivide`, threading the (read-only) control mesh as
the first component so that freedom from mutation is expressible. -/
def reserveSizesP (p : Mesh × Mesh) : Mesh × Mesh := (p.1, reserveSizes p.1 p.2)

def geometryRefinementP (p : Mesh × Mesh) : Mesh × Mesh := (p.1, geometryRefinement p.1 p.2)

def topologyRefinementP (p : Mesh × Mesh) : Mesh × Mesh := (p.1, topologyRefinement p.1 p.2)

/-- `CatmullClarkSubdivider::subdivide` with the control mesh threaded. -/
def subdivideTrace (m : Mesh) : Mesh × Mesh :=
  topologyRefinementP (geometryRefinementP (reserveSizesP (m, emptyMesh)))

/-- `CatmullClarkSubdivider::subdivide`. -/
def subdivide (m : Mesh) : Mesh := (subdivideTrace m).2

/-- `k` chained subdivision levels. -/
def iterSub : Nat → Mesh → Mesh
  | 0, m => m
  | k + 1, m => iterSub k (subdivide m)

/-! ## Mesh: limit-position display toggle -/

/-- `Mesh::backupOriginalCoordsIfNeeded`. -/
def backupOriginalCoordsIfNeeded (m : Mesh) : Mesh :=
  if m.originalCoords.isEmpty then
    { m with originalCoords := m.vertices.map Vertex.coords }
  else m

/-- Overwrite only the coords field (`vertices[i].coords = x`). -/
def withCoords (v : Vertex) (c : Vec3) : Vertex := { v with coords := c }

/-- `Mesh::restoreOriginalCoords`. -/
def restoreOriginalCoords (m : Mesh) : Mesh :=
  if m.originalCoords.length = m.vertices.length then
    { m with
      vertices := List.zipWith withCoords m.vertices m.originalCoords
      originalCoords := [] }
  else m

/-- One-ring neighbour sum of the interior limit stencil:
`neighborSum += h->next->origin->coords; h = h->prev->twin`. -/
def neighborSumAux (m : Mesh) : Nat → Nat → Vec3
  | 0, _ => Vec3.zero
  | k + 1, e =>
    (m.vert ((m.he ((m.he e).next)).origin)).coords + neighborSumAux m k ((ringStep m e).getD 0)

/-- Limit position of one vertex (`Mesh::projectVerticesToCatmullClarkLimit`
loop body).  `cosw n` stands for the float `cosf(2*pi/n)`. -/
def limitPositionAt (cosw : Nat → ℚ) (m : Mesh) (vi : Nat) : Vec3 :=
  let v := m.vert vi
  if m.isBoundaryVertexAt vi then
    let nb := (m.nextBoundaryHalfEdgeAt vi).getD 0
    let pb := (m.prevBoundaryHalfEdgeAt vi).getD 0
    let vNext := (m.vert ((m.he ((m.he nb).next)).origin)).coords
    let vPrev := (m.vert ((m.he pb).origin)).coords
    (vPrev + Vec3.smul 4 v.coords + vNext).div 6
  else
    let n := v.valence
    let c := cosw n
    let w0 : ℚ := 5 / 8 - ((3 + 2 * c) / 8) * ((3 + 2 * c) / 8)
    let w : ℚ := w0 / (n : ℚ)
    let s := neighborSumAux m n (v.out.getD 0)
    Vec3.smul (1 - w * (n : ℚ)) v.coords + Vec3.smul w s

/-- `Mesh::projectVerticesToCatmullClarkLimit`: compute all limit positions
from the unmodified mesh, then overwrite every coordinate. -/
def projectVerticesToCatmullClarkLimit (cosw : Nat → ℚ) (m : Mesh) : Mesh :=
  let limits := (List.range m.numVerts).map (limitPositionAt cosw m)
  { m with vertices := List.zipWith withCoords m.vertices limits }

/-- The limit-display part of `Mesh::extractAttributes` (lines 72-79): on a
rising edge of the flag, back up and project; on a falling edge, restore. -/
def limitToggleStep (cosw : Nat → ℚ) (showLimit prevShowLimit : Bool) (m : Mesh) : Mesh :=
  if showLimit && !prevShowLimit then
    projectVerticesToCatmullClarkLimit cosw (backupOriginalCoordsIfNeeded m)
  else if !showLimit && prevShowLimit then
    restoreOriginalCoords m
  else m

/-- `Mesh::setCreaseEdge`: scan all half-edges for (A,B) or (B,A) matches and
set the sharpness on the half-edge and its twin. -/
def setCreaseEdgeStep (v1 v2 : Nat) (s : Int) (m : Mesh) (h : Nat) : Mesh :=
  let e := m.he h
  if ((m.vert e.origin).index = v1 && (m.vert ((m.he e.next).origin)).index = v2)
      || ((m.vert e.origin).index = v2 && (m.vert ((m.he e.next).origin)).index = v1) then
    let m1 := setSharpAt m h s
    match (m1.he h).twin with
    | some t => setSharpAt m1 t s
    | none => m1
  else m

def setCreaseEdge (m : Mesh) (v1 v2 : Nat) (s : Int) : Mesh :=
  (List.range m.numHalfEdges).foldl (setCreaseEdgeStep v1 v2 s) m

/-! ## Basic list and fold lemmas -/

theorem getD_set_self {α : Type} (l : List α) (i : Nat) (a d : α) (h : i < l.length) :
    (l.set i a).getD i d = a := by
  simp [List.getD, List.getElem?_set_self, h]

theorem getD_set_ne {α : Type} (l : List α) (i j : Nat) (a d : α) (h : i ≠ j) :
    (l.set i a).getD j d = l.getD j d := by
  simp [List.getD, List.getElem?_set_ne, h]

theorem foldl_invariant {α β : Type} (P : α → Prop) (step : α → β → α) (l : List β) (a : α)
    (h0 : P a) (hstep : ∀ x b, b ∈ l → P x → P (step x b)) : P (l.foldl step a) := by
  induction l generalizing a with
  | nil => exact h0
  | cons b t ih =>
    exact ih (step a b) (hstep a b (by simp) h0)
      (fun x c hc hx => hstep x c (by simp [hc]) hx)

theorem resizeL_length {α : Type} (l : List α) (n : Nat) (d : α) :
    (resizeL l n d).length = n := by
  simp [resizeL]
  omega

/-! ## Which components each step touches -/

/-- The two meshes have the same arena sizes, edge count and backup buffer. -/
def StructEq (a b : Mesh) : Prop :=
  a.vertices.length = b.vertices.length ∧ a.halfEdges.length = b.halfEdges.length ∧
    a.faces.length = b.faces.length ∧ a.edgeCount = b.edgeCount ∧
    a.originalCoords = b.originalCoords

theorem StructEq.refl (a : Mesh) : StructEq a a := ⟨rfl, rfl, rfl, rfl, rfl⟩

theorem StructEq.trans {a b c : Mesh} (h1 : StructEq a b) (h2 : StructEq b c) : StructEq a c :=
  ⟨h1.1.trans h2.1, h1.2.1.trans h2.2.1, h1.2.2.1.trans h2.2.2.1,
    h1.2.2.2.1.trans h2.2.2.2.1, h1.2.2.2.2.trans h2.2.2.2.2⟩

theorem structEq_setSharpAt (m : Mesh) (p : Nat) (s : Int) : StructEq (setSharpAt m p s) m := by
  refine ⟨rfl, ?_, rfl, rfl, rfl⟩
  simp [setSharpAt]

theorem structEq_setHalfEdgeData (nm : Mesh) (h e v : Nat) (t : Int) :
    StructEq (setHalfEdgeData nm h e v t) nm := by
  refine ⟨?_, ?_, ?_, rfl, rfl⟩ <;> simp [setHalfEdgeData]

theorem structEq_facePointStep (cm nm : Mesh) (f : Nat) : StructEq (facePointStep cm nm f) nm := by
  refine ⟨?_, rfl, rfl, rfl, rfl⟩
  simp [facePointStep]

theorem structEq_edgePointStep (cm nm : Mesh) (h : Nat) : StructEq (edgePointStep cm nm h) nm := by
  unfold edgePointStep
  split
  · exact ⟨by simp, rfl, rfl, rfl, rfl⟩
  · exact StructEq.refl nm

theorem structEq_vertexPointStep (cm nm : Mesh) (v : Nat) :
    StructEq (vertexPointStep cm nm v) nm := by
  refine ⟨?_, rfl, rfl, rfl, rfl⟩
  simp [vertexPointStep]

theorem structEq_facesInitStep (nm : Mesh) (f : Nat) : StructEq (facesInitStep nm f) nm := by
  refine ⟨rfl, rfl, ?_, rfl, rfl⟩
  simp [facesInitStep]

theorem structEq_foldl {β : Type} (step : Mesh → β → Mesh) (l : List β) (nm : Mesh)
    (hstep : ∀ x b, StructEq (step x b) x) : StructEq (l.foldl step nm) nm :=
  foldl_invariant (fun x => StructEq x nm) step l nm (StructEq.refl nm)
    (fun x b _ hx => StructEq.trans (hstep x b) hx)

theorem structEq_applySharpWrites (x : Mesh) (ws : List (Nat × Int)) :
    StructEq (applySharpWrites x ws) x := by
  unfold applySharpWrites
  exact structEq_foldl _ _ _ (fun y pv => structEq_setSharpAt y pv.1 pv.2)

theorem structEq_refineSet (cm nm : Mesh) (h : Nat) : StructEq (refineSet cm nm h) nm :=
  StructEq.trans (structEq_setHalfEdgeData _ _ _ _ _)
    (StructEq.trans (structEq_setHalfEdgeData _ _ _ _ _)
      (StructEq.trans (structEq_setHalfEdgeData _ _ _ _ _)
        (structEq_setHalfEdgeData _ _ _ _ _)))

theorem structEq_refineStep (cm nm : Mesh) (h : Nat) : StructEq (refineStep cm nm h) nm :=
  StructEq.trans (structEq_applySharpWrites _ _) (structEq_refineSet cm nm h)


theorem structEq_geometryRefinement (cm nm : Mesh) :
    StructEq (geometryRefinement cm nm) nm := by
  unfold geometryRefinement
  exact StructEq.trans
    (structEq_foldl _ _ _ (fun x b => structEq_vertexPointStep cm x b))
    (StructEq.trans (structEq_foldl _ _ _ (fun x b => structEq_edgePointStep cm x b))
      (structEq_foldl _ _ _ (fun x b => structEq_facePointStep cm x b)))

theorem structEq_topologyRefinement (cm nm : Mesh) :
    StructEq (topologyRefinement cm nm) nm := by
  unfold topologyRefinement
  exact StructEq.trans
    (structEq_foldl _ _ _ (fun x b => structEq_refineStep cm x b))
    (structEq_foldl _ _ _ (fun x b => structEq_facesInitStep x b))

theorem subdivide_structEq (m : Mesh) :
    StructEq (subdivide m) (reserveSizes m emptyMesh) := by
  have h1 : subdivide m = topologyRefinement m (geometryRefinement m (reserveSizes m emptyMesh)) := rfl
  rw [h1]
  exact StructEq.trans (structEq_topologyRefinement _ _) (structEq_geometryRefinement _ _)

/-- Establish a per-position property at one loop iteration and keep it:
`Q` is a structural invariant of the fold (arena sizes), `P` is established by
the iteration for `b` and preserved by every iteration. -/
theorem foldl_establish {β : Type} (step : Mesh → β → Mesh) (l : List β) (nm0 : Mesh)
    (Q P : Mesh → Prop) (hQ0 : Q nm0)
    (hQstep : ∀ x b, b ∈ l → Q x → Q (step x b))
    (b : β) (hmem : b ∈ l)
    (hest : ∀ x, Q x → P (step x b))
    (hpres : ∀ x c, c ∈ l → Q x → P x → P (step x c)) :
    P (l.foldl step nm0) := by
  induction l generalizing nm0 with
  | nil => cases hmem
  | cons c t ih =>
    rcases List.mem_cons.mp hmem with hbc | hbt
    · subst hbc
      have hQP := foldl_invariant (fun x => Q x ∧ P x) step t (step nm0 b)
        ⟨hQstep nm0 b (by simp) hQ0, hest nm0 hQ0⟩
        (fun x c2 hc2 hx =>
          ⟨hQstep x c2 (by simp [hc2]) hx.1, hpres x c2 (by simp [hc2]) hx.1 hx.2⟩)
      exact hQP.2
    · exact ih (step nm0 c) (hQstep nm0 c (by simp) hQ0)
        (fun x b2 hb2 hx => hQstep x b2 (by simp [hb2]) hx) hbt
        (fun x c2 hc2 hx hp => hpres x c2 (by simp [hc2]) hx hp)

theorem foldl_preserves {β : Type} (step : Mesh → β → Mesh) (l : List β) (nm : Mesh)
    (P : Mesh → Prop) (h0 : P nm) (hstep : ∀ x b, b ∈ l → P x → P (step x b)) :
    P (l.foldl step nm) :=
  foldl_invariant P step l nm h0 hstep

/-! ## Reading entities through the write operations -/

theorem vertexPointStep_vert_ne (cm nm : Mesh) (v p : Nat) (h : p ≠ v) :
    (vertexPointStep cm nm v).vert p = nm.vert p := by
  show (nm.vertices.set v _).getD p dVertex = nm.vertices.getD p dVertex
  exact getD_set_ne _ _ _ _ _ (Ne.symm h)

theorem vertexPointStep_vert_self (cm nm : Mesh) (v : Nat) (h : v < nm.vertices.length) :
    (vertexPointStep cm nm v).vert v =
      ⟨vertexPointValue cm v, none, (cm.vert v).valence, v⟩ := by
  show (nm.vertices.set v _).getD v dVertex = _
  exact getD_set_self _ _ _ _ h

theorem edgePointStep_vert_ne (cm nm : Mesh) (h p : Nat)
    (hp : p ≠ cm.numVerts + cm.numFaces + (cm.he h).edgeIndex) :
    (edgePointStep cm nm h).vert p = nm.vert p := by
  unfold edgePointStep
  split
  · show (nm.vertices.set _ _).getD p dVertex = nm.vertices.getD p dVertex
    exact getD_set_ne _ _ _ _ _ (Ne.symm hp)
  · rfl

theorem edgePointStep_vert_self (cm nm : Mesh) (h : Nat)
    (hguard : (h : Int) > (cm.he h).twinIdx)
    (hlen : cm.numVerts + cm.numFaces + (cm.he h).edgeIndex < nm.vertices.length) :
    (edgePointStep cm nm h).vert (cm.numVerts + cm.numFaces + (cm.he h).edgeIndex) =
      ⟨(edgePointValue cm h).1, none, (edgePointValue cm h).2,
        cm.numVerts + cm.numFaces + (cm.he h).edgeIndex⟩ := by
  unfold edgePointStep
  rw [if_pos hguard]
  show (nm.vertices.set _ _).getD _ dVertex = _
  exact getD_set_self _ _ _ _ hlen

theorem facePointStep_vert_ne (cm nm : Mesh) (f p : Nat)
    (hp : p ≠ cm.numVerts + (cm.face f).index) :
    (facePointStep cm nm f).vert p = nm.vert p := by
  show (nm.vertices.set _ _).getD p dVertex = nm.vertices.getD p dVertex
  exact getD_set_ne _ _ _ _ _ (Ne.symm hp)

theorem facePointStep_vert_self (cm nm : Mesh) (f : Nat)
    (hlen : cm.numVerts + (cm.face f).index < nm.vertices.length) :
    (facePointStep cm nm f).vert (cm.numVerts + (cm.face f).index) =
      ⟨facePoint cm f, none, (cm.face f).valence, cm.numVerts + (cm.face f).index⟩ := by
  show (nm.vertices.set _ _).getD _ dVertex = _
  exact getD_set_self _ _ _ _ hlen

theorem geometry_halfEdges_eq (cm nm : Mesh) :
    (geometryRefinement cm nm).halfEdges = nm.halfEdges := by
  unfold geometryRefinement
  refine foldl_preserves _ _ _ (fun x => x.halfEdges = nm.halfEdges) ?_ ?_
  · refine foldl_preserves _ _ _ (fun x => x.halfEdges = nm.halfEdges) ?_ ?_
    · exact foldl_preserves _ _ _ (fun x => x.halfEdges = nm.halfEdges) rfl
        (fun x b _ hx => by simp [facePointStep, hx])
    · intro x b _ hx
      unfold edgePointStep
      split
      · simpa using hx
      · exact hx
  · exact fun x b _ hx => by simp [vertexPointStep, hx]

theorem geometry_faces_eq (cm nm : Mesh) :
    (geometryRefinement cm nm).faces = nm.faces := by
  unfold geometryRefinement
  refine foldl_preserves _ _ _ (fun x => x.faces = nm.faces) ?_ ?_
  · refine foldl_preserves _ _ _ (fun x => x.faces = nm.faces) ?_ ?_
    · exact foldl_preserves _ _ _ (fun x => x.faces = nm.faces) rfl
        (fun x b _ hx => by simp [facePointStep, hx])
    · intro x b _ hx
      unfold edgePointStep
      split
      · simpa using hx
      · exact hx
  · exact fun x b _ hx => by simp [vertexPointStep, hx]

/-! ## Final geometry state -/

/-- Final value of a vertex point: position `v < numVerts` holds the
branch value, untouched valence, a cleared `out` and its own index. -/
theorem geometry_vert_final (cm nm : Mesh) (v : Nat) (hv : v < cm.numVerts)
    (hlen : cm.numVerts ≤ nm.vertices.length) :
    (geometryRefinement cm nm).vert v =
      ⟨vertexPointValue cm v, none, (cm.vert v).valence, v⟩ := by
  unfold geometryRefinement
  refine foldl_establish _ _ _ (fun x => x.vertices.length = nm.vertices.length)
    (fun x => x.vert v = ⟨vertexPointValue cm v, none, (cm.vert v).valence, v⟩)
    ?_ ?_ v (List.mem_range.mpr hv) ?_ ?_
  · have h2 : StructEq ((List.range cm.numFaces).foldl (facePointStep cm) nm) nm :=
      structEq_foldl _ _ _ (fun x b => structEq_facePointStep cm x b)
    have h1 : StructEq
        ((List.range cm.numHalfEdges).foldl (edgePointStep cm)
          ((List.range cm.numFaces).foldl (facePointStep cm) nm))
        ((List.range cm.numFaces).foldl (facePointStep cm) nm) :=
      structEq_foldl _ _ _ (fun x b => structEq_edgePointStep cm x b)
    exact h1.1.trans h2.1
  · intro x b _ hx
    exact ((structEq_vertexPointStep cm x b).1).trans hx
  · intro x hx
    exact vertexPointStep_vert_self cm x v (by omega)
  · intro x c _ hx hP
    by_cases hcv : v = c
    · subst hcv
      rw [vertexPointStep_vert_self cm x v (by omega)]
    · rw [vertexPointStep_vert_ne cm x c v hcv]
      exact hP

/-- Final value of an edge point, for the representative half-edge
(`h > twinIdx`): position `numVerts + numFaces + edgeIndex` holds the branch
value and valence.  `huniq` states that the edge's representative is unique
(the `edgeIndex` classes coincide with the twin pairs). -/
theorem geometry_edge_final (cm nm : Mesh) (h : Nat) (hh : h < cm.numHalfEdges)
    (hguard : (h : Int) > (cm.he h).twinIdx)
    (huniq : ∀ h2, h2 < cm.numHalfEdges → ((h2 : Int) > (cm.he h2).twinIdx) →
      (cm.he h2).edgeIndex = (cm.he h).edgeIndex → h2 = h)
    (hlen : cm.numVerts + cm.numFaces + (cm.he h).edgeIndex < nm.vertices.length) :
    (geometryRefinement cm nm).vert (cm.numVerts + cm.numFaces + (cm.he h).edgeIndex) =
      ⟨(edgePointValue cm h).1, none, (edgePointValue cm h).2,
        cm.numVerts + cm.numFaces + (cm.he h).edgeIndex⟩ := by
  unfold geometryRefinement
  have hvfold : ∀ (x : Mesh),
      ((List.range cm.numVerts).foldl (vertexPointStep cm) x).vert
          (cm.numVerts + cm.numFaces + (cm.he h).edgeIndex) =
        x.vert (cm.numVerts + cm.numFaces + (cm.he h).edgeIndex) := by
    intro x
    refine foldl_preserves _ _ _
      (fun y => y.vert (cm.numVerts + cm.numFaces + (cm.he h).edgeIndex) =
        x.vert (cm.numVerts + cm.numFaces + (cm.he h).edgeIndex)) rfl ?_
    intro y b hb hy
    rw [vertexPointStep_vert_ne cm y b _ (by simp at hb; omega)]
    exact hy
  rw [hvfold]
  refine foldl_establish _ _ _ (fun x => x.vertices.length = nm.vertices.length)
    (fun x => x.vert (cm.numVerts + cm.numFaces + (cm.he h).edgeIndex) =
      ⟨(edgePointValue cm h).1, none, (edgePointValue cm h).2,
        cm.numVerts + cm.numFaces + (cm.he h).edgeIndex⟩)
    ?_ ?_ h (List.mem_range.mpr hh) ?_ ?_
  · exact (structEq_foldl (facePointStep cm) (List.range cm.numFaces) nm
      (fun x b => structEq_facePointStep cm x b)).1
  · intro x b _ hx
    exact ((structEq_edgePointStep cm x b).1).trans hx
  · intro x hx
    exact edgePointStep_vert_self cm x h hguard (by omega)
  · intro x c hc hx hP
    by_cases hg : (c : Int) > (cm.he c).twinIdx
    · by_cases he : (cm.he c).edgeIndex = (cm.he h).edgeIndex
      · have : c = h := huniq c (by simpa using hc) hg he
        subst this
        rw [edgePointStep_vert_self cm x c hg (by omega)]
      · rw [edgePointStep_vert_ne cm x c _ (by omega)]
        exact hP
    · unfold edgePointStep
      rw [if_neg hg]
      exact hP

/-! ## Reading half-edges through the topology writes -/

/-- A half-edge with its sharpness field cleared; two half-edges with equal
`stripSharp` agree on every field except sharpness. -/
def stripSharp (e : HalfEdge) : HalfEdge := { e with sharpness := 0 }

theorem he_setSharpAt_ne (m : Mesh) (p : Nat) (s : Int) (q : Nat) (h : q ≠ p) :
    (setSharpAt m p s).he q = m.he q := by
  show (m.halfEdges.set p _).getD q dHalfEdge = m.halfEdges.getD q dHalfEdge
  exact getD_set_ne _ _ _ _ _ (Ne.symm h)

theorem he_setSharpAt_self (m : Mesh) (p : Nat) (s : Int) (h : p < m.halfEdges.length) :
    (setSharpAt m p s).he p = { m.he p with sharpness := s } := by
  show (m.halfEdges.set p _).getD p dHalfEdge = _
  exact getD_set_self _ _ _ _ h

theorem setSharpAt_toofar (m : Mesh) (p : Nat) (s : Int) (h : m.halfEdges.length ≤ p) :
    setSharpAt m p s = m := by
  simp [setSharpAt, List.set_eq_of_length_le h]

theorem stripSharp_setSharpAt (m : Mesh) (p : Nat) (s : Int) (q : Nat) :
    stripSharp ((setSharpAt m p s).he q) = stripSharp (m.he q) := by
  by_cases hq : q = p
  · subst hq
    by_cases hl : q < m.halfEdges.length
    · rw [he_setSharpAt_self _ _ _ hl]
      rfl
    · rw [setSharpAt_toofar _ _ _ (le_of_not_lt hl)]
  · rw [he_setSharpAt_ne _ _ _ _ hq]

theorem sharp_setSharpAt_cases (m : Mesh) (p : Nat) (s : Int) (q : Nat) :
    ((setSharpAt m p s).he q).sharpness = (m.he q).sharpness ∨
      (q = p ∧ ((setSharpAt m p s).he q).sharpness = s) := by
  by_cases hq : q = p
  · subst hq
    by_cases hl : q < m.halfEdges.length
    · right
      rw [he_setSharpAt_self _ _ _ hl]
      exact ⟨rfl, rfl⟩
    · left
      rw [setSharpAt_toofar _ _ _ (le_of_not_lt hl)]
  · left
    rw [he_setSharpAt_ne _ _ _ _ hq]

theorem sharp_setSharpAt_self (m : Mesh) (p : Nat) (s : Int) (h : p < m.halfEdges.length) :
    ((setSharpAt m p s).he p).sharpness = s := by
  rw [he_setSharpAt_self _ _ _ h]

theorem he_setHalfEdgeData_ne (nm : Mesh) (h e v : Nat) (t : Int) (q : Nat) (hq : q ≠ h) :
    (setHalfEdgeData nm h e v t).he q = nm.he q := by
  show (nm.halfEdges.set h _).getD q dHalfEdge = nm.halfEdges.getD q dHalfEdge
  exact getD_set_ne _ _ _ _ _ (Ne.symm hq)

theorem he_setHalfEdgeData_self (nm : Mesh) (h e v : Nat) (t : Int)
    (hl : h < nm.halfEdges.length) :
    (setHalfEdgeData nm h e v t).he h =
      ⟨v, quadNextIdx h, quadPrevIdx h, if t < 0 then none else some t.toNat,
        quadFaceIdx h, h, e, (nm.he h).sharpness⟩ := by
  show (nm.halfEdges.set h _).getD h dHalfEdge = _
  exact getD_set_self _ _ _ _ hl

theorem sharp_setHalfEdgeData (nm : Mesh) (h e v : Nat) (t : Int) (q : Nat) :
    ((setHalfEdgeData nm h e v t).he q).sharpness = (nm.he q).sharpness := by
  by_cases hq : q = h
  · subst hq
    by_cases hl : q < nm.halfEdges.length
    · rw [he_setHalfEdgeData_self _ _ _ _ _ hl]
    · have : (setHalfEdgeData nm q e v t).he q = nm.he q := by
        show (nm.halfEdges.set q _).getD q dHalfEdge = nm.halfEdges.getD q dHalfEdge
        rw [List.set_eq_of_length_le (le_of_not_lt hl)]
      rw [this]
  · rw [he_setHalfEdgeData_ne _ _ _ _ _ _ hq]

theorem halfEdges_len_setHalfEdgeData (nm : Mesh) (h e v : Nat) (t : Int) :
    (setHalfEdgeData nm h e v t).halfEdges.length = nm.halfEdges.length :=
  (structEq_setHalfEdgeData nm h e v t).2.1

/-! ## Closed form of the refined half-edges -/

def optOfInt (i : Int) : Option Nat := if i < 0 then none else some i.toNat

/-- Closed form for half-edge `p = 4h + i` of the refined mesh, as produced by
the `setHalfEdgeData` calls and the sharpness decay of `topologyRefinement`. -/
def childHE (cm : Mesh) (p : Nat) : HalfEdge :=
  match p % 4 with
  | 0 => ⟨vertIdx1 cm (p / 4), quadNextIdx p, quadPrevIdx p, optOfInt (twinIdx1 cm (p / 4)),
      p / 4, p, edgeIdx1 cm (p / 4), newSharpnessOf ((cm.he (p / 4)).sharpness)⟩
  | 1 => ⟨vertIdx2 cm (p / 4), quadNextIdx p, quadPrevIdx p, optOfInt (twinIdx2 cm (p / 4)),
      p / 4, p, edgeIdx2 cm (p / 4), 0⟩
  | 2 => ⟨vertIdx3 cm (p / 4), quadNextIdx p, quadPrevIdx p, optOfInt (twinIdx3 cm (p / 4)),
      p / 4, p, edgeIdx3 cm (p / 4), 0⟩
  | _ => ⟨vertIdx4 cm (p / 4), quadNextIdx p, quadPrevIdx p, optOfInt (twinIdx4 cm (p / 4)),
      p / 4, p, edgeIdx4 cm (p / 4), newSharpnessOf ((cm.he ((cm.he (p / 4)).prev)).sharpness)⟩

theorem childHE_0 (cm : Mesh) (h : Nat) :
    childHE cm (4 * h) = ⟨vertIdx1 cm h, quadNextIdx (4 * h), quadPrevIdx (4 * h),
      optOfInt (twinIdx1 cm h), h, 4 * h, edgeIdx1 cm h,
      newSharpnessOf ((cm.he h).sharpness)⟩ := by
  unfold childHE
  rw [show 4 * h % 4 = 0 by omega]
  rw [show 4 * h / 4 = h by omega]

theorem childHE_1 (cm : Mesh) (h : Nat) :
    childHE cm (4 * h + 1) = ⟨vertIdx2 cm h, quadNextIdx (4 * h + 1), quadPrevIdx (4 * h + 1),
      optOfInt (twinIdx2 cm h), h, 4 * h + 1, edgeIdx2 cm h, 0⟩ := by
  unfold childHE
  rw [show (4 * h + 1) % 4 = 1 by omega]
  rw [show (4 * h + 1) / 4 = h by omega]

theorem childHE_2 (cm : Mesh) (h : Nat) :
    childHE cm (4 * h + 2) = ⟨vertIdx3 cm h, quadNextIdx (4 * h + 2), quadPrevIdx (4 * h + 2),
      optOfInt (twinIdx3 cm h), h, 4 * h + 2, edgeIdx3 cm h, 0⟩ := by
  unfold childHE
  rw [show (4 * h + 2) % 4 = 2 by omega]
  rw [show (4 * h + 2) / 4 = h by omega]

theorem childHE_3 (cm : Mesh) (h : Nat) :
    childHE cm (4 * h + 3) = ⟨vertIdx4 cm h, quadNextIdx (4 * h + 3), quadPrevIdx (4 * h + 3),
      optOfInt (twinIdx4 cm h), h, 4 * h + 3, edgeIdx4 cm h,
      newSharpnessOf ((cm.he ((cm.he h).prev)).sharpness)⟩ := by
  unfold childHE
  rw [show (4 * h + 3) % 4 = 3 by omega]
  rw [show (4 * h + 3) / 4 = h by omega]

/-- Topological well-formedness of a control mesh: stable indices, in-range
references, twin involution, face-cycle coherence, equal sharpness and edge
index across twins, and sharpness in the documented domain. -/
structure MeshWF (m : Mesh) : Prop where
  he_index : ∀ h, h < m.numHalfEdges → (m.he h).index = h
  vert_index : ∀ v, v < m.numVerts → (m.vert v).index = v
  face_index : ∀ f, f < m.numFaces → (m.face f).index = f
  origin_lt : ∀ h, h < m.numHalfEdges → (m.he h).origin < m.numVerts
  next_lt : ∀ h, h < m.numHalfEdges → (m.he h).next < m.numHalfEdges
  prev_lt : ∀ h, h < m.numHalfEdges → (m.he h).prev < m.numHalfEdges
  face_lt : ∀ h, h < m.numHalfEdges → (m.he h).face < m.numFaces
  twin_wf : ∀ h, h < m.numHalfEdges → ∀ t, (m.he h).twin = some t →
    t < m.numHalfEdges ∧ t ≠ h ∧ (m.he t).twin = some h
  next_prev : ∀ h, h < m.numHalfEdges → (m.he ((m.he h).next)).prev = h
  prev_next : ∀ h, h < m.numHalfEdges → (m.he ((m.he h).prev)).next = h
  twin_sharp : ∀ h, h < m.numHalfEdges → ∀ t, (m.he h).twin = some t →
    (m.he t).sharpness = (m.he h).sharpness ∧ (m.he t).edgeIndex = (m.he h).edgeIndex
  edgeIndex_lt : ∀ h, h < m.numHalfEdges → (m.he h).edgeIndex < m.numEdges
  sharp_dom : ∀ h, h < m.numHalfEdges → (m.he h).sharpness = -1 ∨ 0 ≤ (m.he h).sharpness

/-! ## The effect of one refineStep on the half-edge arena -/

theorem refineSet_len (cm nm : Mesh) (h : Nat) :
    (refineSet cm nm h).halfEdges.length = nm.halfEdges.length :=
  (structEq_refineSet cm nm h).2.1

theorem he_refineSet_ne (cm nm : Mesh) (h q : Nat) (h0 : q ≠ 4 * h) (h1 : q ≠ 4 * h + 1)
    (h2 : q ≠ 4 * h + 2) (h3 : q ≠ 4 * h + 3) :
    (refineSet cm nm h).he q = nm.he q := by
  unfold refineSet
  rw [he_setHalfEdgeData_ne _ _ _ _ _ _ h3, he_setHalfEdgeData_ne _ _ _ _ _ _ h2,
    he_setHalfEdgeData_ne _ _ _ _ _ _ h1, he_setHalfEdgeData_ne _ _ _ _ _ _ h0]

theorem he_refineSet_0 (cm nm : Mesh) (h : Nat) (hlen : 4 * h + 3 < nm.halfEdges.length) :
    (refineSet cm nm h).he (4 * h) =
      ⟨vertIdx1 cm h, quadNextIdx (4 * h), quadPrevIdx (4 * h),
        if twinIdx1 cm h < 0 then none else some (twinIdx1 cm h).toNat,
        quadFaceIdx (4 * h), 4 * h, edgeIdx1 cm h, (nm.he (4 * h)).sharpness⟩ := by
  unfold refineSet
  rw [he_setHalfEdgeData_ne _ _ _ _ _ _ (by omega), he_setHalfEdgeData_ne _ _ _ _ _ _ (by omega),
    he_setHalfEdgeData_ne _ _ _ _ _ _ (by omega), he_setHalfEdgeData_self _ _ _ _ _ (by omega)]

theorem he_refineSet_1 (cm nm : Mesh) (h : Nat) (hlen : 4 * h + 3 < nm.halfEdges.length) :
    (refineSet cm nm h).he (4 * h + 1) =
      ⟨vertIdx2 cm h, quadNextIdx (4 * h + 1), quadPrevIdx (4 * h + 1),
        if twinIdx2 cm h < 0 then none else some (twinIdx2 cm h).toNat,
        quadFaceIdx (4 * h + 1), 4 * h + 1, edgeIdx2 cm h, (nm.he (4 * h + 1)).sharpness⟩ := by
  unfold refineSet
  rw [he_setHalfEdgeData_ne _ _ _ _ _ _ (by omega), he_setHalfEdgeData_ne _ _ _ _ _ _ (by omega),
    he_setHalfEdgeData_self _ _ _ _ _ (by rw [halfEdges_len_setHalfEdgeData]; omega),
    sharp_setHalfEdgeData]

theorem he_refineSet_2 (cm nm : Mesh) (h : Nat) (hlen : 4 * h + 3 < nm.halfEdges.length) :
    (refineSet cm nm h).he (4 * h + 2) =
      ⟨vertIdx3 cm h, quadNextIdx (4 * h + 2), quadPrevIdx (4 * h + 2),
        if twinIdx3 cm h < 0 then none else some (twinIdx3 cm h).toNat,
        quadFaceIdx (4 * h + 2), 4 * h + 2, edgeIdx3 cm h, (nm.he (4 * h + 2)).sharpness⟩ := by
  unfold refineSet
  rw [he_setHalfEdgeData_ne _ _ _ _ _ _ (by omega),
    he_setHalfEdgeData_self _ _ _ _ _
      (by rw [halfEdges_len_setHalfEdgeData, halfEdges_len_setHalfEdgeData]; omega),
    sharp_setHalfEdgeData, sharp_setHalfEdgeData]

theorem he_refineSet_3 (cm nm : Mesh) (h : Nat) (hlen : 4 * h + 3 < nm.halfEdges.length) :
    (refineSet cm nm h).he (4 * h + 3) =
      ⟨vertIdx4 cm h, quadNextIdx (4 * h + 3), quadPrevIdx (4 * h + 3),
        if twinIdx4 cm h < 0 then none else some (twinIdx4 cm h).toNat,
        quadFaceIdx (4 * h + 3), 4 * h + 3, edgeIdx4 cm h, (nm.he (4 * h + 3)).sharpness⟩ := by
  unfold refineSet
  rw [he_setHalfEdgeData_self _ _ _ _ _
      (by rw [halfEdges_len_setHalfEdgeData, halfEdges_len_setHalfEdgeData,
        halfEdges_len_setHalfEdgeData]; omega),
    sharp_setHalfEdgeData, sharp_setHalfEdgeData, sharp_setHalfEdgeData]

/-! ## Sharpness writes: every store writes the closed-form value -/

theorem applySharpWrites_strip (x : Mesh) (ws : List (Nat × Int)) (q : Nat) :
    stripSharp ((applySharpWrites x ws).he q) = stripSharp (x.he q) := by
  induction ws generalizing x with
  | nil => rfl
  | cons w t ih => exact (ih (setSharpAt x w.1 w.2)).trans (stripSharp_setSharpAt x w.1 w.2 q)

theorem applySharpWrites_len (x : Mesh) (ws : List (Nat × Int)) :
    (applySharpWrites x ws).halfEdges.length = x.halfEdges.length :=
  (structEq_applySharpWrites x ws).2.1

theorem applySharpWrites_pres (cm x : Mesh) (ws : List (Nat × Int)) (q : Nat)
    (hall : ∀ pv, pv ∈ ws → pv.2 = (childHE cm pv.1).sharpness)
    (hq : (x.he q).sharpness = (childHE cm q).sharpness) :
    ((applySharpWrites x ws).he q).sharpness = (childHE cm q).sharpness := by
  induction ws generalizing x with
  | nil => exact hq
  | cons w t ih =>
    refine ih (setSharpAt x w.1 w.2) (fun pv hpv => hall pv (by simp [hpv])) ?_
    rcases sharp_setSharpAt_cases x w.1 w.2 q with hc | ⟨hqp, hc⟩
    · rw [hc, hq]
    · rw [hc, hall w (by simp), hqp]

theorem applySharpWrites_est (cm x : Mesh) (ws : List (Nat × Int)) (p : Nat)
    (hall : ∀ pv, pv ∈ ws → pv.2 = (childHE cm pv.1).sharpness)
    (hlen : p < x.halfEdges.length) (hmem : ∃ s, (p, s) ∈ ws) :
    ((applySharpWrites x ws).he p).sharpness = (childHE cm p).sharpness := by
  induction ws generalizing x with
  | nil =>
    obtain ⟨s, hs⟩ := hmem
    cases hs
  | cons w t ih =>
    obtain ⟨s, hs⟩ := hmem
    rcases List.mem_cons.mp hs with hw | ht
    · refine applySharpWrites_pres cm _ t p (fun pv hpv => hall pv (by simp [hpv])) ?_
      have hw1 : w.1 = p := by rw [← hw]
      subst hw1
      rw [sharp_setSharpAt_self x w.1 w.2 hlen, hall w (by simp)]
    · exact ih (setSharpAt x w.1 w.2) (fun pv hpv => hall pv (by simp [hpv]))
        (by rw [(structEq_setSharpAt x w.1 w.2).2.1]; exact hlen) ⟨s, ht⟩

theorem applySharpWrites_cons (x : Mesh) (w : Nat × Int) (t : List (Nat × Int)) :
    applySharpWrites x (w :: t) = applySharpWrites (setSharpAt x w.1 w.2) t := rfl

/-- The twin of child `4h` receives the decayed sharpness of edge `h`; by the
twin invariants this is the closed-form value of its own position. -/
theorem childSharp_twin1 (cm : Mesh) (h : Nat) (hWF : MeshWF cm) (hh : h < cm.numHalfEdges)
    (hc : 0 ≤ twinIdx1 cm h) :
    newSharpnessOf ((cm.he h).sharpness) = (childHE cm (twinIdx1 cm h).toNat).sharpness := by
  cases ht : (cm.he h).twin with
  | none =>
    exfalso
    have : twinIdx1 cm h = -1 := by
      unfold twinIdx1
      rw [ht]
    omega
  | some t =>
    have htw : twinIdx1 cm h = 4 * ((cm.he ((cm.he t).next)).index : Int) + 3 := by
      unfold twinIdx1
      rw [ht]
    have htH : t < cm.numHalfEdges := (hWF.twin_wf h hh t ht).1
    have hkH : (cm.he t).next < cm.numHalfEdges := hWF.next_lt t htH
    have hik : (cm.he ((cm.he t).next)).index = (cm.he t).next := hWF.he_index _ hkH
    have htn : (twinIdx1 cm h).toNat = 4 * (cm.he t).next + 3 := by
      rw [htw, hik]
      omega
    rw [htn, childHE_3 cm ((cm.he t).next)]
    show newSharpnessOf ((cm.he h).sharpness)
      = newSharpnessOf ((cm.he ((cm.he ((cm.he t).next)).prev)).sharpness)
    rw [hWF.next_prev t htH, (hWF.twin_sharp h hh t ht).1]

/-- The twin of child `4h+3` receives the decayed sharpness of edge `prev h`;
by the twin invariants this is the closed-form value of its own position. -/
theorem childSharp_twin4 (cm : Mesh) (h : Nat) (hWF : MeshWF cm) (hh : h < cm.numHalfEdges)
    (hc : 0 ≤ twinIdx4 cm h) :
    newSharpnessOf ((cm.he ((cm.he h).prev)).sharpness)
      = (childHE cm (twinIdx4 cm h).toNat).sharpness := by
  cases ht : (cm.he ((cm.he h).prev)).twin with
  | none =>
    exfalso
    have h1 : (cm.he ((cm.he h).prev)).twinIdx = -1 := by
      unfold HalfEdge.twinIdx
      rw [ht]
    have h2 : twinIdx4 cm h = -4 := by
      unfold twinIdx4
      rw [h1]
      decide
    omega
  | some u =>
    have htw : twinIdx4 cm h = 4 * (u : Int) := by
      unfold twinIdx4 HalfEdge.twinIdx
      rw [ht]
    have htn : (twinIdx4 cm h).toNat = 4 * u := by
      rw [htw]
      omega
    have hpH : (cm.he h).prev < cm.numHalfEdges := hWF.prev_lt h hh
    rw [htn, childHE_0 cm u]
    show newSharpnessOf ((cm.he ((cm.he h).prev)).sharpness)
      = newSharpnessOf ((cm.he u).sharpness)
    rw [(hWF.twin_sharp _ hpH u ht).1]

/-- The twin pointer stored at child `4h+1` by the `setHalfEdgeData` phase. -/
theorem twin_refineSet_1 (cm nm : Mesh) (h : Nat) (hlen : 4 * h + 3 < nm.halfEdges.length) :
    ((refineSet cm nm h).he (4 * h + 1)).twin
      = some (4 * (cm.he ((cm.he h).next)).index + 2) := by
  rw [he_refineSet_1 cm nm h hlen]
  show (if twinIdx2 cm h < 0 then none else some (twinIdx2 cm h).toNat) = _
  have hnn : ¬(twinIdx2 cm h < 0) := by
    unfold twinIdx2
    omega
  rw [if_neg hnn]
  have : (twinIdx2 cm h).toNat = 4 * (cm.he ((cm.he h).next)).index + 2 := by
    unfold twinIdx2
    omega
  rw [this]

/-- The twin pointer stored at child `4h+2` by the `setHalfEdgeData` phase. -/
theorem twin_refineSet_2 (cm nm : Mesh) (h : Nat) (hlen : 4 * h + 3 < nm.halfEdges.length) :
    ((refineSet cm nm h).he (4 * h + 2)).twin
      = some (4 * (cm.he ((cm.he h).prev)).index + 1) := by
  rw [he_refineSet_2 cm nm h hlen]
  show (if twinIdx3 cm h < 0 then none else some (twinIdx3 cm h).toNat) = _
  have hnn : ¬(twinIdx3 cm h < 0) := by
    unfold twinIdx3
    omega
  rw [if_neg hnn]
  have : (twinIdx3 cm h).toNat = 4 * (cm.he ((cm.he h).prev)).index + 1 := by
    unfold twinIdx3
    omega
  rw [this]

/-- Every sharpness store of the split-loop body writes the closed-form
decayed value of the position it targets. -/
theorem sharpWriteList_correct (cm nm : Mesh) (h : Nat) (hWF : MeshWF cm)
    (hh : h < cm.numHalfEdges) (hlen : 4 * h + 3 < nm.halfEdges.length) :
    ∀ pv, pv ∈ sharpWriteList cm (refineSet cm nm h) h →
      pv.2 = (childHE cm pv.1).sharpness := by
  intro pv hpv
  unfold sharpWriteList at hpv
  rw [twin_refineSet_1 cm nm h hlen, twin_refineSet_2 cm nm h hlen] at hpv
  simp only [List.mem_append, List.mem_singleton, List.mem_cons, List.not_mem_nil,
    or_false] at hpv
  rcases hpv with (((((hpv | hpv) | hpv) | hpv) | hpv | hpv) | hpv) | hpv
  · subst hpv
    rw [childHE_0 cm h]
  · by_cases hc : 0 ≤ twinIdx1 cm h
    · rw [if_pos hc] at hpv
      simp only [List.mem_singleton] at hpv
      subst hpv
      exact childSharp_twin1 cm h hWF hh hc
    · rw [if_neg hc] at hpv
      cases hpv
  · subst hpv
    rw [childHE_3 cm h]
  · by_cases hc : 0 ≤ twinIdx4 cm h
    · rw [if_pos hc] at hpv
      simp only [List.mem_singleton] at hpv
      subst hpv
      exact childSharp_twin4 cm h hWF hh hc
    · rw [if_neg hc] at hpv
      cases hpv
  · subst hpv
    rw [childHE_1 cm h]
  · subst hpv
    rw [childHE_2 cm h]
  · subst hpv
    rw [childHE_2 cm ((cm.he ((cm.he h).next)).index)]
  · subst hpv
    rw [childHE_1 cm ((cm.he ((cm.he h).prev)).index)]

theorem applySharpWrites_cases (cm x : Mesh) (ws : List (Nat × Int)) (q : Nat)
    (hall : ∀ pv, pv ∈ ws → pv.2 = (childHE cm pv.1).sharpness) :
    ((applySharpWrites x ws).he q).sharpness = (x.he q).sharpness ∨
      ((applySharpWrites x ws).he q).sharpness = (childHE cm q).sharpness := by
  induction ws generalizing x with
  | nil => exact Or.inl rfl
  | cons w t ih =>
    rw [applySharpWrites_cons]
    rcases ih (setSharpAt x w.1 w.2) (fun pv hpv => hall pv (by simp [hpv])) with hc | hc
    · rcases sharp_setSharpAt_cases x w.1 w.2 q with hd | ⟨hqp, hd⟩
      · exact Or.inl (hc.trans hd)
      · right
        rw [hc, hd, hall w (by simp), hqp]
    · exact Or.inr hc

/-! ## refineStep: effect on each half-edge position -/

theorem heEq_of_parts {a b : HalfEdge} (hs : stripSharp a = stripSharp b)
    (hsh : a.sharpness = b.sharpness) : a = b := by
  cases a
  cases b
  simp_all [stripSharp]

theorem refineStep_strip_ne (cm nm : Mesh) (h q : Nat) (hq : q / 4 ≠ h) :
    stripSharp ((refineStep cm nm h).he q) = stripSharp (nm.he q) := by
  unfold refineStep
  rw [applySharpWrites_strip]
  exact congrArg stripSharp
    (he_refineSet_ne cm nm h q (by omega) (by omega) (by omega) (by omega))

theorem refineStep_strip_own (cm nm : Mesh) (h : Nat) (hlen : 4 * h + 3 < nm.halfEdges.length)
    (i : Nat) (hi : i < 4) :
    stripSharp ((refineStep cm nm h).he (4 * h + i)) = stripSharp (childHE cm (4 * h + i)) := by
  unfold refineStep
  rw [applySharpWrites_strip]
  interval_cases i
  · rw [show 4 * h + 0 = 4 * h by omega, he_refineSet_0 cm nm h hlen, childHE_0]
    simp [stripSharp, optOfInt, quadFaceIdx] <;> omega
  · rw [he_refineSet_1 cm nm h hlen, childHE_1]
    simp [stripSharp, optOfInt, quadFaceIdx] <;> omega
  · rw [he_refineSet_2 cm nm h hlen, childHE_2]
    simp [stripSharp, optOfInt, quadFaceIdx] <;> omega
  · rw [he_refineSet_3 cm nm h hlen, childHE_3]
    simp [stripSharp, optOfInt, quadFaceIdx] <;> omega

theorem refineStep_sharp_own (cm nm : Mesh) (h : Nat) (hWF : MeshWF cm)
    (hh : h < cm.numHalfEdges) (hlen : 4 * h + 3 < nm.halfEdges.length)
    (i : Nat) (hi : i < 4) :
    ((refineStep cm nm h).he (4 * h + i)).sharpness = (childHE cm (4 * h + i)).sharpness := by
  unfold refineStep
  refine applySharpWrites_est cm _ _ _ (sharpWriteList_correct cm nm h hWF hh hlen)
    (by rw [refineSet_len]; omega) ?_
  interval_cases i
  · exact ⟨newSharpnessOf ((cm.he h).sharpness), by
      unfold sharpWriteList
      simp⟩
  · exact ⟨0, by
      unfold sharpWriteList
      simp⟩
  · exact ⟨0, by
      unfold sharpWriteList
      simp⟩
  · exact ⟨newSharpnessOf ((cm.he ((cm.he h).prev)).sharpness), by
      unfold sharpWriteList
      simp⟩

theorem refineStep_sharp_pres (cm nm : Mesh) (h q : Nat) (hWF : MeshWF cm)
    (hh : h < cm.numHalfEdges) (hlen : 4 * h + 3 < nm.halfEdges.length)
    (hq : (nm.he q).sharpness = (childHE cm q).sharpness) :
    ((refineStep cm nm h).he q).sharpness = (childHE cm q).sharpness := by
  unfold refineStep
  refine applySharpWrites_pres cm _ _ _ (sharpWriteList_correct cm nm h hWF hh hlen) ?_
  have hset : ((refineSet cm nm h).he q).sharpness = (nm.he q).sharpness := by
    unfold refineSet
    rw [sharp_setHalfEdgeData, sharp_setHalfEdgeData, sharp_setHalfEdgeData,
      sharp_setHalfEdgeData]
  rw [hset, hq]

theorem refineStep_he_own (cm x : Mesh) (p : Nat) (hWF : MeshWF cm)
    (hph : p / 4 < cm.numHalfEdges) (hlen : 4 * (p / 4) + 3 < x.halfEdges.length) :
    (refineStep cm x (p / 4)).he p = childHE cm p := by
  have h4 : 4 * (p / 4) + p % 4 = p := by omega
  have hi : p % 4 < 4 := by omega
  refine heEq_of_parts ?_ ?_
  · have hst := refineStep_strip_own cm x (p / 4) hlen (p % 4) hi
    rw [h4] at hst
    exact hst
  · have hsh := refineStep_sharp_own cm x (p / 4) hWF hph hlen (p % 4) hi
    rw [h4] at hsh
    exact hsh

/-! ## Final topology state of the half-edge arena -/

theorem facesInit_halfEdges (nm : Mesh) (l : List Nat) :
    (l.foldl facesInitStep nm).halfEdges = nm.halfEdges :=
  foldl_preserves _ _ _ (fun x => x.halfEdges = nm.halfEdges) rfl
    (fun x b _ hx => hx)

theorem topo_he_final (cm nm : Mesh) (hWF : MeshWF cm)
    (hlen : nm.halfEdges.length = 4 * cm.numHalfEdges)
    (p : Nat) (hp : p < 4 * cm.numHalfEdges) :
    (topologyRefinement cm nm).he p = childHE cm p := by
  unfold topologyRefinement
  have hph : p / 4 < cm.numHalfEdges := by omega
  refine foldl_establish _ _ _ (fun x => x.halfEdges.length = 4 * cm.numHalfEdges)
    (fun x => x.he p = childHE cm p) ?_ ?_ (p / 4) (List.mem_range.mpr hph) ?_ ?_
  · exact (congrArg List.length (facesInit_halfEdges nm (List.range nm.numFaces))).trans hlen
  · intro x b _ hx
    have hx2 : x.halfEdges.length = 4 * cm.numHalfEdges := hx
    exact ((structEq_refineStep cm x b).2.1).trans hx2
  · intro x hx
    have hx2 : x.halfEdges.length = 4 * cm.numHalfEdges := hx
    exact refineStep_he_own cm x p hWF hph (by omega)
  · intro x c hc hx hP
    have hx2 : x.halfEdges.length = 4 * cm.numHalfEdges := hx
    have hP2 : x.he p = childHE cm p := hP
    have hcH : c < cm.numHalfEdges := by simpa using hc
    by_cases hcp : c = p / 4
    · subst hcp
      exact refineStep_he_own cm x p hWF hph (by omega)
    · refine heEq_of_parts ?_ ?_
      · rw [refineStep_strip_ne cm x c p (fun he2 => hcp he2.symm)]
        exact congrArg stripSharp hP2
      · exact refineStep_sharp_pres cm x c p hWF hcH (by omega)
          (congrArg HalfEdge.sharpness hP2)

/-- Closed form of every half-edge of the subdivided mesh. -/
theorem subdivide_he (m : Mesh) (hWF : MeshWF m) (p : Nat) (hp : p < 4 * m.numHalfEdges) :
    (subdivide m).he p = childHE m p := by
  have hs : subdivide m
      = topologyRefinement m (geometryRefinement m (reserveSizes m emptyMesh)) := rfl
  rw [hs]
  refine topo_he_final _ _ hWF ?_ p hp
  rw [congrArg List.length (geometry_halfEdges_eq m (reserveSizes m emptyMesh))]
  show (resizeL emptyMesh.halfEdges (m.numHalfEdges * 4) dHalfEdge).length = _
  rw [resizeL_length]
  omega

/-! ## Topology refinement does not change vertex coords/valence
or face index/valence -/

theorem vert_cv_setHalfEdgeData (nm : Mesh) (h e v : Nat) (t : Int) (q : Nat) :
    ((setHalfEdgeData nm h e v t).vert q).coords = (nm.vert q).coords ∧
      ((setHalfEdgeData nm h e v t).vert q).valence = (nm.vert q).valence := by
  by_cases hq : q = v
  · subst hq
    by_cases hl : q < nm.vertices.length
    · have : (setHalfEdgeData nm h e q t).vert q = { nm.vert q with out := some h, index := q } := by
        show (nm.vertices.set q _).getD q dVertex = _
        exact getD_set_self _ _ _ _ hl
      rw [this]
      exact ⟨rfl, rfl⟩
    · have : (setHalfEdgeData nm h e q t).vert q = nm.vert q := by
        show (nm.vertices.set q _).getD q dVertex = nm.vertices.getD q dVertex
        rw [List.set_eq_of_length_le (le_of_not_lt hl)]
      rw [this]
      exact ⟨rfl, rfl⟩
  · have : (setHalfEdgeData nm h e v t).vert q = nm.vert q := by
      show (nm.vertices.set v _).getD q dVertex = nm.vertices.getD q dVertex
      exact getD_set_ne _ _ _ _ _ fun hvq => hq hvq.symm
    rw [this]
    exact ⟨rfl, rfl⟩

theorem vert_index_setHalfEdgeData (nm : Mesh) (h e v : Nat) (t : Int) (q : Nat)
    (hq : (nm.vert q).index = q) : ((setHalfEdgeData nm h e v t).vert q).index = q := by
  by_cases hqv : q = v
  · subst hqv
    by_cases hl : q < nm.vertices.length
    · have : (setHalfEdgeData nm h e q t).vert q = { nm.vert q with out := some h, index := q } := by
        show (nm.vertices.set q _).getD q dVertex = _
        exact getD_set_self _ _ _ _ hl
      rw [this]
    · have : (setHalfEdgeData nm h e q t).vert q = nm.vert q := by
        show (nm.vertices.set q _).getD q dVertex = nm.vertices.getD q dVertex
        rw [List.set_eq_of_length_le (le_of_not_lt hl)]
      rw [this]
      exact hq
  · have : (setHalfEdgeData nm h e v t).vert q = nm.vert q := by
      show (nm.vertices.set v _).getD q dVertex = nm.vertices.getD q dVertex
      exact getD_set_ne _ _ _ _ _ fun hvq => hqv hvq.symm
    rw [this]
    exact hq

theorem vertices_applySharpWrites (x : Mesh) (ws : List (Nat × Int)) :
    (applySharpWrites x ws).vertices = x.vertices := by
  unfold applySharpWrites
  exact foldl_preserves _ _ _ (fun y => y.vertices = x.vertices) rfl (fun y b _ hy => hy)

theorem faces_applySharpWrites (x : Mesh) (ws : List (Nat × Int)) :
    (applySharpWrites x ws).faces = x.faces := by
  unfold applySharpWrites
  exact foldl_preserves _ _ _ (fun y => y.faces = x.faces) rfl (fun y b _ hy => hy)

theorem vert_congr_vertices {x y : Mesh} (h : x.vertices = y.vertices) (q : Nat) :
    x.vert q = y.vert q := by
  unfold Mesh.vert
  rw [h]

theorem face_congr_faces {x y : Mesh} (h : x.faces = y.faces) (q : Nat) :
    x.face q = y.face q := by
  unfold Mesh.face
  rw [h]

theorem refineStep_vert_cv (cm nm : Mesh) (h q : Nat) :
    ((refineStep cm nm h).vert q).coords = (nm.vert q).coords ∧
      ((refineStep cm nm h).vert q).valence = (nm.vert q).valence := by
  have ha := vert_congr_vertices (vertices_applySharpWrites (refineSet cm nm h)
    (sharpWriteList cm (refineSet cm nm h) h)) q
  unfold refineStep
  rw [ha]
  unfold refineSet
  have c4 := vert_cv_setHalfEdgeData (setHalfEdgeData (setHalfEdgeData (setHalfEdgeData nm
    (4 * h) (edgeIdx1 cm h) (vertIdx1 cm h) (twinIdx1 cm h))
    (4 * h + 1) (edgeIdx2 cm h) (vertIdx2 cm h) (twinIdx2 cm h))
    (4 * h + 2) (edgeIdx3 cm h) (vertIdx3 cm h) (twinIdx3 cm h))
    (4 * h + 3) (edgeIdx4 cm h) (vertIdx4 cm h) (twinIdx4 cm h) q
  have c3 := vert_cv_setHalfEdgeData (setHalfEdgeData (setHalfEdgeData nm
    (4 * h) (edgeIdx1 cm h) (vertIdx1 cm h) (twinIdx1 cm h))
    (4 * h + 1) (edgeIdx2 cm h) (vertIdx2 cm h) (twinIdx2 cm h))
    (4 * h + 2) (edgeIdx3 cm h) (vertIdx3 cm h) (twinIdx3 cm h) q
  have c2 := vert_cv_setHalfEdgeData (setHalfEdgeData nm
    (4 * h) (edgeIdx1 cm h) (vertIdx1 cm h) (twinIdx1 cm h))
    (4 * h + 1) (edgeIdx2 cm h) (vertIdx2 cm h) (twinIdx2 cm h) q
  have c1 := vert_cv_setHalfEdgeData nm (4 * h) (edgeIdx1 cm h) (vertIdx1 cm h) (twinIdx1 cm h) q
  exact ⟨c4.1.trans (c3.1.trans (c2.1.trans c1.1)), c4.2.trans (c3.2.trans (c2.2.trans c1.2))⟩

theorem refineStep_vert_index (cm nm : Mesh) (h q : Nat) (hq : (nm.vert q).index = q) :
    ((refineStep cm nm h).vert q).index = q := by
  have ha := vert_congr_vertices (vertices_applySharpWrites (refineSet cm nm h)
    (sharpWriteList cm (refineSet cm nm h) h)) q
  unfold refineStep
  rw [ha]
  unfold refineSet
  exact vert_index_setHalfEdgeData _ _ _ _ _ _
    (vert_index_setHalfEdgeData _ _ _ _ _ _
      (vert_index_setHalfEdgeData _ _ _ _ _ _
        (vert_index_setHalfEdgeData _ _ _ _ _ _ hq)))

theorem facesInitStep_vert (nm : Mesh) (f q : Nat) :
    (facesInitStep nm f).vert q = nm.vert q := rfl

theorem topo_vert_cv (cm nm : Mesh) (q : Nat) :
    ((topologyRefinement cm nm).vert q).coords = (nm.vert q).coords ∧
      ((topologyRefinement cm nm).vert q).valence = (nm.vert q).valence := by
  unfold topologyRefinement
  have hinit : ∀ (x : Mesh) (l : List Nat), (l.foldl facesInitStep x).vert q = x.vert q :=
    fun x l => foldl_preserves _ _ _ (fun y => y.vert q = x.vert q) rfl
      (fun y b _ hy => hy)
  refine foldl_preserves _ _ _
    (fun y => (y.vert q).coords = (nm.vert q).coords ∧ (y.vert q).valence = (nm.vert q).valence)
    ?_ ?_
  · show (((List.range nm.numFaces).foldl facesInitStep nm).vert q).coords = (nm.vert q).coords
      ∧ (((List.range nm.numFaces).foldl facesInitStep nm).vert q).valence = (nm.vert q).valence
    rw [hinit nm (List.range nm.numFaces)]
    exact ⟨rfl, rfl⟩
  · intro x b _ hx
    have hc := refineStep_vert_cv cm x b q
    exact ⟨hc.1.trans hx.1, hc.2.trans hx.2⟩

theorem topo_vert_index (cm nm : Mesh) (q : Nat) (hq : (nm.vert q).index = q) :
    ((topologyRefinement cm nm).vert q).index = q := by
  unfold topologyRefinement
  have hinit : ∀ (x : Mesh) (l : List Nat), (l.foldl facesInitStep x).vert q = x.vert q :=
    fun x l => foldl_preserves _ _ _ (fun y => y.vert q = x.vert q) rfl
      (fun y b _ hy => hy)
  refine foldl_preserves _ _ _ (fun y => (y.vert q).index = q) ?_ ?_
  · show (((List.range nm.numFaces).foldl facesInitStep nm).vert q).index = q
    rw [hinit nm (List.range nm.numFaces)]
    exact hq
  · intro x b _ hx
    exact refineStep_vert_index cm x b q hx

/-! ## Final geometry of the subdivided mesh -/

theorem reserve_vert_len (m : Mesh) :
    (reserveSizes m emptyMesh).vertices.length = m.numVerts + m.numFaces + m.numEdges := by
  show (resizeL emptyMesh.vertices (m.numVerts + m.numFaces + m.numEdges) dVertex).length = _
  rw [resizeL_length]

/-- The vertex-point slot of every original vertex in the final subdivided
mesh: branch coords, original valence. -/
theorem subdivide_vertexPoint (m : Mesh) (v : Nat) (hv : v < m.numVerts) :
    ((subdivide m).vert v).coords = vertexPointValue m v ∧
      ((subdivide m).vert v).valence = (m.vert v).valence := by
  have hs : subdivide m
      = topologyRefinement m (geometryRefinement m (reserveSizes m emptyMesh)) := rfl
  rw [hs]
  have hg := geometry_vert_final m (reserveSizes m emptyMesh) v hv
    (by rw [reserve_vert_len]; omega)
  have ht := topo_vert_cv m (geometryRefinement m (reserveSizes m emptyMesh)) v
  rw [hg] at ht
  exact ht

/-- The edge-point slot of every representative half-edge in the final
subdivided mesh: branch coords and valence. -/
theorem subdivide_edgePoint (m : Mesh) (h : Nat) (hh : h < m.numHalfEdges)
    (hguard : (h : Int) > (m.he h).twinIdx)
    (huniq : ∀ h2, h2 < m.numHalfEdges → ((h2 : Int) > (m.he h2).twinIdx) →
      (m.he h2).edgeIndex = (m.he h).edgeIndex → h2 = h)
    (he : (m.he h).edgeIndex < m.numEdges) :
    ((subdivide m).vert (m.numVerts + m.numFaces + (m.he h).edgeIndex)).coords
        = (edgePointValue m h).1 ∧
      ((subdivide m).vert (m.numVerts + m.numFaces + (m.he h).edgeIndex)).valence
        = (edgePointValue m h).2 := by
  have hs : subdivide m
      = topologyRefinement m (geometryRefinement m (reserveSizes m emptyMesh)) := rfl
  rw [hs]
  have hg := geometry_edge_final m (reserveSizes m emptyMesh) h hh hguard huniq
    (by rw [reserve_vert_len]; omega)
  have ht := topo_vert_cv m (geometryRefinement m (reserveSizes m emptyMesh))
    (m.numVerts + m.numFaces + (m.he h).edgeIndex)
  rw [hg] at ht
  exact ht

/-! ## Arena sizes after one subdivision -/

theorem subdivide_counts (m : Mesh) :
    (subdivide m).numVerts = m.numVerts + m.numFaces + m.numEdges ∧
      (subdivide m).numHalfEdges = 4 * m.numHalfEdges ∧
      (subdivide m).numFaces = m.numHalfEdges ∧
      (subdivide m).numEdges = 2 * m.numEdges + m.numHalfEdges := by
  obtain ⟨h1, h2, h3, h4, _⟩ := subdivide_structEq m
  refine ⟨?_, ?_, ?_, ?_⟩
  · rw [Mesh.numVerts, h1, reserve_vert_len]
  · rw [Mesh.numHalfEdges, h2]
    show (resizeL emptyMesh.halfEdges (m.numHalfEdges * 4) dHalfEdge).length = _
    rw [resizeL_length]
    omega
  · rw [Mesh.numFaces, h3]
    show (resizeL emptyMesh.faces m.numHalfEdges dFace).length = _
    rw [resizeL_length]
  · exact h4

/-! ## Evaluation lemmas for the decay function and twin encoding -/

theorem newSharpnessOf_pos (s : Int) (hs : 0 < s) : newSharpnessOf s = s - 1 := by
  unfold newSharpnessOf
  rw [if_pos hs]

theorem newSharpnessOf_neg1 : newSharpnessOf (-1) = -1 := by decide

theorem newSharpnessOf_zero : newSharpnessOf 0 = 0 := by decide

theorem optOfInt_nonneg (i : Int) (hi : 0 ≤ i) : optOfInt i = some i.toNat := by
  unfold optOfInt
  rw [if_neg (by omega)]

theorem twinIdx_none {e : HalfEdge} (h : e.twin = none) : e.twinIdx = -1 := by
  unfold HalfEdge.twinIdx
  rw [h]

theorem twinIdx_some {e : HalfEdge} {t : Nat} (h : e.twin = some t) : e.twinIdx = (t : Int) := by
  unfold HalfEdge.twinIdx
  rw [h]

/-! ## Final face data -/

theorem getD_set_pres {α β : Type} (l : List α) (i : Nat) (a d : α) (q : Nat) (g : α → β)
    (hg : g a = g (l.getD i d)) : g ((l.set i a).getD q d) = g (l.getD q d) := by
  by_cases hq : q = i
  · subst hq
    by_cases hl : q < l.length
    · rw [getD_set_self _ _ _ _ hl]
      exact hg
    · rw [List.set_eq_of_length_le (le_of_not_lt hl)]
  · rw [getD_set_ne _ _ _ _ _ fun hx => hq hx.symm]

theorem face_iv_setHalfEdgeData (nm : Mesh) (h e v : Nat) (t : Int) (q : Nat) :
    ((setHalfEdgeData nm h e v t).face q).index = (nm.face q).index ∧
      ((setHalfEdgeData nm h e v t).face q).valence = (nm.face q).valence := by
  constructor
  · show Face.index ((nm.faces.set (quadFaceIdx h) _).getD q dFace)
      = Face.index (nm.faces.getD q dFace)
    exact getD_set_pres _ _ _ _ _ Face.index rfl
  · show Face.valence ((nm.faces.set (quadFaceIdx h) _).getD q dFace)
      = Face.valence (nm.faces.getD q dFace)
    exact getD_set_pres _ _ _ _ _ Face.valence rfl

theorem refineStep_face_iv (cm nm : Mesh) (h q : Nat) :
    ((refineStep cm nm h).face q).index = (nm.face q).index ∧
      ((refineStep cm nm h).face q).valence = (nm.face q).valence := by
  have ha := face_congr_faces (faces_applySharpWrites (refineSet cm nm h)
    (sharpWriteList cm (refineSet cm nm h) h)) q
  unfold refineStep
  rw [ha]
  unfold refineSet
  have c4 := face_iv_setHalfEdgeData (setHalfEdgeData (setHalfEdgeData (setHalfEdgeData nm
    (4 * h) (edgeIdx1 cm h) (vertIdx1 cm h) (twinIdx1 cm h))
    (4 * h + 1) (edgeIdx2 cm h) (vertIdx2 cm h) (twinIdx2 cm h))
    (4 * h + 2) (edgeIdx3 cm h) (vertIdx3 cm h) (twinIdx3 cm h))
    (4 * h + 3) (edgeIdx4 cm h) (vertIdx4 cm h) (twinIdx4 cm h) q
  have c3 := face_iv_setHalfEdgeData (setHalfEdgeData (setHalfEdgeData nm
    (4 * h) (edgeIdx1 cm h) (vertIdx1 cm h) (twinIdx1 cm h))
    (4 * h + 1) (edgeIdx2 cm h) (vertIdx2 cm h) (twinIdx2 cm h))
    (4 * h + 2) (edgeIdx3 cm h) (vertIdx3 cm h) (twinIdx3 cm h) q
  have c2 := face_iv_setHalfEdgeData (setHalfEdgeData nm
    (4 * h) (edgeIdx1 cm h) (vertIdx1 cm h) (twinIdx1 cm h))
    (4 * h + 1) (edgeIdx2 cm h) (vertIdx2 cm h) (twinIdx2 cm h) q
  have c1 := face_iv_setHalfEdgeData nm (4 * h) (edgeIdx1 cm h) (vertIdx1 cm h) (twinIdx1 cm h) q
  exact ⟨c4.1.trans (c3.1.trans (c2.1.trans c1.1)), c4.2.trans (c3.2.trans (c2.2.trans c1.2))⟩

theorem facesInitStep_face_ne (nm : Mesh) (f q : Nat) (hq : q ≠ f) :
    (facesInitStep nm f).face q = nm.face q := by
  show (nm.faces.set f _).getD q dFace = nm.faces.getD q dFace
  exact getD_set_ne _ _ _ _ _ (Ne.symm hq)

theorem facesInitStep_face_self (nm : Mesh) (f : Nat) (hl : f < nm.faces.length) :
    (facesInitStep nm f).face f = { nm.face f with index := f, valence := 4 } := by
  show (nm.faces.set f _).getD f dFace = _
  exact getD_set_self _ _ _ _ hl

/-- Every face of the refined mesh carries its own index and valence 4. -/
theorem topo_face_final (cm nm : Mesh) (f : Nat) (hf : f < nm.numFaces) :
    ((topologyRefinement cm nm).face f).index = f ∧
      ((topologyRefinement cm nm).face f).valence = 4 := by
  unfold topologyRefinement
  have hfl : f < nm.faces.length := hf
  refine foldl_preserves _ _ _
    (fun y => (y.face f).index = f ∧ (y.face f).valence = 4) ?_ ?_
  · show (((List.range nm.numFaces).foldl facesInitStep nm).face f).index = f
      ∧ (((List.range nm.numFaces).foldl facesInitStep nm).face f).valence = 4
    refine foldl_establish _ _ _ (fun x => x.faces.length = nm.faces.length)
      (fun x => (x.face f).index = f ∧ (x.face f).valence = 4) rfl ?_ f
      (List.mem_range.mpr hf) ?_ ?_
    · intro x b _ hx
      exact ((structEq_facesInitStep x b).2.2.1).trans hx
    · intro x hx
      have hx2 : x.faces.length = nm.faces.length := hx
      rw [facesInitStep_face_self x f (by omega)]
      exact ⟨rfl, rfl⟩
    · intro x c _ hx hP
      have hx2 : x.faces.length = nm.faces.length := hx
      have hP2 : (x.face f).index = f ∧ (x.face f).valence = 4 := hP
      by_cases hcf : c = f
      · subst hcf
        rw [facesInitStep_face_self x c (by omega)]
        exact ⟨rfl, rfl⟩
      · rw [facesInitStep_face_ne x c f fun hx3 => hcf hx3.symm]
        exact hP2
  · intro x b _ hx
    have hc := refineStep_face_iv cm x b f
    exact ⟨hc.1.trans hx.1, hc.2.trans hx.2⟩

/-- The face-point slot of every original face in the geometry phase. -/
theorem geometry_face_final (cm nm : Mesh) (f : Nat) (hf : f < cm.numFaces)
    (hface : ∀ f2, f2 < cm.numFaces → (cm.face f2).index = f2)
    (hlen : cm.numVerts + cm.numFaces ≤ nm.vertices.length) :
    (geometryRefinement cm nm).vert (cm.numVerts + f)
      = ⟨facePoint cm f, none, (cm.face f).valence, cm.numVerts + f⟩ := by
  unfold geometryRefinement
  have hvfold : ∀ (x : Mesh),
      ((List.range cm.numVerts).foldl (vertexPointStep cm) x).vert (cm.numVerts + f)
        = x.vert (cm.numVerts + f) := by
    intro x
    refine foldl_preserves _ _ _
      (fun y => y.vert (cm.numVerts + f) = x.vert (cm.numVerts + f)) rfl ?_
    intro y b hb hy
    rw [vertexPointStep_vert_ne cm y b _ (by simp at hb; omega)]
    exact hy
  have hefold : ∀ (x : Mesh),
      ((List.range cm.numHalfEdges).foldl (edgePointStep cm) x).vert (cm.numVerts + f)
        = x.vert (cm.numVerts + f) := by
    intro x
    refine foldl_preserves _ _ _
      (fun y => y.vert (cm.numVerts + f) = x.vert (cm.numVerts + f)) rfl ?_
    intro y b hb hy
    rw [edgePointStep_vert_ne cm y b _ (by omega)]
    exact hy
  rw [hvfold, hefold]
  refine foldl_establish _ _ _ (fun x => x.vertices.length = nm.vertices.length)
    (fun x => x.vert (cm.numVerts + f)
      = ⟨facePoint cm f, none, (cm.face f).valence, cm.numVerts + f⟩)
    rfl ?_ f (List.mem_range.mpr hf) ?_ ?_
  · intro x b _ hx
    exact ((structEq_facePointStep cm x b).1).trans hx
  · intro x hx
    have hx2 : x.vertices.length = nm.vertices.length := hx
    have hw := facePointStep_vert_self cm x f (by rw [hface f hf]; omega)
    rw [hface f hf] at hw
    exact hw
  · intro x c hc hx hP
    have hx2 : x.vertices.length = nm.vertices.length := hx
    have hP2 : x.vert (cm.numVerts + f)
        = ⟨facePoint cm f, none, (cm.face f).valence, cm.numVerts + f⟩ := hP
    have hcF : c < cm.numFaces := by simpa using hc
    by_cases hcf : c = f
    · subst hcf
      have hw := facePointStep_vert_self cm x c (by rw [hface c hcF]; omega)
      rw [hface c hcF] at hw
      exact hw
    · rw [facePointStep_vert_ne cm x c _ (by rw [hface c hcF]; omega)]
      exact hP2

theorem subdivide_sharp_0 (m : Mesh) (hWF : MeshWF m) (h : Nat) (hh : h < m.numHalfEdges) :
    ((subdivide m).he (4 * h)).sharpness = newSharpnessOf ((m.he h).sharpness) := by
  rw [subdivide_he m hWF (4 * h) (by omega), childHE_0]

theorem subdivide_sharp_1 (m : Mesh) (hWF : MeshWF m) (h : Nat) (hh : h < m.numHalfEdges) :
    ((subdivide m).he (4 * h + 1)).sharpness = 0 := by
  rw [subdivide_he m hWF (4 * h + 1) (by omega), childHE_1]

theorem subdivide_sharp_2 (m : Mesh) (hWF : MeshWF m) (h : Nat) (hh : h < m.numHalfEdges) :
    ((subdivide m).he (4 * h + 2)).sharpness = 0 := by
  rw [subdivide_he m hWF (4 * h + 2) (by omega), childHE_2]

theorem subdivide_sharp_3 (m : Mesh) (hWF : MeshWF m) (h : Nat) (hh : h < m.numHalfEdges) :
    ((subdivide m).he (4 * h + 3)).sharpness
      = newSharpnessOf ((m.he ((m.he h).prev)).sharpness) := by
  rw [subdivide_he m hWF (4 * h + 3) (by omega), childHE_3]

/-- C2: child half-edges `4h` and `4h+3` inherit the sharpness of their parent
edges (`h` and `h.prev`'s edge) decremented by 1 and clamped at 0 for positive
input, with `-1` staying `-1` and `0` staying `0`; children `4h+1` and `4h+2`
(the spokes into face points) always carry sharpness 0. -/
theorem C2_crease_decay (m : Mesh) (hWF : MeshWF m) (h : Nat) (hh : h < m.numHalfEdges) :
    (0 < (m.he h).sharpness →
      ((subdivide m).he (4 * h)).sharpness = (m.he h).sharpness - 1 ∧
        0 ≤ ((subdivide m).he (4 * h)).sharpness) ∧
    ((m.he h).sharpness = -1 → ((subdivide m).he (4 * h)).sharpness = -1) ∧
    ((m.he h).sharpness = 0 → ((subdivide m).he (4 * h)).sharpness = 0) ∧
    (0 < (m.he ((m.he h).prev)).sharpness →
      ((subdivide m).he (4 * h + 3)).sharpness = (m.he ((m.he h).prev)).sharpness - 1 ∧
        0 ≤ ((subdivide m).he (4 * h + 3)).sharpness) ∧
    ((m.he ((m.he h).prev)).sharpness = -1 → ((subdivide m).he (4 * h + 3)).sharpness = -1) ∧
    ((m.he ((m.he h).prev)).sharpness = 0 → ((subdivide m).he (4 * h + 3)).sharpness = 0) ∧
    ((subdivide m).he (4 * h + 1)).sharpness = 0 ∧
    ((subdivide m).he (4 * h + 2)).sharpness = 0 := by
  rw [subdivide_sharp_0 m hWF h hh, subdivide_sharp_3 m hWF h hh]
  refine ⟨?_, ?_, ?_, ?_, ?_, ?_, subdivide_sharp_1 m hWF h hh, subdivide_sharp_2 m hWF h hh⟩
  · intro hs
    rw [newSharpnessOf_pos _ hs]
    omega
  · intro hs
    rw [hs, newSharpnessOf_neg1]
  · intro hs
    rw [hs, newSharpnessOf_zero]
  · intro hs
    rw [newSharpnessOf_pos _ hs]
    omega
  · intro hs
    rw [hs, newSharpnessOf_neg1]
  · intro hs
    rw [hs, newSharpnessOf_zero]

/-- C6: if every half-edge of the input mesh has a twin (closed manifold
mesh), then every half-edge of the subdivided mesh has a non-absent twin. -/
theorem C6_closed_twins (m : Mesh) (hWF : MeshWF m)
    (hclosed : ∀ h, h < m.numHalfEdges → (m.he h).twin ≠ none)
    (p : Nat) (hp : p < (subdivide m).numHalfEdges) :
    ((subdivide m).he p).twin ≠ none := by
  have hp4 : p < 4 * m.numHalfEdges := by
    have := (subdivide_counts m).2.1
    omega
  have hph : p / 4 < m.numHalfEdges := by omega
  rw [subdivide_he m hWF p hp4]
  have h4 : 4 * (p / 4) + p % 4 = p := by omega
  have hi : p % 4 = 0 ∨ p % 4 = 1 ∨ p % 4 = 2 ∨ p % 4 = 3 := by omega
  rcases hi with hi | hi | hi | hi
  · have hq : p = 4 * (p / 4) := by omega
    rw [hq, childHE_0]
    show optOfInt (twinIdx1 m (p / 4)) ≠ none
    cases ht : (m.he (p / 4)).twin with
    | none => exact absurd ht (hclosed _ hph)
    | some t =>
      have htw : twinIdx1 m (p / 4) = 4 * ((m.he ((m.he t).next)).index : Int) + 3 := by
        unfold twinIdx1
        rw [ht]
      rw [optOfInt_nonneg _ (by rw [htw]; omega)]
      simp
  · have hq : p = 4 * (p / 4) + 1 := by omega
    rw [hq, childHE_1]
    show optOfInt (twinIdx2 m (p / 4)) ≠ none
    rw [optOfInt_nonneg _ (by unfold twinIdx2; omega)]
    simp
  · have hq : p = 4 * (p / 4) + 2 := by omega
    rw [hq, childHE_2]
    show optOfInt (twinIdx3 m (p / 4)) ≠ none
    rw [optOfInt_nonneg _ (by unfold twinIdx3; omega)]
    simp
  · have hq : p = 4 * (p / 4) + 3 := by omega
    rw [hq, childHE_3]
    show optOfInt (twinIdx4 m (p / 4)) ≠ none
    cases ht : (m.he ((m.he (p / 4)).prev)).twin with
    | none => exact absurd ht (hclosed _ (hWF.prev_lt _ hph))
    | some u =>
      have htw : twinIdx4 m (p / 4) = 4 * (u : Int) := by
        unfold twinIdx4 HalfEdge.twinIdx
        rw [ht]
      rw [optOfInt_nonneg _ (by rw [htw]; omega)]
      simp

/-! ## Spec-side corner list for face points -/

/-- The face's half-edge cycle, collected by walking `next` as the
`facePoint` loop does. -/
def faceRing (m : Mesh) : Nat → Nat → List Nat
  | 0, _ => []
  | k + 1, e => e :: faceRing m k ((m.he e).next)

/-- Sum of the origin coordinates of a list of half-edges. -/
def cornerSum (m : Mesh) (l : List Nat) : Vec3 :=
  (l.map (fun e => (m.vert ((m.he e).origin)).coords)).foldr Vec3.add Vec3.zero

theorem facePointAccum_eq (m : Mesh) (k : Nat) : ∀ e,
    facePointAccum m k e = cornerSum m (faceRing m k e) := by
  induction k with
  | zero => intro e; rfl
  | succ k ih =>
    intro e
    show (m.vert ((m.he e).origin)).coords + facePointAccum m k ((m.he e).next)
      = cornerSum m (faceRing m (k + 1) e)
    rw [ih ((m.he e).next)]
    rfl

/-- `facePoint` is the mean of the corner coordinates collected along the
face's `next` cycle. -/
theorem facePoint_eq_spec (m : Mesh) (f : Nat) :
    facePoint m f = (cornerSum m
      (faceRing m ((m.face f).valence) ((m.face f).side))).div ((m.face f).valence : ℚ) := by
  unfold facePoint
  rw [facePointAccum_eq]

/-! ## zipWith access -/

theorem getD_zipWith {α β γ : Type} (f : α → β → γ) (as : List α) (bs : List β) (i : Nat)
    (d : γ) (da : α) (db : β) (ha : i < as.length) (hb : i < bs.length) :
    (List.zipWith f as bs).getD i d = f (as.getD i da) (bs.getD i db) := by
  induction as generalizing bs i with
  | nil => simp at ha
  | cons a as2 ih =>
    cases bs with
    | nil => simp at hb
    | cons b bs2 =>
      cases i with
      | zero => rfl
      | succ j =>
        show (List.zipWith f as2 bs2).getD j d = f (as2.getD j da) (bs2.getD j db)
        exact ih bs2 j (by simpa using ha) (by simpa using hb)

/-! ## Backup / restore helpers -/

theorem getD_map {α β : Type} (f : α → β) (l : List α) (i : Nat) (d : α) :
    (l.map f).getD i (f d) = f (l.getD i d) := by
  induction l generalizing i with
  | nil => rfl
  | cons a t ih =>
    cases i with
    | zero => rfl
    | succ j => exact ih j

theorem restore_vert (m2 : Mesh) (hlen : m2.originalCoords.length = m2.vertices.length)
    (i : Nat) (hi : i < m2.vertices.length) :
    (restoreOriginalCoords m2).vert i
      = withCoords (m2.vert i) (m2.originalCoords.getD i Vec3.zero) := by
  unfold restoreOriginalCoords
  rw [if_pos hlen]
  show (List.zipWith withCoords m2.vertices m2.originalCoords).getD i dVertex = _
  exact getD_zipWith withCoords _ _ i dVertex dVertex Vec3.zero hi (by omega)

theorem restore_len (m2 : Mesh) :
    (restoreOriginalCoords m2).vertices.length = m2.vertices.length := by
  unfold restoreOriginalCoords
  split
  · rename_i hg
    show (List.zipWith withCoords m2.vertices m2.originalCoords).length = _
    rw [List.length_zipWith]
    omega
  · rfl

/-! ## C10: the restore guard -/

/-- C10: `restoreOriginalCoords` restores the coordinates from the backup and
clears the backup exactly when the backup size equals the vertex count; when
the sizes differ it leaves the mesh (coordinates and stale backup) unchanged. -/
theorem C10_restore_guard (m : Mesh) :
    (m.originalCoords.length = m.vertices.length →
      (∀ i, i < m.vertices.length →
        ((restoreOriginalCoords m).vert i).coords = m.originalCoords.getD i Vec3.zero ∧
        ((restoreOriginalCoords m).vert i).out = (m.vert i).out ∧
        ((restoreOriginalCoords m).vert i).valence = (m.vert i).valence ∧
        ((restoreOriginalCoords m).vert i).index = (m.vert i).index) ∧
      (restoreOriginalCoords m).originalCoords = []) ∧
    (m.originalCoords.length ≠ m.vertices.length → restoreOriginalCoords m = m) := by
  constructor
  · intro hlen
    constructor
    · intro i hi
      rw [restore_vert m hlen i hi]
      exact ⟨rfl, rfl, rfl, rfl⟩
    · unfold restoreOriginalCoords
      rw [if_pos hlen]
  · intro hlen
    unfold restoreOriginalCoords
    rw [if_neg hlen]

/-! ## C7: limit-display round trip -/

/-- C7: toggling limit display on (backup, project to limit positions) and then
off (restore, clear) returns every vertex coordinate to its pre-toggle value.
The hypothesis `m.originalCoords = []` states that no stale backup exists when
the toggle turns on, which is what makes the on-transition actually back up. -/
theorem C7_limit_roundtrip (cosw : Nat → ℚ) (m : Mesh) (hback : m.originalCoords = [])
    (v : Nat) :
    ((limitToggleStep cosw false true (limitToggleStep cosw true false m)).vert v).coords
      = (m.vert v).coords := by
  have hb : backupOriginalCoordsIfNeeded m
      = { m with originalCoords := m.vertices.map Vertex.coords } := by
    unfold backupOriginalCoordsIfNeeded
    rw [if_pos (by rw [hback]; rfl)]
  have hchain : limitToggleStep cosw false true (limitToggleStep cosw true false m)
      = restoreOriginalCoords
          (projectVerticesToCatmullClarkLimit cosw (backupOriginalCoordsIfNeeded m)) := rfl
  rw [hchain, hb]
  set mb := { m with originalCoords := m.vertices.map Vertex.coords } with hmb
  set pm := projectVerticesToCatmullClarkLimit cosw mb with hpm
  have hpo : pm.originalCoords = m.vertices.map Vertex.coords := rfl
  have hpv : pm.vertices.length = m.vertices.length := by
    rw [hpm]
    show (List.zipWith withCoords mb.vertices
      ((List.range mb.numVerts).map (limitPositionAt cosw mb))).length = _
    rw [List.length_zipWith]
    simp [Mesh.numVerts]
  have hguard : pm.originalCoords.length = pm.vertices.length := by
    rw [hpo, hpv]
    simp
  by_cases hv : v < m.vertices.length
  · rw [restore_vert pm hguard v (by omega)]
    show (pm.originalCoords.getD v Vec3.zero) = _
    rw [hpo, show (Vec3.zero : Vec3) = Vertex.coords dVertex from rfl, getD_map]
    rfl
  · have h1 : (restoreOriginalCoords pm).vertices.length ≤ v := by
      rw [restore_len]
      omega
    show ((restoreOriginalCoords pm).vertices.getD v dVertex).coords
      = (m.vertices.getD v dVertex).coords
    rw [List.getD_eq_default _ _ h1, List.getD_eq_default _ _ (by omega)]

/-! ## C4 -/

/-- C4: for every input mesh with `V` vertices, `E` undirected edges, `H`
half-edges and `F` faces, one `subdivide` call returns a mesh with exactly
`V + F + E` vertices, `4 H` half-edges, `H` faces, and an edge count of
`2 E + H`. -/
theorem C4_subdivide_sizes (m : Mesh) :
    (subdivide m).numVerts = m.numVerts + m.numFaces + m.numEdges ∧
      (subdivide m).numHalfEdges = 4 * m.numHalfEdges ∧
      (subdivide m).numFaces = m.numHalfEdges ∧
      (subdivide m).numEdges = 2 * m.numEdges + m.numHalfEdges :=
  subdivide_counts m

/-! ## C5: edge points -/

/-- C5: each undirected edge's point is computed exactly once (only by the
half-edge whose index exceeds its twin's); a boundary edge stores the midpoint
with valence 3, a sharp edge (`sharpness != 0`) stores the midpoint with
valence 4, and a smooth interior edge stores the average of the midpoint and
the mean of the two adjacent faces' face points, with valence 4. -/
theorem C5_edge_points (m : Mesh) (hWF : MeshWF m) (h : Nat) (hh : h < m.numHalfEdges)
    (huniq : ∀ h2, h2 < m.numHalfEdges → ((h2 : Int) > (m.he h2).twinIdx) →
      (m.he h2).edgeIndex = (m.he h).edgeIndex → h2 = h) :
    (∀ t, (m.he h).twin = some t →
      (((h : Int) > (m.he h).twinIdx) ↔ ¬((t : Int) > (m.he t).twinIdx))) ∧
    ((m.he h).twin = none → (h : Int) > (m.he h).twinIdx) ∧
    (((h : Int) > (m.he h).twinIdx) →
      ((m.he h).twin = none →
        ((subdivide m).vert (m.numVerts + m.numFaces + (m.he h).edgeIndex)).coords
          = ((m.vert ((m.he h).origin)).coords
              + (m.vert ((m.he ((m.he h).next)).origin)).coords).div 2 ∧
        ((subdivide m).vert (m.numVerts + m.numFaces + (m.he h).edgeIndex)).valence = 3) ∧
      (∀ t, (m.he h).twin = some t → (m.he h).sharpness ≠ 0 →
        ((subdivide m).vert (m.numVerts + m.numFaces + (m.he h).edgeIndex)).coords
          = ((m.vert ((m.he h).origin)).coords
              + (m.vert ((m.he ((m.he h).next)).origin)).coords).div 2 ∧
        ((subdivide m).vert (m.numVerts + m.numFaces + (m.he h).edgeIndex)).valence = 4) ∧
      (∀ t, (m.he h).twin = some t → (m.he h).sharpness = 0 →
        ((subdivide m).vert (m.numVerts + m.numFaces + (m.he h).edgeIndex)).coords
          = (((m.vert ((m.he h).origin)).coords
              + (m.vert ((m.he ((m.he h).next)).origin)).coords).div 2
            + ((cornerSum m (faceRing m ((m.face ((m.he h).face)).valence)
                  ((m.face ((m.he h).face)).side))).div ((m.face ((m.he h).face)).valence : ℚ)
              + (cornerSum m (faceRing m ((m.face ((m.he t).face)).valence)
                  ((m.face ((m.he t).face)).side))).div
                    ((m.face ((m.he t).face)).valence : ℚ)).div 2).div 2 ∧
        ((subdivide m).vert (m.numVerts + m.numFaces + (m.he h).edgeIndex)).valence = 4)) := by
  refine ⟨?_, ?_, ?_⟩
  · intro t ht
    obtain ⟨htH, htne, htt⟩ := hWF.twin_wf h hh t ht
    rw [twinIdx_some ht, twinIdx_some htt]
    omega
  · intro ht
    rw [twinIdx_none ht]
    omega
  · intro hrep
    have hmain := subdivide_edgePoint m h hh hrep huniq (hWF.edgeIndex_lt h hh)
    refine ⟨?_, ?_, ?_⟩
    · intro ht
      have hval : edgePointValue m h = (boundaryEdgePoint m h, 3) := by
        unfold edgePointValue
        rw [if_pos (by unfold HalfEdge.isBoundaryEdge; rw [ht]; rfl)]
      rw [hval] at hmain
      exact hmain
    · intro t ht hs
      have hbd : (m.he h).isBoundaryEdge = false := by
        unfold HalfEdge.isBoundaryEdge
        rw [ht]
        rfl
      have hsh : (m.he h).isSharpEdge = true := by
        unfold HalfEdge.isSharpEdge
        rcases hWF.sharp_dom h hh with hd | hd
        · rw [hd]
          rfl
        · have hpos : 0 < (m.he h).sharpness := lt_of_le_of_ne hd (Ne.symm hs)
          simp [hpos]
      have hval : edgePointValue m h = (sharpEdgePoint m h, 4) := by
        unfold edgePointValue
        rw [hbd, hsh]
        rfl
      rw [hval] at hmain
      exact hmain
    · intro t ht hs
      have hbd : (m.he h).isBoundaryEdge = false := by
        unfold HalfEdge.isBoundaryEdge
        rw [ht]
        rfl
      have hsh : (m.he h).isSharpEdge = false := by
        unfold HalfEdge.isSharpEdge
        rw [hs]
        rfl
      have hval : edgePointValue m h = (edgePoint m h, 4) := by
        unfold edgePointValue
        rw [hbd, hsh]
        rfl
      rw [hval] at hmain
      have hep : edgePoint m h
          = (boundaryEdgePoint m h
              + (facePoint m ((m.he h).face) + facePoint m ((m.he t).face)).div 2).div 2 := by
        unfold edgePoint
        rw [ht]
        rfl
      rw [hep, facePoint_eq_spec m ((m.he h).face), facePoint_eq_spec m ((m.he t).face)]
        at hmain
      exact hmain

/-! ## C8: no mutation, indices restart at 0 -/

theorem childHE_index (m : Mesh) (p : Nat) : (childHE m p).index = p := by
  unfold childHE
  split <;> rfl

theorem geometry_vertices_len (cm nm : Mesh) :
    (geometryRefinement cm nm).vertices.length = nm.vertices.length :=
  (structEq_geometryRefinement cm nm).1

/-- C8: `subdivide` never mutates the control mesh (the threaded control
component is returned unchanged), and every entity of the returned mesh
carries an index equal to its position, restarting at 0.  `hcover` asks that
every edge index is realized by a representative half-edge, and `huniq` that
representatives are unique per edge index. -/
theorem C8_pure_fresh_indices (m : Mesh) (hWF : MeshWF m)
    (hcover : ∀ e, e < m.numEdges → ∃ h, h < m.numHalfEdges ∧
      ((h : Int) > (m.he h).twinIdx) ∧ (m.he h).edgeIndex = e)
    (huniq : ∀ h h2, h < m.numHalfEdges → h2 < m.numHalfEdges →
      ((h : Int) > (m.he h).twinIdx) → ((h2 : Int) > (m.he h2).twinIdx) →
      (m.he h2).edgeIndex = (m.he h).edgeIndex → h2 = h) :
    (subdivideTrace m).1 = m ∧
    (∀ p, p < 4 * m.numHalfEdges → ((subdivide m).he p).index = p) ∧
    (∀ f, f < m.numHalfEdges → ((subdivide m).face f).index = f) ∧
    (∀ v, v < m.numVerts + m.numFaces + m.numEdges → ((subdivide m).vert v).index = v) := by
  refine ⟨rfl, ?_, ?_, ?_⟩
  · intro p hp
    rw [subdivide_he m hWF p hp, childHE_index]
  · intro f hf
    have hs : subdivide m
        = topologyRefinement m (geometryRefinement m (reserveSizes m emptyMesh)) := rfl
    rw [hs]
    refine (topo_face_final m _ f ?_).1
    show f < (geometryRefinement m (reserveSizes m emptyMesh)).faces.length
    rw [geometry_faces_eq]
    show f < (resizeL emptyMesh.faces m.numHalfEdges dFace).length
    rw [resizeL_length]
    exact hf
  · intro v hv
    have hs : subdivide m
        = topologyRefinement m (geometryRefinement m (reserveSizes m emptyMesh)) := rfl
    rw [hs]
    refine topo_vert_index m _ v ?_
    by_cases h1 : v < m.numVerts
    · rw [geometry_vert_final m _ v h1 (by rw [reserve_vert_len]; omega)]
    · by_cases h2 : v < m.numVerts + m.numFaces
      · have hf : v - m.numVerts < m.numFaces := by omega
        have := geometry_face_final m (reserveSizes m emptyMesh) (v - m.numVerts) hf
          hWF.face_index (by rw [reserve_vert_len]; omega)
        rw [show m.numVerts + (v - m.numVerts) = v by omega] at this
        rw [this]
      · obtain ⟨h2e, hhe, hgd, hid⟩ := hcover (v - m.numVerts - m.numFaces) (by omega)
        have := geometry_edge_final m (reserveSizes m emptyMesh) h2e hhe hgd
          (fun h3 hh3 hg3 he3 => huniq h2e h3 hhe hh3 hgd hg3 he3)
          (by rw [reserve_vert_len, hid]; omega)
        rw [hid, show m.numVerts + m.numFaces + (v - m.numVerts - m.numFaces) = v by omega]
          at this
        rw [this]

/-! ## The incident-edge ring walk around an interior vertex -/

/-- QSet-style insertion: append the value unless already present. -/
def insertIfNew (acc : List Nat) (x : Nat) : List Nat :=
  if acc.contains x then acc else acc ++ [x]

/-- The `edgeIndex` values of the sharp half-edges of a list, in order. -/
def sharpIdxList (m : Mesh) (l : List Nat) : List Nat :=
  (l.filter (fun e => (m.he e).isSharpEdge)).map (fun e => (m.he e).edgeIndex)

theorem sharpIdxList_cons (m : Mesh) (e : Nat) (l : List Nat) :
    sharpIdxList m (e :: l) = if (m.he e).isSharpEdge
      then (m.he e).edgeIndex :: sharpIdxList m l else sharpIdxList m l := by
  unfold sharpIdxList
  cases hs : (m.he e).isSharpEdge <;> simp [List.filter_cons, hs]

theorem creaseBody_eq (m : Mesh) (e : Nat) (acc : List Nat) :
    creaseBody m e acc
      = if (m.he e).isSharpEdge then insertIfNew acc ((m.he e).edgeIndex) else acc := by
  unfold creaseBody insertIfNew
  cases hs : (m.he e).isSharpEdge <;>
    cases hc : acc.contains ((m.he e).edgeIndex) <;> simp [hs, hc]

theorem foldl_insert_seg (m : Mesh) (acc : List Nat) (e : Nat) (l : List Nat) :
    (sharpIdxList m (e :: l)).foldl insertIfNew acc
      = (sharpIdxList m l).foldl insertIfNew (creaseBody m e acc) := by
  rw [sharpIdxList_cons, creaseBody_eq]
  cases hs : (m.he e).isSharpEdge <;> simp

theorem segment_succ (w : Nat → Nat) (k d : Nat) :
    (List.range (d + 1)).map (fun j => w (k + j))
      = w k :: (List.range d).map (fun j => w (k + 1 + j)) := by
  rw [List.range_succ_eq_map, List.map_cons, List.map_map]
  have hf : ((fun j => w (k + j)) ∘ Nat.succ) = fun j => w (k + 1 + j) :=
    funext fun j => congrArg w (by omega)
  rw [hf, Nat.add_zero]

/-- Unrolling `countCreaseEdges`'s loop along an interior ring walk: the loop
visits `w k .. w (n-1)` and inserts the sharp edge indices in order. -/
theorem creaseRingAccum_walk (m : Mesh) (o n : Nat) (w : Nat → Nat)
    (hcyc : w n = o)
    (hstep : ∀ k, k < n → ringStep m (w k) = some (w (k + 1)))
    (hdist : ∀ k, 0 < k → k < n → w k ≠ o) :
    ∀ d k acc, 0 < d → k + d = n →
      creaseRingAccum m o (2 * n - k) (w k) acc
        = (sharpIdxList m ((List.range d).map (fun j => w (k + j)))).foldl insertIfNew acc := by
  intro d
  induction d with
  | zero => intro k acc h0 _; omega
  | succ d ih =>
    intro k acc _ hkd
    have hfuel : 2 * n - k = (2 * n - k - 2) + 2 := by omega
    rw [hfuel, creaseRingAccum]
    rw [hstep k (by omega)]
    simp only
    cases d with
    | zero =>
      have hk1 : w (k + 1) = o := by rw [show k + 1 = n by omega, hcyc]
      rw [hk1, if_pos rfl]
      rw [show (List.range 1).map (fun j => w (k + j)) = [w k] from rfl]
      rw [foldl_insert_seg]
      rfl
    | succ d2 =>
      have hne : w (k + 1) ≠ o := hdist (k + 1) (by omega) (by omega)
      rw [if_neg hne]
      rw [show (2 * n - k - 2) + 1 = 2 * n - (k + 1) by omega]
      rw [ih (k + 1) (creaseBody m (w k) acc) (by omega) (by omega)]
      rw [segment_succ w k (d2 + 1), foldl_insert_seg]

/-- `countCreaseEdges` along an interior ring walk counts the distinct sharp
edge indices of the ring. -/
theorem countCreaseEdges_walk (m : Mesh) (v o n : Nat) (w : Nat → Nat)
    (ho : (m.vert v).out = some o) (hval : (m.vert v).valence = n) (hn : 0 < n)
    (hw0 : w 0 = o) (hcyc : w n = o)
    (hstep : ∀ k, k < n → ringStep m (w k) = some (w (k + 1)))
    (hdist : ∀ k, 0 < k → k < n → w k ≠ o) :
    countCreaseEdges m v
      = ((sharpIdxList m ((List.range n).map w)).foldl insertIfNew []).length := by
  have hgo : (m.vert v).out.getD 0 = o := by rw [ho]; rfl
  show (creaseRingAccum m ((m.vert v).out.getD 0) ((m.vert v).valence * 2)
    ((m.vert v).out.getD 0) []).length = _
  rw [hgo, hval]
  have hwalk := creaseRingAccum_walk m o n w hcyc hstep hdist n 0 [] hn (by omega)
  rw [hw0] at hwalk
  rw [show n * 2 = 2 * n - 0 by omega, hwalk]
  have hshift : (fun j => w (0 + j)) = w := funext fun j => congrArg w (by omega)
  rw [hshift]

/-- The boundary test walk returns `false` along a closed interior ring. -/
theorem boundaryCheckWalk_interior (m : Mesh) (o n : Nat) (w : Nat → Nat)
    (hcyc : w n = o)
    (hstep : ∀ k, k < n → ringStep m (w k) = some (w (k + 1)))
    (hdist : ∀ k, 0 < k → k < n → w k ≠ o) :
    ∀ d k, 0 < d → k + d = n → boundaryCheckWalk m o d (w k) = false := by
  intro d
  induction d with
  | zero => intro k h0 _; omega
  | succ d ih =>
    intro k _ hkd
    rw [boundaryCheckWalk]
    rw [hstep k (by omega)]
    simp only
    cases d with
    | zero =>
      have hk1 : w (k + 1) = o := by rw [show k + 1 = n by omega, hcyc]
      rw [hk1, if_pos rfl]
    | succ d2 =>
      have hne : w (k + 1) ≠ o := hdist (k + 1) (by omega) (by omega)
      rw [if_neg hne]
      exact ih (k + 1) (by omega) (by omega)

theorem isBoundaryVertexAt_interior (m : Mesh) (v o n : Nat) (w : Nat → Nat)
    (ho : (m.vert v).out = some o) (hval : (m.vert v).valence = n) (hn : 0 < n)
    (hw0 : w 0 = o) (hcyc : w n = o)
    (hstep : ∀ k, k < n → ringStep m (w k) = some (w (k + 1)))
    (hdist : ∀ k, 0 < k → k < n → w k ≠ o) :
    m.isBoundaryVertexAt v = false := by
  have hgo : (m.vert v).out.getD 0 = o := by rw [ho]; rfl
  show boundaryCheckWalk m ((m.vert v).out.getD 0) ((m.vert v).valence)
    ((m.vert v).out.getD 0) = false
  rw [hgo, hval]
  have hb := boundaryCheckWalk_interior m o n w hcyc hstep hdist n 0 hn (by omega)
  rw [hw0] at hb
  exact hb

/-! ## The creaseVertexPoint search loop along the same walk -/

theorem creaseIsNew_none (m : Mesh) (e : Nat) :
    creaseIsNew m e none = (m.he e).isSharpEdge := by
  unfold creaseIsNew
  cases hs : (m.he e).isSharpEdge <;> simp

theorem creaseIsNew_some (m : Mesh) (e c : Nat) :
    creaseIsNew m e (some c)
      = ((m.he e).isSharpEdge && !((m.he c).edgeIndex == (m.he e).edgeIndex)) := rfl

theorem creaseFindLoop_succ (m : Mesh) (out f e : Nat) (ce1 : Option Nat) :
    creaseFindLoop m out (f + 2) e ce1
      = match ce1, creaseIsNew m e ce1 with
        | some c1, true => (some c1, some e)
        | _, _ =>
          let ce2 := if creaseIsNew m e ce1 then some e else ce1
          match ringStep m e with
          | none => (ce2, none)
          | some e2 =>
            if e2 = out then (ce2, none) else creaseFindLoop m out (f + 1) e2 ce2 := rfl

/-- Suffix phase of the search (first crease edge `c` already found): if some
later ring half-edge is sharp with a different edge index, the loop returns
`c` paired with the first such half-edge. -/
theorem creaseFindLoop_found (m : Mesh) (o n : Nat) (w : Nat → Nat) (c : Nat)
    (hcyc : w n = o)
    (hstep : ∀ k, k < n → ringStep m (w k) = some (w (k + 1)))
    (hdist : ∀ k, 0 < k → k < n → w k ≠ o) :
    ∀ d k, 0 < d → k + d = n →
      (∃ j, k ≤ j ∧ j < n ∧ (m.he (w j)).isSharpEdge = true ∧
        (m.he (w j)).edgeIndex ≠ (m.he c).edgeIndex) →
      ∃ j, k ≤ j ∧ j < n ∧ (m.he (w j)).isSharpEdge = true ∧
        (m.he (w j)).edgeIndex ≠ (m.he c).edgeIndex ∧
        creaseFindLoop m o (2 * n - k) (w k) (some c) = (some c, some (w j)) := by
  intro d
  induction d with
  | zero => intro k h0 _; omega
  | succ d ih =>
    intro k _ hkd hex
    have hfuel : 2 * n - k = (2 * n - k - 2) + 2 := by omega
    by_cases hnew : creaseIsNew m (w k) (some c) = true
    · have hsh : (m.he (w k)).isSharpEdge = true ∧
          (m.he (w k)).edgeIndex ≠ (m.he c).edgeIndex := by
        rw [creaseIsNew_some] at hnew
        simp only [Bool.and_eq_true, Bool.not_eq_true', beq_eq_false_iff_ne] at hnew
        exact ⟨hnew.1, Ne.symm hnew.2⟩
      refine ⟨k, le_refl k, by omega, hsh.1, hsh.2, ?_⟩
      rw [hfuel, creaseFindLoop_succ, hnew]
    · have hnf : creaseIsNew m (w k) (some c) = false := by
        revert hnew
        cases creaseIsNew m (w k) (some c) <;> simp
      obtain ⟨j, hkj, hjn, hjs, hjne⟩ := hex
      have hjk : j ≠ k := by
        intro hjk
        subst hjk
        rw [creaseIsNew_some, hjs] at hnf
        simp at hnf
        exact hjne hnf.symm
      cases d with
      | zero => omega
      | succ d2 =>
        have hne : w (k + 1) ≠ o := hdist (k + 1) (by omega) (by omega)
        obtain ⟨j2, hj1, hj2, hj3, hj4, hj5⟩ := ih (k + 1) (by omega) (by omega)
          ⟨j, by omega, hjn, hjs, hjne⟩
        refine ⟨j2, by omega, hj2, hj3, hj4, ?_⟩
        rw [hfuel, creaseFindLoop_succ, hnf]
        rw [hstep k (by omega)]
        show (if w (k + 1) = o then ((some c : Option Nat), (none : Option Nat))
            else creaseFindLoop m o (2 * n - k - 2 + 1) (w (k + 1)) (some c))
          = (some c, some (w j2))
        rw [if_neg hne, show 2 * n - k - 2 + 1 = 2 * n - (k + 1) by omega]
        exact hj5

/-- Start phase of the search: if the ring carries two sharp half-edges with
distinct edge indices, the loop returns the first sharp half-edge paired with
the first subsequent sharp half-edge of a different edge index. -/
theorem creaseFindLoop_start (m : Mesh) (o n : Nat) (w : Nat → Nat)
    (hcyc : w n = o)
    (hstep : ∀ k, k < n → ringStep m (w k) = some (w (k + 1)))
    (hdist : ∀ k, 0 < k → k < n → w k ≠ o) :
    ∀ d k, 0 < d → k + d = n →
      (∃ i j, k ≤ i ∧ i < j ∧ j < n ∧ (m.he (w i)).isSharpEdge = true ∧
        (m.he (w j)).isSharpEdge = true ∧
        (m.he (w j)).edgeIndex ≠ (m.he (w i)).edgeIndex) →
      ∃ i j, k ≤ i ∧ i < j ∧ j < n ∧ (m.he (w i)).isSharpEdge = true ∧
        (m.he (w j)).isSharpEdge = true ∧
        (m.he (w j)).edgeIndex ≠ (m.he (w i)).edgeIndex ∧
        creaseFindLoop m o (2 * n - k) (w k) none = (some (w i), some (w j)) := by
  intro d
  induction d with
  | zero => intro k h0 _; omega
  | succ d ih =>
    intro k _ hkd hex
    have hfuel : 2 * n - k = (2 * n - k - 2) + 2 := by omega
    by_cases hsh : (m.he (w k)).isSharpEdge = true
    · have hnew : creaseIsNew m (w k) none = true := by
        rw [creaseIsNew_none]
        exact hsh
      cases d with
      | zero =>
        obtain ⟨i, j, h1, h2, h3, _⟩ := hex
        omega
      | succ d2 =>
        have hne : w (k + 1) ≠ o := hdist (k + 1) (by omega) (by omega)
        obtain ⟨i, j, h1, h2, h3, h4, h5, h6⟩ := hex
        have hex2 : ∃ j2, k + 1 ≤ j2 ∧ j2 < n ∧ (m.he (w j2)).isSharpEdge = true ∧
            (m.he (w j2)).edgeIndex ≠ (m.he (w k)).edgeIndex := by
          by_cases hcase : (m.he (w j)).edgeIndex = (m.he (w k)).edgeIndex
          · have hik : (m.he (w i)).edgeIndex ≠ (m.he (w k)).edgeIndex := by
              intro hik
              exact h6 (hcase.trans hik.symm)
            have hik2 : i ≠ k := by
              intro hik2
              exact hik (by rw [hik2])
            exact ⟨i, by omega, by omega, h4, hik⟩
          · exact ⟨j, by omega, h3, h5, hcase⟩
        obtain ⟨j2, hj1, hj2, hj3, hj4, hj5⟩ := creaseFindLoop_found m o n w (w k)
          hcyc hstep hdist (d2 + 1) (k + 1) (by omega) (by omega) hex2
        refine ⟨k, j2, le_refl k, by omega, hj2, hsh, hj3, hj4, ?_⟩
        rw [hfuel, creaseFindLoop_succ, hnew]
        rw [hstep k (by omega)]
        show (if w (k + 1) = o then ((some (w k) : Option Nat), (none : Option Nat))
            else creaseFindLoop m o (2 * n - k - 2 + 1) (w (k + 1)) (some (w k)))
          = (some (w k), some (w j2))
        rw [if_neg hne, show 2 * n - k - 2 + 1 = 2 * n - (k + 1) by omega]
        exact hj5
    · have hnf : creaseIsNew m (w k) none = false := by
        rw [creaseIsNew_none]
        revert hsh
        cases (m.he (w k)).isSharpEdge <;> simp
      cases d with
      | zero =>
        obtain ⟨i, j, h1, h2, h3, h4, _⟩ := hex
        have : i = k := by omega
        rw [this] at h4
        exact absurd h4 hsh
      | succ d2 =>
        have hne : w (k + 1) ≠ o := hdist (k + 1) (by omega) (by omega)
        obtain ⟨i, j, h1, h2, h3, h4, h5, h6⟩ := hex
        have hik : i ≠ k := by
          intro hik
          rw [hik] at h4
          exact hsh h4
        obtain ⟨i2, j2, g1, g2, g3, g4, g5, g6, g7⟩ := ih (k + 1) (by omega) (by omega)
          ⟨i, j, by omega, h2, h3, h4, h5, h6⟩
        refine ⟨i2, j2, by omega, g2, g3, g4, g5, g6, ?_⟩
        rw [hfuel, creaseFindLoop_succ, hnf]
        rw [hstep k (by omega)]
        show (if w (k + 1) = o then ((none : Option Nat), (none : Option Nat))
            else creaseFindLoop m o (2 * n - k - 2 + 1) (w (k + 1)) none)
          = (some (w i2), some (w j2))
        rw [if_neg hne, show 2 * n - k - 2 + 1 = 2 * n - (k + 1) by omega]
        exact g7

/-! ## Two distinct sharp edge indices from the deduplicated count -/

theorem foldl_insert_all_mem (l acc : List Nat) (hall : ∀ x, x ∈ l → acc.contains x = true) :
    l.foldl insertIfNew acc = acc := by
  induction l with
  | nil => rfl
  | cons x t ih =>
    show t.foldl insertIfNew (insertIfNew acc x) = acc
    rw [show insertIfNew acc x = acc from by unfold insertIfNew; rw [if_pos (hall x (by simp))]]
    exact ih (fun y hy => hall y (by simp [hy]))

theorem exists_two_of_count (l : List Nat) (h2 : (l.foldl insertIfNew []).length = 2) :
    ∃ a b, a ∈ l ∧ b ∈ l ∧ a ≠ b := by
  by_contra hno
  push_neg at hno
  cases l with
  | nil => simp at h2
  | cons x t =>
    have hx : (x :: t).foldl insertIfNew [] = [x] := by
      show t.foldl insertIfNew (insertIfNew [] x) = [x]
      rw [show insertIfNew [] x = [x] from rfl]
      refine foldl_insert_all_mem t [x] ?_
      intro y hy
      rw [hno y x (by simp [hy]) (by simp)]
      simp
    rw [hx] at h2
    simp at h2

theorem twoDistinct_of_count (m : Mesh) (w : Nat → Nat) (n : Nat)
    (h2 : ((sharpIdxList m ((List.range n).map w)).foldl insertIfNew []).length = 2) :
    ∃ i j, i < j ∧ j < n ∧ (m.he (w i)).isSharpEdge = true ∧
      (m.he (w j)).isSharpEdge = true ∧
      (m.he (w j)).edgeIndex ≠ (m.he (w i)).edgeIndex := by
  obtain ⟨a, b, ha, hb, hab⟩ := exists_two_of_count _ h2
  simp only [sharpIdxList, List.mem_map, List.mem_filter, List.mem_range] at ha hb
  obtain ⟨e1, ⟨⟨i, hi, hei⟩, hs1⟩, hidx1⟩ := ha
  obtain ⟨e2, ⟨⟨j, hj, hej⟩, hs2⟩, hidx2⟩ := hb
  subst hei
  subst hej
  rcases lt_trichotomy i j with hij | hij | hij
  · refine ⟨i, j, hij, hj, hs1, hs2, ?_⟩
    rw [hidx1, hidx2]
    exact fun hc => hab hc.symm
  · exfalso
    subst hij
    rw [hidx1] at hidx2
    exact hab hidx2
  · refine ⟨j, i, hij, hi, hs2, hs1, ?_⟩
    rw [hidx1, hidx2]
    exact fun hc => hab hc

/-! ## C1 (amended): the crease vertex point -/

/-- C1 (amended): for an interior vertex whose incident-edge ring carries
exactly 2 distinct sharp edge indices, the vertex point written by `subdivide`
at the vertex's own index is `(4*S + 2*m1 + 2*m2) / 8 = S/2 + m1/4 + m2/4`,
where `m1`, `m2` are the midpoints of the two crease half-edges found by the
ring walk (not `(4*S + m1 + m2)/8` as originally claimed). -/
theorem C1_crease_vertex_amended (m : Mesh) (v o n : Nat) (w : Nat → Nat)
    (hv : v < m.numVerts)
    (ho : (m.vert v).out = some o) (hval : (m.vert v).valence = n) (hn : 0 < n)
    (hw0 : w 0 = o) (hcyc : w n = o)
    (hstep : ∀ k, k < n → ringStep m (w k) = some (w (k + 1)))
    (hdist : ∀ k, 0 < k → k < n → w k ≠ o)
    (h2 : ((sharpIdxList m ((List.range n).map w)).foldl insertIfNew []).length = 2) :
    ∃ k1 k2, k1 < k2 ∧ k2 < n ∧ (m.he (w k1)).isSharpEdge = true ∧
      (m.he (w k2)).isSharpEdge = true ∧
      (m.he (w k2)).edgeIndex ≠ (m.he (w k1)).edgeIndex ∧
      ((subdivide m).vert v).coords
        = Vec3.smul (1/2) (m.vert v).coords
          + Vec3.smul (1/4) (((m.vert ((m.he (w k1)).origin)).coords
              + (m.vert ((m.he ((m.he (w k1)).next)).origin)).coords).div 2)
          + Vec3.smul (1/4) (((m.vert ((m.he (w k2)).origin)).coords
              + (m.vert ((m.he ((m.he (w k2)).next)).origin)).coords).div 2) := by
  have hcnt : countCreaseEdges m v = 2 := by
    rw [countCreaseEdges_walk m v o n w ho hval hn hw0 hcyc hstep hdist]
    exact h2
  have hbnd := isBoundaryVertexAt_interior m v o n w ho hval hn hw0 hcyc hstep hdist
  obtain ⟨i, j, hij, hjn, hsi, hsj, hne⟩ := twoDistinct_of_count m w n h2
  obtain ⟨i2, j2, g1, g2, g3, g4, g5, g6, g7⟩ := creaseFindLoop_start m o n w hcyc hstep
    hdist n 0 hn (by omega) ⟨i, j, by omega, hij, hjn, hsi, hsj, hne⟩
  have hvpv : vertexPointValue m v = creaseVertexPoint m v := by
    unfold vertexPointValue
    simp [hbnd, hcnt]
  have hgo : (m.vert v).out.getD 0 = o := by rw [ho]; rfl
  rw [hw0] at g7
  rw [show 2 * n - 0 = n * 2 from by omega] at g7
  have hcv : creaseVertexPoint m v
      = Vec3.smul (1/2) (m.vert v).coords + Vec3.smul (1/4) (sharpEdgePoint m (w i2))
        + Vec3.smul (1/4) (sharpEdgePoint m (w j2)) := by
    unfold creaseVertexPoint
    rw [hgo, hval]
    show (match creaseFindLoop m o (n * 2) o none with
      | (some c1, some c2) =>
        Vec3.smul (1/2) (m.vert v).coords + Vec3.smul (1/4) (sharpEdgePoint m c1)
          + Vec3.smul (1/4) (sharpEdgePoint m c2)
      | _ => (m.vert v).coords)
      = Vec3.smul (1/2) (m.vert v).coords + Vec3.smul (1/4) (sharpEdgePoint m (w i2))
        + Vec3.smul (1/4) (sharpEdgePoint m (w j2))
    rw [g7]
  refine ⟨i2, j2, g2, g3, g4, g5, g6, ?_⟩
  rw [(subdivide_vertexPoint m v hv).1, hvpv, hcv]
  rfl

/-! ## A decidable well-formedness check for concrete meshes -/

/-- Executable check of the twin-related `MeshWF` conditions at one half-edge. -/
def twinOk (m : Mesh) (h : Nat) : Bool :=
  match (m.he h).twin with
  | none => true
  | some t =>
    decide (t < m.numHalfEdges) && (t != h) && ((m.he t).twin == some h)
      && ((m.he t).sharpness == (m.he h).sharpness)
      && ((m.he t).edgeIndex == (m.he h).edgeIndex)

theorem twin_wf_of_twinOk (m : Mesh) (h : Nat) (hok : twinOk m h = true) :
    ∀ t, (m.he h).twin = some t → t < m.numHalfEdges ∧ t ≠ h ∧ (m.he t).twin = some h ∧
      (m.he t).sharpness = (m.he h).sharpness ∧ (m.he t).edgeIndex = (m.he h).edgeIndex := by
  intro t ht
  unfold twinOk at hok
  rw [ht] at hok
  simp only [Bool.and_eq_true, decide_eq_true_eq, bne_iff_ne, beq_iff_eq] at hok
  exact ⟨hok.1.1.1.1, hok.1.1.1.2, hok.1.1.2, hok.1.2, hok.2⟩

/-- Executable check of all `MeshWF` conditions. -/
def meshWFb (m : Mesh) : Bool :=
  ((List.range m.numHalfEdges).all (fun h =>
    ((m.he h).index == h) && decide ((m.he h).origin < m.numVerts)
      && decide ((m.he h).next < m.numHalfEdges) && decide ((m.he h).prev < m.numHalfEdges)
      && decide ((m.he h).face < m.numFaces) && twinOk m h
      && ((m.he ((m.he h).next)).prev == h) && ((m.he ((m.he h).prev)).next == h)
      && decide ((m.he h).edgeIndex < m.numEdges)
      && (((m.he h).sharpness == -1) || decide (0 ≤ (m.he h).sharpness))))
    && (List.range m.numVerts).all (fun v => (m.vert v).index == v)
    && (List.range m.numFaces).all (fun f => (m.face f).index == f)

theorem meshWF_of_b (m : Mesh) (hb : meshWFb m = true) : MeshWF m := by
  unfold meshWFb at hb
  simp only [Bool.and_eq_true, Bool.or_eq_true, List.all_eq_true, List.mem_range,
    decide_eq_true_eq, beq_iff_eq] at hb
  obtain ⟨⟨hhe, hv⟩, hf⟩ := hb
  refine ⟨fun h hh => ((hhe h hh).1.1.1.1.1.1.1.1.1), hv, hf,
    fun h hh => ((hhe h hh).1.1.1.1.1.1.1.1.2),
    fun h hh => ((hhe h hh).1.1.1.1.1.1.1.2),
    fun h hh => ((hhe h hh).1.1.1.1.1.1.2),
    fun h hh => ((hhe h hh).1.1.1.1.1.2),
    fun h hh t ht => ?_,
    fun h hh => ((hhe h hh).1.1.1.2),
    fun h hh => ((hhe h hh).1.1.2),
    fun h hh t ht => ?_,
    fun h hh => ((hhe h hh).1.2),
    fun h hh => ((hhe h hh).2)⟩
  · have hw := twin_wf_of_twinOk m h ((hhe h hh).1.1.1.1.2) t ht
    exact ⟨hw.1, hw.2.1, hw.2.2.1⟩
  · have hw := twin_wf_of_twinOk m h ((hhe h hh).1.1.1.1.2) t ht
    exact ⟨hw.2.2.2.1, hw.2.2.2.2⟩

/-! ## Concrete meshes: the pillow (two quads glued along all four edges) -/

def v3 (a b c : ℚ) : Vec3 := ⟨a, b, c⟩

def pillowHE : List HalfEdge :=
  [ ⟨0, 1, 3, some 4, 0, 0, 0, 0⟩,
    ⟨1, 2, 0, some 7, 0, 1, 1, 0⟩,
    ⟨2, 3, 1, some 6, 0, 2, 2, 0⟩,
    ⟨3, 0, 2, some 5, 0, 3, 3, 0⟩,
    ⟨1, 5, 7, some 0, 1, 4, 0, 0⟩,
    ⟨0, 6, 4, some 3, 1, 5, 3, 0⟩,
    ⟨3, 7, 5, some 2, 1, 6, 2, 0⟩,
    ⟨2, 4, 6, some 1, 1, 7, 1, 0⟩ ]

def pillowV : List Vertex :=
  [ ⟨v3 0 0 0, some 0, 2, 0⟩,
    ⟨v3 1 0 0, some 1, 2, 1⟩,
    ⟨v3 1 1 0, some 2, 2, 2⟩,
    ⟨v3 0 1 0, some 3, 2, 3⟩ ]

def pillowF : List Face := [⟨0, 4, 0⟩, ⟨4, 4, 1⟩]

def pillow : Mesh := ⟨pillowV, pillowHE, pillowF, 4, []⟩

def setSharpList (m : Mesh) (l : List (Nat × Int)) : Mesh :=
  l.foldl (fun acc p => setSharpAt acc p.1 p.2) m

/-- The pillow with infinitely sharp creases on the two edges at vertex 0. -/
def pillowC1 : Mesh := setSharpList pillow [(0, -1), (4, -1), (3, -1), (5, -1)]

/-- The pillow with sharpness 5 on edge 0. -/
def pillowS : Mesh := setSharpList pillow [(0, 5), (4, 5)]

/-- The pillow with a backed-up coordinate list of matching length. -/
def pillowB : Mesh := ⟨pillowV, pillowHE, pillowF, 4, [v3 9 9 9, v3 8 8 8, v3 7 7 7, v3 6 6 6]⟩

/-- The explicit ring walk around vertex 0 of the pillow: `out = 0`,
`ringStep 0 = 5`, `ringStep 5 = 0`. -/
def wC1 : Nat → Nat := fun k => if k = 1 then 5 else 0

theorem vec3_add_mk (a b c d e f : ℚ) : (⟨a, b, c⟩ : Vec3) + ⟨d, e, f⟩ = ⟨a + d, b + e, c + f⟩ :=
  rfl

theorem vec3_smul_mk (q a b c : ℚ) : Vec3.smul q ⟨a, b, c⟩ = ⟨q * a, q * b, q * c⟩ := rfl

theorem vec3_div_mk (a b c q : ℚ) : Vec3.div ⟨a, b, c⟩ q = ⟨a / q, b / q, c / q⟩ := rfl

/-- C1 counterexample: at vertex 0 of `pillowC1` (interior, exactly two
incident crease edges with midpoints `m1 = (1/2,0,0)`, `m2 = (0,1/2,0)` and
position `S = (0,0,0)`), the vertex point actually produced by `subdivide` is
`(1/8, 1/8, 0) = S/2 + m1/4 + m2/4`, while the claimed
`(4*S + m1 + m2)/8` is `(1/16, 1/16, 0)`, a different point. -/
theorem C1_crease_vertex_counterexample :
    pillowC1.isBoundaryVertexAt 0 = false ∧
    countCreaseEdges pillowC1 0 = 2 ∧
    ((subdivide pillowC1).vert 0).coords = v3 (1/8) (1/8) 0 ∧
    Vec3.smul (1/8) (Vec3.smul 4 ((pillowC1.vert 0).coords)
        + sharpEdgePoint pillowC1 0 + sharpEdgePoint pillowC1 5) = v3 (1/16) (1/16) 0 ∧
    v3 (1/8) (1/8) 0 ≠ v3 (1/16) (1/16) 0 := by
  have hc := (subdivide_vertexPoint pillowC1 0 (by decide)).1
  refine ⟨by decide, by decide, ?_, ?_, by norm_num [v3, Vec3.mk.injEq]⟩
  · rw [hc]
    show Vec3.smul (1/2) (⟨0, 0, 0⟩ : Vec3)
        + Vec3.smul (1/4) (((⟨0, 0, 0⟩ : Vec3) + ⟨1, 0, 0⟩).div 2)
        + Vec3.smul (1/4) (((⟨0, 0, 0⟩ : Vec3) + ⟨0, 1, 0⟩).div 2) = ⟨1/8, 1/8, 0⟩
    simp only [vec3_add_mk, vec3_smul_mk, vec3_div_mk, Vec3.mk.injEq]
    norm_num
  · show Vec3.smul (1/8) (Vec3.smul 4 (⟨0, 0, 0⟩ : Vec3)
        + ((⟨0, 0, 0⟩ : Vec3) + ⟨1, 0, 0⟩).div 2
        + ((⟨0, 0, 0⟩ : Vec3) + ⟨0, 1, 0⟩).div 2) = ⟨1/16, 1/16, 0⟩
    simp only [vec3_add_mk, vec3_smul_mk, vec3_div_mk, Vec3.mk.injEq]
    norm_num

theorem C1_crease_vertex_amended_witness :
    ∃ k1 k2, k1 < k2 ∧ k2 < 2 ∧ (pillowC1.he (wC1 k1)).isSharpEdge = true ∧
      (pillowC1.he (wC1 k2)).isSharpEdge = true ∧
      (pillowC1.he (wC1 k2)).edgeIndex ≠ (pillowC1.he (wC1 k1)).edgeIndex ∧
      ((subdivide pillowC1).vert 0).coords
        = Vec3.smul (1/2) (pillowC1.vert 0).coords
          + Vec3.smul (1/4) (((pillowC1.vert ((pillowC1.he (wC1 k1)).origin)).coords
              + (pillowC1.vert ((pillowC1.he ((pillowC1.he (wC1 k1)).next)).origin)).coords).div 2)
          + Vec3.smul (1/4) (((pillowC1.vert ((pillowC1.he (wC1 k2)).origin)).coords
              + (pillowC1.vert ((pillowC1.he ((pillowC1.he (wC1 k2)).next)).origin)).coords).div 2) :=
  C1_crease_vertex_amended pillowC1 0 0 2 wC1 (by decide) (by decide) (by decide)
    (by decide) (by decide) (by decide) (by decide)
    (by intro k h1 h2; have hk : k = 1 := (by omega); subst hk; decide)
    (by decide)

theorem C2_crease_decay_witness :
    ((subdivide pillowS).he (4 * 0)).sharpness = (pillowS.he 0).sharpness - 1 ∧
    ((subdivide pillowS).he (4 * 0 + 1)).sharpness = 0 ∧
    ((subdivide pillowS).he (4 * 0 + 2)).sharpness = 0 := by
  have h := C2_crease_decay pillowS (meshWF_of_b pillowS (by decide)) 0 (by decide)
  exact ⟨(h.1 (by decide)).1, h.2.2.2.2.2.2.1, h.2.2.2.2.2.2.2⟩

theorem C5_edge_points_witness :
    ((subdivide pillow).vert
        (pillow.numVerts + pillow.numFaces + (pillow.he 4).edgeIndex)).coords
      = (((pillow.vert ((pillow.he 4).origin)).coords
          + (pillow.vert ((pillow.he ((pillow.he 4).next)).origin)).coords).div 2
        + ((cornerSum pillow (faceRing pillow ((pillow.face ((pillow.he 4).face)).valence)
              ((pillow.face ((pillow.he 4).face)).side))).div
                (((pillow.face ((pillow.he 4).face)).valence : ℚ))
          + (cornerSum pillow (faceRing pillow ((pillow.face ((pillow.he 0).face)).valence)
              ((pillow.face ((pillow.he 0).face)).side))).div
                (((pillow.face ((pillow.he 0).face)).valence : ℚ))).div 2).div 2 ∧
    ((subdivide pillow).vert
        (pillow.numVerts + pillow.numFaces + (pillow.he 4).edgeIndex)).valence = 4 := by
  have h := C5_edge_points pillow (meshWF_of_b pillow (by decide)) 4 (by decide) (by decide)
  exact (h.2.2 (by decide)).2.2 0 (by decide) (by decide)

theorem C6_closed_twins_witness : ((subdivide pillow).he 0).twin ≠ none :=
  C6_closed_twins pillow (meshWF_of_b pillow (by decide)) (by decide) 0 (by decide)

theorem C7_limit_roundtrip_witness :
    ((limitToggleStep (fun _ => (0 : ℚ)) false true
        (limitToggleStep (fun _ => (0 : ℚ)) true false pillow)).vert 0).coords
      = (pillow.vert 0).coords :=
  C7_limit_roundtrip (fun _ => (0 : ℚ)) pillow rfl 0

theorem C8_pure_fresh_indices_witness :
    (subdivideTrace pillow).1 = pillow ∧ ((subdivide pillow).he 5).index = 5 ∧
    ((subdivide pillow).face 1).index = 1 ∧ ((subdivide pillow).vert 3).index = 3 := by
  have h := C8_pure_fresh_indices pillow (meshWF_of_b pillow (by decide))
    (by
      intro e he
      have he4 : e < 4 := he
      interval_cases e
      · exact ⟨4, by decide⟩
      · exact ⟨7, by decide⟩
      · exact ⟨6, by decide⟩
      · exact ⟨5, by decide⟩)
    (by
      intro a b ha hb
      have ha8 : a < 8 := ha
      have hb8 : b < 8 := hb
      interval_cases a <;> interval_cases b <;> decide)
  exact ⟨h.1, h.2.1 5 (by decide), h.2.2.1 1 (by decide), h.2.2.2 3 (by decide)⟩

/-- A mesh whose single vertex is interior (the ring walk runs zero steps) and
has valence 0. -/
def meshC9 : Mesh := ⟨[⟨v3 1 2 3, none, 0, 0⟩], [], [], 0, []⟩

/-- C9: the code has no valence guard — `Mesh::projectVerticesToCatmullClarkLimit`
does NOT fail on an interior vertex of valence 0.  It returns normally and
writes the value of the weight formula with the division by zero `w0 / 0`
carried out (the rational embedding of the float expression whose C++
evaluation produces Inf/NaN); the claimed precondition violation never
happens. -/
theorem C9_limit_valence0_no_guard (cosw : Nat → ℚ) (m : Mesh) (vi : Nat)
    (hvi : vi < m.numVerts)
    (hb : m.isBoundaryVertexAt vi = false) (hval : (m.vert vi).valence = 0) :
    ((projectVerticesToCatmullClarkLimit cosw m).vert vi).coords
      = Vec3.smul (1 - (5 / 8 - ((3 + 2 * cosw 0) / 8) * ((3 + 2 * cosw 0) / 8)) / 0 * 0)
          ((m.vert vi).coords)
        + Vec3.smul ((5 / 8 - ((3 + 2 * cosw 0) / 8) * ((3 + 2 * cosw 0) / 8)) / 0)
            Vec3.zero := by
  have hr : (List.range m.numVerts).getD vi 0 = vi := by
    rw [List.getD_eq_getElem?_getD, List.getElem?_range hvi]
    rfl
  have hv : (projectVerticesToCatmullClarkLimit cosw m).vert vi
      = withCoords (m.vert vi) (limitPositionAt cosw m vi) := by
    show (List.zipWith withCoords m.vertices
        ((List.range m.numVerts).map (limitPositionAt cosw m))).getD vi dVertex = _
    rw [getD_zipWith withCoords _ _ vi dVertex dVertex (limitPositionAt cosw m 0) hvi
      (by simpa using hvi)]
    rw [getD_map, hr]
    rfl
  rw [hv]
  show limitPositionAt cosw m vi = _
  unfold limitPositionAt
  rw [hb]
  rw [if_neg (by decide)]
  have hns : neighborSumAux m 0 ((m.vert vi).out.getD 0) = Vec3.zero := rfl
  simp only [hval, Nat.cast_zero, hns]

theorem C9_limit_valence0_no_guard_witness :
    ((projectVerticesToCatmullClarkLimit (fun _ => (0 : ℚ)) meshC9).vert 0).coords
      = Vec3.smul (1 - (5 / 8 - ((3 + 2 * (0 : ℚ)) / 8) * ((3 + 2 * (0 : ℚ)) / 8)) / 0 * 0)
          ((meshC9.vert 0).coords)
        + Vec3.smul ((5 / 8 - ((3 + 2 * (0 : ℚ)) / 8) * ((3 + 2 * (0 : ℚ)) / 8)) / 0)
            Vec3.zero :=
  C9_limit_valence0_no_guard (fun _ => (0 : ℚ)) meshC9 0 (by decide) (by decide) (by decide)

theorem C10_restore_guard_witness :
    (((restoreOriginalCoords pillowB).vert 0).coords = v3 9 9 9 ∧
      (restoreOriginalCoords pillowB).originalCoords = []) ∧
    restoreOriginalCoords pillow = pillow := by
  have h := (C10_restore_guard pillowB).1 (by decide)
  have h2 := (C10_restore_guard pillow).2 (by decide)
  refine ⟨⟨?_, h.2⟩, h2⟩
  rw [(h.1 0 (by decide)).1]
  decide

/-! ## C3: pairwise simulation of a finite-sharpness mesh against its
infinitely-sharp counterpart.

Two meshes that agree on everything except the sharpness values (and whose
sharpness values classify every half-edge as sharp in both or in neither)
produce the same geometry; topology refinement keeps them related. -/

theorem strip_origin {e1 e2 : HalfEdge} (h : stripSharp e1 = stripSharp e2) :
    e1.origin = e2.origin := by
  have h2 := congrArg HalfEdge.origin h
  exact h2

theorem strip_next {e1 e2 : HalfEdge} (h : stripSharp e1 = stripSharp e2) :
    e1.next = e2.next := by
  have h2 := congrArg HalfEdge.next h
  exact h2

theorem strip_prev {e1 e2 : HalfEdge} (h : stripSharp e1 = stripSharp e2) :
    e1.prev = e2.prev := by
  have h2 := congrArg HalfEdge.prev h
  exact h2

theorem strip_twin {e1 e2 : HalfEdge} (h : stripSharp e1 = stripSharp e2) :
    e1.twin = e2.twin := by
  have h2 := congrArg HalfEdge.twin h
  exact h2

theorem strip_face {e1 e2 : HalfEdge} (h : stripSharp e1 = stripSharp e2) :
    e1.face = e2.face := by
  have h2 := congrArg HalfEdge.face h
  exact h2

theorem strip_index {e1 e2 : HalfEdge} (h : stripSharp e1 = stripSharp e2) :
    e1.index = e2.index := by
  have h2 := congrArg HalfEdge.index h
  exact h2

theorem strip_edgeIndex {e1 e2 : HalfEdge} (h : stripSharp e1 = stripSharp e2) :
    e1.edgeIndex = e2.edgeIndex := by
  have h2 := congrArg HalfEdge.edgeIndex h
  exact h2

/-- Congruence hypotheses under which all geometry computations agree. -/
structure GeomCong (m1 m2 : Mesh) : Prop where
  hV : m1.vertices = m2.vertices
  hF : m1.faces = m2.faces
  hE : m1.edgeCount = m2.edgeCount
  strip : ∀ p, stripSharp (m1.he p) = stripSharp (m2.he p)
  sharpEq : ∀ p, (m1.he p).isSharpEdge = (m2.he p).isSharpEdge
  lenHE : m1.halfEdges.length = m2.halfEdges.length

theorem vert_cong {m1 m2 : Mesh} (hg : GeomCong m1 m2) (v : Nat) : m1.vert v = m2.vert v := by
  show m1.vertices.getD v dVertex = m2.vertices.getD v dVertex
  rw [hg.hV]

theorem face_cong {m1 m2 : Mesh} (hg : GeomCong m1 m2) (f : Nat) : m1.face f = m2.face f := by
  show m1.faces.getD f dFace = m2.faces.getD f dFace
  rw [hg.hF]

theorem numVerts_cong {m1 m2 : Mesh} (hg : GeomCong m1 m2) : m1.numVerts = m2.numVerts :=
  congrArg List.length hg.hV

theorem numFaces_cong {m1 m2 : Mesh} (hg : GeomCong m1 m2) : m1.numFaces = m2.numFaces :=
  congrArg List.length hg.hF

theorem numHalfEdges_cong {m1 m2 : Mesh} (hg : GeomCong m1 m2) :
    m1.numHalfEdges = m2.numHalfEdges := hg.lenHE

theorem numEdges_cong {m1 m2 : Mesh} (hg : GeomCong m1 m2) : m1.numEdges = m2.numEdges := hg.hE

theorem twinIdx_cong {m1 m2 : Mesh} (hg : GeomCong m1 m2) (p : Nat) :
    (m1.he p).twinIdx = (m2.he p).twinIdx := by
  unfold HalfEdge.twinIdx
  rw [strip_twin (hg.strip p)]

theorem ringStep_cong {m1 m2 : Mesh} (hg : GeomCong m1 m2) (e : Nat) :
    ringStep m1 e = ringStep m2 e := by
  unfold ringStep
  rw [strip_prev (hg.strip e)]
  exact strip_twin (hg.strip _)

theorem facePointAccum_cong {m1 m2 : Mesh} (hg : GeomCong m1 m2) :
    ∀ k e, facePointAccum m1 k e = facePointAccum m2 k e := by
  intro k
  induction k with
  | zero => intro e; rfl
  | succ k ih =>
    intro e
    show (m1.vert ((m1.he e).origin)).coords + facePointAccum m1 k ((m1.he e).next)
      = (m2.vert ((m2.he e).origin)).coords + facePointAccum m2 k ((m2.he e).next)
    rw [strip_origin (hg.strip e), vert_cong hg, strip_next (hg.strip e), ih]

theorem facePoint_cong {m1 m2 : Mesh} (hg : GeomCong m1 m2) (f : Nat) :
    facePoint m1 f = facePoint m2 f := by
  unfold facePoint
  rw [face_cong hg, facePointAccum_cong hg]

theorem boundaryEdgePoint_cong {m1 m2 : Mesh} (hg : GeomCong m1 m2) (h : Nat) :
    boundaryEdgePoint m1 h = boundaryEdgePoint m2 h := by
  unfold boundaryEdgePoint
  rw [strip_origin (hg.strip h), vert_cong hg, strip_next (hg.strip h),
    strip_origin (hg.strip ((m2.he h).next)), vert_cong hg]

theorem sharpEdgePoint_cong {m1 m2 : Mesh} (hg : GeomCong m1 m2) (h : Nat) :
    sharpEdgePoint m1 h = sharpEdgePoint m2 h := by
  unfold sharpEdgePoint
  rw [strip_origin (hg.strip h), vert_cong hg, strip_next (hg.strip h),
    strip_origin (hg.strip ((m2.he h).next)), vert_cong hg]

theorem edgePoint_cong {m1 m2 : Mesh} (hg : GeomCong m1 m2) (h : Nat) :
    edgePoint m1 h = edgePoint m2 h := by
  unfold edgePoint
  rw [boundaryEdgePoint_cong hg, strip_face (hg.strip h), facePoint_cong hg,
    strip_twin (hg.strip h), strip_face (hg.strip ((m2.he h).twin.getD 0)), facePoint_cong hg]

theorem smoothAccum_cong {m1 m2 : Mesh} (hg : GeomCong m1 m2) :
    ∀ k e, smoothAccum m1 k e = smoothAccum m2 k e := by
  intro k
  induction k with
  | zero => intro e; rfl
  | succ k ih =>
    intro e
    show (((m1.vert ((m1.he e).origin)).coords
          + (m1.vert ((m1.he ((m1.he e).next)).origin)).coords).div 2
        + (smoothAccum m1 k ((ringStep m1 e).getD 0)).1,
      facePoint m1 ((m1.he e).face) + (smoothAccum m1 k ((ringStep m1 e).getD 0)).2) = _
    rw [strip_origin (hg.strip e), vert_cong hg, strip_next (hg.strip e),
      strip_origin (hg.strip ((m2.he e).next)), vert_cong hg, ringStep_cong hg, ih,
      strip_face (hg.strip e), facePoint_cong hg]
    rfl

theorem vertexPoint_cong {m1 m2 : Mesh} (hg : GeomCong m1 m2) (vi : Nat) :
    vertexPoint m1 vi = vertexPoint m2 vi := by
  show ((smoothAccum m1 (m1.vert vi).valence ((m1.vert vi).out.getD 0)).2.div
        (((m1.vert vi).valence : ℚ))
      + Vec3.smul 2 ((smoothAccum m1 (m1.vert vi).valence
          ((m1.vert vi).out.getD 0)).1.div (((m1.vert vi).valence : ℚ)))
      + Vec3.smul ((((m1.vert vi).valence : ℚ)) - 3) (m1.vert vi).coords).div
        (((m1.vert vi).valence : ℚ))
    = ((smoothAccum m2 (m2.vert vi).valence ((m2.vert vi).out.getD 0)).2.div
        (((m2.vert vi).valence : ℚ))
      + Vec3.smul 2 ((smoothAccum m2 (m2.vert vi).valence
          ((m2.vert vi).out.getD 0)).1.div (((m2.vert vi).valence : ℚ)))
      + Vec3.smul ((((m2.vert vi).valence : ℚ)) - 3) (m2.vert vi).coords).div
        (((m2.vert vi).valence : ℚ))
  rw [vert_cong hg, smoothAccum_cong hg]

theorem nextBoundaryWalk_cong {m1 m2 : Mesh} (hg : GeomCong m1 m2) :
    ∀ k e, nextBoundaryWalk m1 k e = nextBoundaryWalk m2 k e := by
  intro k
  induction k with
  | zero => intro e; rfl
  | succ k ih =>
    intro e
    show (match (m1.he e).twin with
      | none => some e
      | some t => nextBoundaryWalk m1 k ((m1.he t).next))
      = (match (m2.he e).twin with
      | none => some e
      | some t => nextBoundaryWalk m2 k ((m2.he t).next))
    rw [strip_twin (hg.strip e)]
    cases (m2.he e).twin with
    | none => rfl
    | some t =>
      show nextBoundaryWalk m1 k ((m1.he t).next) = nextBoundaryWalk m2 k ((m2.he t).next)
      rw [strip_next (hg.strip t), ih]

theorem prevBoundaryWalk_cong {m1 m2 : Mesh} (hg : GeomCong m1 m2) :
    ∀ k e, prevBoundaryWalk m1 k e = prevBoundaryWalk m2 k e := by
  intro k
  induction k with
  | zero => intro e; rfl
  | succ k ih =>
    intro e
    show (match (m1.he ((m1.he e).prev)).twin with
      | none => some ((m1.he e).prev)
      | some t => prevBoundaryWalk m1 k t)
      = (match (m2.he ((m2.he e).prev)).twin with
      | none => some ((m2.he e).prev)
      | some t => prevBoundaryWalk m2 k t)
    rw [strip_prev (hg.strip e), strip_twin (hg.strip ((m2.he e).prev))]
    cases (m2.he ((m2.he e).prev)).twin with
    | none => rfl
    | some t => exact ih t

theorem boundaryCheckWalk_cong {m1 m2 : Mesh} (hg : GeomCong m1 m2) (out : Nat) :
    ∀ k e, boundaryCheckWalk m1 out k e = boundaryCheckWalk m2 out k e := by
  intro k
  induction k with
  | zero => intro e; rfl
  | succ k ih =>
    intro e
    show (match ringStep m1 e with
      | none => true
      | some e2 => if e2 = out then false else boundaryCheckWalk m1 out k e2)
      = (match ringStep m2 e with
      | none => true
      | some e2 => if e2 = out then false else boundaryCheckWalk m2 out k e2)
    rw [ringStep_cong hg]
    cases ringStep m2 e with
    | none => rfl
    | some e2 =>
      show (if e2 = out then false else boundaryCheckWalk m1 out k e2)
        = (if e2 = out then false else boundaryCheckWalk m2 out k e2)
      rw [ih]

theorem isBoundaryVertexAt_cong {m1 m2 : Mesh} (hg : GeomCong m1 m2) (vi : Nat) :
    m1.isBoundaryVertexAt vi = m2.isBoundaryVertexAt vi := by
  show boundaryCheckWalk m1 ((m1.vert vi).out.getD 0) ((m1.vert vi).valence)
      ((m1.vert vi).out.getD 0)
    = boundaryCheckWalk m2 ((m2.vert vi).out.getD 0) ((m2.vert vi).valence)
      ((m2.vert vi).out.getD 0)
  rw [vert_cong hg, boundaryCheckWalk_cong hg]

theorem nextBoundaryHalfEdgeAt_cong {m1 m2 : Mesh} (hg : GeomCong m1 m2) (vi : Nat) :
    m1.nextBoundaryHalfEdgeAt vi = m2.nextBoundaryHalfEdgeAt vi := by
  show nextBoundaryWalk m1 (m1.numHalfEdges + 1) ((m1.vert vi).out.getD 0)
    = nextBoundaryWalk m2 (m2.numHalfEdges + 1) ((m2.vert vi).out.getD 0)
  rw [numHalfEdges_cong hg, vert_cong hg, nextBoundaryWalk_cong hg]

theorem prevBoundaryHalfEdgeAt_cong {m1 m2 : Mesh} (hg : GeomCong m1 m2) (vi : Nat) :
    m1.prevBoundaryHalfEdgeAt vi = m2.prevBoundaryHalfEdgeAt vi := by
  show prevBoundaryWalk m1 (m1.numHalfEdges + 1) ((m1.vert vi).out.getD 0)
    = prevBoundaryWalk m2 (m2.numHalfEdges + 1) ((m2.vert vi).out.getD 0)
  rw [numHalfEdges_cong hg, vert_cong hg, prevBoundaryWalk_cong hg]

theorem boundaryVertexPoint_cong {m1 m2 : Mesh} (hg : GeomCong m1 m2) (vi : Nat) :
    boundaryVertexPoint m1 vi = boundaryVertexPoint m2 vi := by
  unfold boundaryVertexPoint
  rw [vert_cong hg, nextBoundaryHalfEdgeAt_cong hg, prevBoundaryHalfEdgeAt_cong hg,
    boundaryEdgePoint_cong hg, boundaryEdgePoint_cong hg]

theorem creaseBody_cong {m1 m2 : Mesh} (hg : GeomCong m1 m2) (e : Nat) (acc : List Nat) :
    creaseBody m1 e acc = creaseBody m2 e acc := by
  unfold creaseBody
  rw [hg.sharpEq e, strip_edgeIndex (hg.strip e)]

theorem creaseRingAccum_cong {m1 m2 : Mesh} (hg : GeomCong m1 m2) (out : Nat) :
    ∀ f e acc, creaseRingAccum m1 out f e acc = creaseRingAccum m2 out f e acc := by
  intro f
  induction f using Nat.strong_induction_on with
  | _ f ih =>
    intro e acc
    match f with
    | 0 => exact creaseBody_cong hg e acc
    | 1 => exact creaseBody_cong hg e acc
    | f + 2 =>
      show (match ringStep m1 e with
        | none => creaseBody m1 e acc
        | some e2 =>
          if e2 = out then creaseBody m1 e acc
          else creaseRingAccum m1 out (f + 1) e2 (creaseBody m1 e acc))
        = (match ringStep m2 e with
        | none => creaseBody m2 e acc
        | some e2 =>
          if e2 = out then creaseBody m2 e acc
          else creaseRingAccum m2 out (f + 1) e2 (creaseBody m2 e acc))
      rw [ringStep_cong hg, creaseBody_cong hg]
      cases ringStep m2 e with
      | none => rfl
      | some e2 =>
        show (if e2 = out then creaseBody m2 e acc
            else creaseRingAccum m1 out (f + 1) e2 (creaseBody m2 e acc))
          = (if e2 = out then creaseBody m2 e acc
            else creaseRingAccum m2 out (f + 1) e2 (creaseBody m2 e acc))
        rw [ih (f + 1) (by omega)]

theorem countCreaseEdges_cong {m1 m2 : Mesh} (hg : GeomCong m1 m2) (vi : Nat) :
    countCreaseEdges m1 vi = countCreaseEdges m2 vi := by
  show (creaseRingAccum m1 ((m1.vert vi).out.getD 0) ((m1.vert vi).valence * 2)
      ((m1.vert vi).out.getD 0) []).length
    = (creaseRingAccum m2 ((m2.vert vi).out.getD 0) ((m2.vert vi).valence * 2)
      ((m2.vert vi).out.getD 0) []).length
  rw [vert_cong hg, creaseRingAccum_cong hg]

theorem creaseIsNew_cong {m1 m2 : Mesh} (hg : GeomCong m1 m2) (e : Nat) (ce1 : Option Nat) :
    creaseIsNew m1 e ce1 = creaseIsNew m2 e ce1 := by
  unfold creaseIsNew
  rw [hg.sharpEq e]
  cases ce1 with
  | none => rfl
  | some c1 =>
    dsimp only
    rw [strip_edgeIndex (hg.strip c1), strip_edgeIndex (hg.strip e)]

theorem creaseFindStop_cong {m1 m2 : Mesh} (hg : GeomCong m1 m2) (e : Nat) (ce1 : Option Nat) :
    creaseFindStop m1 e ce1 = creaseFindStop m2 e ce1 := by
  unfold creaseFindStop
  rw [creaseIsNew_cong hg]

theorem creaseFindLoop_cong {m1 m2 : Mesh} (hg : GeomCong m1 m2) (out : Nat) :
    ∀ f e ce1, creaseFindLoop m1 out f e ce1 = creaseFindLoop m2 out f e ce1 := by
  intro f
  induction f using Nat.strong_induction_on with
  | _ f ih =>
    intro e ce1
    match f with
    | 0 => exact creaseFindStop_cong hg e ce1
    | 1 => exact creaseFindStop_cong hg e ce1
    | f + 2 =>
      rw [creaseFindLoop_succ, creaseFindLoop_succ, creaseIsNew_cong hg e ce1,
        ringStep_cong hg e]
      cases ce1 with
      | none =>
        dsimp only
        cases ringStep m2 e with
        | none => rfl
        | some e2 =>
          dsimp only
          by_cases he2 : e2 = out
          · rw [if_pos he2, if_pos he2]
          · rw [if_neg he2, if_neg he2, ih (f + 1) (by omega)]
      | some c1 =>
        cases hn : creaseIsNew m2 e (some c1) with
        | true => rfl
        | false =>
          dsimp only
          cases ringStep m2 e with
          | none => rfl
          | some e2 =>
            dsimp only
            by_cases he2 : e2 = out
            · rw [if_pos he2, if_pos he2]
            · rw [if_neg he2, if_neg he2, ih (f + 1) (by omega)]

theorem creaseVertexPoint_cong {m1 m2 : Mesh} (hg : GeomCong m1 m2) (vi : Nat) :
    creaseVertexPoint m1 vi = creaseVertexPoint m2 vi := by
  show (match creaseFindLoop m1 ((m1.vert vi).out.getD 0) ((m1.vert vi).valence * 2)
      ((m1.vert vi).out.getD 0) none with
    | (some c1, some c2) =>
      Vec3.smul (1/2) (m1.vert vi).coords + Vec3.smul (1/4) (sharpEdgePoint m1 c1)
        + Vec3.smul (1/4) (sharpEdgePoint m1 c2)
    | _ => (m1.vert vi).coords)
    = (match creaseFindLoop m2 ((m2.vert vi).out.getD 0) ((m2.vert vi).valence * 2)
      ((m2.vert vi).out.getD 0) none with
    | (some c1, some c2) =>
      Vec3.smul (1/2) (m2.vert vi).coords + Vec3.smul (1/4) (sharpEdgePoint m2 c1)
        + Vec3.smul (1/4) (sharpEdgePoint m2 c2)
    | _ => (m2.vert vi).coords)
  rw [vert_cong hg, creaseFindLoop_cong hg]
  cases creaseFindLoop m2 ((m2.vert vi).out.getD 0) ((m2.vert vi).valence * 2)
      ((m2.vert vi).out.getD 0) none with
  | mk c1 c2 =>
    cases c1 with
    | none => rfl
    | some a =>
      cases c2 with
      | none => rfl
      | some b =>
        dsimp only
        rw [sharpEdgePoint_cong hg a, sharpEdgePoint_cong hg b]

theorem edgePointValue_cong {m1 m2 : Mesh} (hg : GeomCong m1 m2) (h : Nat) :
    edgePointValue m1 h = edgePointValue m2 h := by
  unfold edgePointValue HalfEdge.isBoundaryEdge
  rw [strip_twin (hg.strip h), hg.sharpEq h, boundaryEdgePoint_cong hg,
    sharpEdgePoint_cong hg, edgePoint_cong hg]

theorem vertexPointValue_cong {m1 m2 : Mesh} (hg : GeomCong m1 m2) (v : Nat) :
    vertexPointValue m1 v = vertexPointValue m2 v := by
  show (if m1.isBoundaryVertexAt v then boundaryVertexPoint m1 v
    else if 3 ≤ countCreaseEdges m1 v then (m1.vert v).coords
    else if countCreaseEdges m1 v = 2 then creaseVertexPoint m1 v
    else vertexPoint m1 v)
    = (if m2.isBoundaryVertexAt v then boundaryVertexPoint m2 v
    else if 3 ≤ countCreaseEdges m2 v then (m2.vert v).coords
    else if countCreaseEdges m2 v = 2 then creaseVertexPoint m2 v
    else vertexPoint m2 v)
  rw [isBoundaryVertexAt_cong hg, countCreaseEdges_cong hg, boundaryVertexPoint_cong hg,
    vert_cong hg, creaseVertexPoint_cong hg, vertexPoint_cong hg]

theorem facePointStep_cong {m1 m2 : Mesh} (hg : GeomCong m1 m2) (nm : Mesh) (f : Nat) :
    facePointStep m1 nm f = facePointStep m2 nm f := by
  unfold facePointStep
  dsimp only
  rw [numVerts_cong hg, face_cong hg, facePoint_cong hg]

theorem edgePointStep_cong {m1 m2 : Mesh} (hg : GeomCong m1 m2) (nm : Mesh) (h : Nat) :
    edgePointStep m1 nm h = edgePointStep m2 nm h := by
  unfold edgePointStep
  dsimp only
  rw [twinIdx_cong hg, numVerts_cong hg, numFaces_cong hg, strip_edgeIndex (hg.strip h),
    edgePointValue_cong hg]

theorem vertexPointStep_cong {m1 m2 : Mesh} (hg : GeomCong m1 m2) (nm : Mesh) (v : Nat) :
    vertexPointStep m1 nm v = vertexPointStep m2 nm v := by
  unfold vertexPointStep
  rw [vertexPointValue_cong hg, vert_cong hg]

theorem foldl_funext {α β : Type} (f g : α → β → α) (l : List β) (a : α)
    (h : ∀ x y, f x y = g x y) : l.foldl f a = l.foldl g a := by
  induction l generalizing a with
  | nil => rfl
  | cons x t ih =>
    show t.foldl f (f a x) = t.foldl g (g a x)
    rw [h]
    exact ih _

theorem geometryRefinement_cong {m1 m2 : Mesh} (hg : GeomCong m1 m2) (nm : Mesh) :
    geometryRefinement m1 nm = geometryRefinement m2 nm := by
  unfold geometryRefinement
  dsimp only
  rw [numFaces_cong hg, numHalfEdges_cong hg, numVerts_cong hg,
    foldl_funext (facePointStep m1) (facePointStep m2) _ _ (facePointStep_cong hg),
    foldl_funext (edgePointStep m1) (edgePointStep m2) _ _ (edgePointStep_cong hg),
    foldl_funext (vertexPointStep m1) (vertexPointStep m2) _ _ (vertexPointStep_cong hg)]

/-! ## The sharpness simulation relation -/

/-- Either the finite-sharpness side carries `t` where the infinite side
carries `-1`, or the two sharpness values coincide. -/
def sharpRel (t : Int) (a b : Int) : Prop := (a = t ∧ b = -1) ∨ a = b

/-- Full simulation relation between the finite-sharpness mesh and its
infinitely-sharp counterpart: everything agrees except that sharpness values
are related by `sharpRel t`. -/
structure SimRel (t : Int) (m1 m2 : Mesh) : Prop where
  hV : m1.vertices = m2.vertices
  hF : m1.faces = m2.faces
  hE : m1.edgeCount = m2.edgeCount
  hO : m1.originalCoords = m2.originalCoords
  hS : m1.halfEdges.map stripSharp = m2.halfEdges.map stripSharp
  hR : ∀ p, sharpRel t ((m1.he p).sharpness) ((m2.he p).sharpness)

theorem strip_of_mapEq {l1 l2 : List HalfEdge} (h : l1.map stripSharp = l2.map stripSharp)
    (p : Nat) : stripSharp (l1.getD p dHalfEdge) = stripSharp (l2.getD p dHalfEdge) := by
  have hd : stripSharp dHalfEdge = dHalfEdge := rfl
  have h1 := getD_map stripSharp l1 p dHalfEdge
  have h2 := getD_map stripSharp l2 p dHalfEdge
  rw [hd] at h1 h2
  rw [← h1, ← h2, h]

theorem SimRel.strip {t : Int} {m1 m2 : Mesh} (hr : SimRel t m1 m2) (p : Nat) :
    stripSharp (m1.he p) = stripSharp (m2.he p) := strip_of_mapEq hr.hS p

theorem SimRel.lenHE {t : Int} {m1 m2 : Mesh} (hr : SimRel t m1 m2) :
    m1.halfEdges.length = m2.halfEdges.length := by
  have h := congrArg List.length hr.hS
  simpa using h

theorem sharpRel_isSharp {t : Int} (ht : 0 < t) {e1 e2 : HalfEdge}
    (h : sharpRel t e1.sharpness e2.sharpness) : e1.isSharpEdge = e2.isSharpEdge := by
  unfold HalfEdge.isSharpEdge
  rcases h with ⟨h1, h2⟩ | h
  · rw [h1, h2]
    simp only [Bool.or_eq_true, decide_eq_true_eq]
    have hl : (decide (0 < t) || decide (t = -1)) = true := by
      simp only [Bool.or_eq_true, decide_eq_true_eq]
      exact Or.inl ht
    rw [hl]
    decide
  · rw [h]

theorem geomCong_of_simRel {t : Int} {m1 m2 : Mesh} (ht : 0 < t) (hr : SimRel t m1 m2) :
    GeomCong m1 m2 :=
  ⟨hr.hV, hr.hF, hr.hE, hr.strip, fun p => sharpRel_isSharp ht (hr.hR p), hr.lenHE⟩

theorem sharpRel_new {t : Int} (ht : 0 < t) {a b : Int} (h : sharpRel t a b) :
    sharpRel (t - 1) (newSharpnessOf a) (newSharpnessOf b) := by
  rcases h with ⟨h1, h2⟩ | h
  · left
    constructor
    · rw [h1]
      unfold newSharpnessOf
      rw [if_pos ht]
    · rw [h2]
      rfl
  · right
    rw [h]

theorem map_strip_set (l : List HalfEdge) (i : Nat) (a : HalfEdge) :
    (l.set i a).map stripSharp = (l.map stripSharp).set i (stripSharp a) := by
  induction l generalizing i with
  | nil => rfl
  | cons x tl ih =>
    cases i with
    | zero => rfl
    | succ j =>
      show stripSharp x :: (tl.set j a).map stripSharp
        = stripSharp x :: (tl.map stripSharp).set j (stripSharp a)
      rw [ih]

theorem simRel_setSharpAt {t : Int} {n1 n2 : Mesh} (ht : SimRel t n1 n2) (p : Nat)
    (v1 v2 : Int) (hv : sharpRel t v1 v2) :
    SimRel t (setSharpAt n1 p v1) (setSharpAt n2 p v2) := by
  refine ⟨ht.hV, ht.hF, ht.hE, ht.hO, ?_, ?_⟩
  · show (n1.halfEdges.set p _).map stripSharp = (n2.halfEdges.set p _).map stripSharp
    rw [map_strip_set, map_strip_set, ht.hS,
      show stripSharp { n1.he p with sharpness := v1 } = stripSharp (n1.he p) from rfl,
      show stripSharp { n2.he p with sharpness := v2 } = stripSharp (n2.he p) from rfl,
      ht.strip p]
  · intro q
    by_cases hq : q = p
    · subst hq
      by_cases hl : q < n1.halfEdges.length
      · rw [sharp_setSharpAt_self _ _ _ hl,
          sharp_setSharpAt_self _ _ _ (by rw [← ht.lenHE]; exact hl)]
        exact hv

      · rw [setSharpAt_toofar _ _ _ (le_of_not_lt hl),
          setSharpAt_toofar _ _ _ (by rw [← ht.lenHE]; exact le_of_not_lt hl)]
        exact ht.hR q
    · rw [he_setSharpAt_ne _ _ _ _ hq, he_setSharpAt_ne _ _ _ _ hq]
      exact ht.hR q

theorem simRel_applySharpWrites {t : Int} {n1 n2 : Mesh} (ht : SimRel t n1 n2)
    {ws1 ws2 : List (Nat × Int)}
    (hws : List.Forall₂ (fun a b => a.1 = b.1 ∧ sharpRel t a.2 b.2) ws1 ws2) :
    SimRel t (applySharpWrites n1 ws1) (applySharpWrites n2 ws2) := by
  induction hws generalizing n1 n2 with
  | nil => exact ht
  | @cons a b t1 t2 hab htail ih =>
    show SimRel t (applySharpWrites (setSharpAt n1 a.1 a.2) t1)
      (applySharpWrites (setSharpAt n2 b.1 b.2) t2)
    rw [← hab.1]
    exact ih (simRel_setSharpAt ht a.1 a.2 b.2 hab.2)

theorem vertices_setHalfEdgeData (nm : Mesh) (h e v : Nat) (t : Int) :
    (setHalfEdgeData nm h e v t).vertices
      = nm.vertices.set v { nm.vert v with out := some h, index := v } := rfl

theorem faces_setHalfEdgeData (nm : Mesh) (h e v : Nat) (t : Int) :
    (setHalfEdgeData nm h e v t).faces
      = nm.faces.set (quadFaceIdx h) { nm.face (quadFaceIdx h) with side := h } := rfl

theorem simRel_setHalfEdgeData {t : Int} {n1 n2 : Mesh} (ht : SimRel t n1 n2)
    (h e v : Nat) (tw : Int) :
    SimRel t (setHalfEdgeData n1 h e v tw) (setHalfEdgeData n2 h e v tw) := by
  refine ⟨?_, ?_, ht.hE, ht.hO, ?_, ?_⟩
  · rw [vertices_setHalfEdgeData, vertices_setHalfEdgeData, ht.hV,
      vert_congr_vertices ht.hV v]
  · rw [faces_setHalfEdgeData, faces_setHalfEdgeData, ht.hF,
      show n1.face (quadFaceIdx h) = n2.face (quadFaceIdx h) from by
        show n1.faces.getD _ dFace = n2.faces.getD _ dFace
        rw [ht.hF]]
  · show (n1.halfEdges.set h _).map stripSharp = (n2.halfEdges.set h _).map stripSharp
    rw [map_strip_set, map_strip_set, ht.hS]
    rfl
  · intro q
    rw [sharp_setHalfEdgeData, sharp_setHalfEdgeData]
    exact ht.hR q

theorem twinIdx1_cong {c1 c2 : Mesh} (hg : GeomCong c1 c2) (h : Nat) :
    twinIdx1 c1 h = twinIdx1 c2 h := by
  unfold twinIdx1
  rw [strip_twin (hg.strip h)]
  cases (c2.he h).twin with
  | none => rfl
  | some t =>
    dsimp only
    rw [strip_next (hg.strip t), strip_index (hg.strip ((c2.he t).next))]

theorem twinIdx2_cong {c1 c2 : Mesh} (hg : GeomCong c1 c2) (h : Nat) :
    twinIdx2 c1 h = twinIdx2 c2 h := by
  unfold twinIdx2
  rw [strip_next (hg.strip h), strip_index (hg.strip ((c2.he h).next))]

theorem twinIdx3_cong {c1 c2 : Mesh} (hg : GeomCong c1 c2) (h : Nat) :
    twinIdx3 c1 h = twinIdx3 c2 h := by
  unfold twinIdx3
  rw [strip_prev (hg.strip h), strip_index (hg.strip ((c2.he h).prev))]

theorem twinIdx4_cong {c1 c2 : Mesh} (hg : GeomCong c1 c2) (h : Nat) :
    twinIdx4 c1 h = twinIdx4 c2 h := by
  unfold twinIdx4
  rw [strip_prev (hg.strip h), twinIdx_cong hg]

theorem vertIdx1_cong {c1 c2 : Mesh} (hg : GeomCong c1 c2) (h : Nat) :
    vertIdx1 c1 h = vertIdx1 c2 h := by
  unfold vertIdx1
  rw [strip_origin (hg.strip h), vert_cong hg]

theorem vertIdx2_cong {c1 c2 : Mesh} (hg : GeomCong c1 c2) (h : Nat) :
    vertIdx2 c1 h = vertIdx2 c2 h := by
  unfold vertIdx2
  rw [numVerts_cong hg, numFaces_cong hg, strip_edgeIndex (hg.strip h)]

theorem vertIdx3_cong {c1 c2 : Mesh} (hg : GeomCong c1 c2) (h : Nat) :
    vertIdx3 c1 h = vertIdx3 c2 h := by
  unfold vertIdx3
  rw [numVerts_cong hg, strip_face (hg.strip h), face_cong hg]

theorem vertIdx4_cong {c1 c2 : Mesh} (hg : GeomCong c1 c2) (h : Nat) :
    vertIdx4 c1 h = vertIdx4 c2 h := by
  unfold vertIdx4
  rw [numVerts_cong hg, numFaces_cong hg, strip_prev (hg.strip h),
    strip_edgeIndex (hg.strip ((c2.he h).prev))]

theorem edgeIdx1_cong {c1 c2 : Mesh} (hg : GeomCong c1 c2) (h : Nat) :
    edgeIdx1 c1 h = edgeIdx1 c2 h := by
  unfold edgeIdx1
  rw [strip_edgeIndex (hg.strip h), twinIdx_cong hg]

theorem edgeIdx2_cong {c1 c2 : Mesh} (hg : GeomCong c1 c2) (h : Nat) :
    edgeIdx2 c1 h = edgeIdx2 c2 h := by
  unfold edgeIdx2
  rw [numEdges_cong hg]

theorem edgeIdx3_cong {c1 c2 : Mesh} (hg : GeomCong c1 c2) (h : Nat) :
    edgeIdx3 c1 h = edgeIdx3 c2 h := by
  unfold edgeIdx3
  rw [numEdges_cong hg, strip_prev (hg.strip h), strip_index (hg.strip ((c2.he h).prev))]

theorem edgeIdx4_cong {c1 c2 : Mesh} (hg : GeomCong c1 c2) (h : Nat) :
    edgeIdx4 c1 h = edgeIdx4 c2 h := by
  unfold edgeIdx4
  rw [strip_prev (hg.strip h), strip_edgeIndex (hg.strip ((c2.he h).prev)),
    strip_index (hg.strip ((c2.he h).prev)), twinIdx_cong hg]

theorem simRel_refineSet {t : Int} {c1 c2 n1 n2 : Mesh} (hgc : GeomCong c1 c2)
    (ht : SimRel t n1 n2) (h : Nat) :
    SimRel t (refineSet c1 n1 h) (refineSet c2 n2 h) := by
  unfold refineSet
  rw [edgeIdx1_cong hgc, edgeIdx2_cong hgc, edgeIdx3_cong hgc, edgeIdx4_cong hgc,
    vertIdx1_cong hgc, vertIdx2_cong hgc, vertIdx3_cong hgc, vertIdx4_cong hgc,
    twinIdx1_cong hgc, twinIdx2_cong hgc, twinIdx3_cong hgc, twinIdx4_cong hgc]
  exact simRel_setHalfEdgeData (simRel_setHalfEdgeData (simRel_setHalfEdgeData
    (simRel_setHalfEdgeData ht _ _ _ _) _ _ _ _) _ _ _ _) _ _ _ _

theorem forall2_append {α β : Type} {R : α → β → Prop} {l1 l3 : List α} {l2 l4 : List β}
    (h1 : List.Forall₂ R l1 l2) (h2 : List.Forall₂ R l3 l4) :
    List.Forall₂ R (l1 ++ l3) (l2 ++ l4) := by
  induction h1 with
  | nil => exact h2
  | cons h _ ih => exact List.Forall₂.cons h ih

theorem sharpWriteList_rel {t : Int} (htpos : 0 < t) {c1 c2 ns1 ns2 : Mesh}
    (hgc : GeomCong c1 c2)
    (hcr : ∀ p, sharpRel t ((c1.he p).sharpness) ((c2.he p).sharpness))
    (hns : SimRel (t - 1) ns1 ns2) (h : Nat) :
    List.Forall₂ (fun a b => a.1 = b.1 ∧ sharpRel (t - 1) a.2 b.2)
      (sharpWriteList c1 ns1 h) (sharpWriteList c2 ns2 h) := by
  have hs1 : sharpRel (t - 1) (newSharpnessOf ((c1.he h).sharpness))
      (newSharpnessOf ((c2.he h).sharpness)) := sharpRel_new htpos (hcr h)
  have hs4 : sharpRel (t - 1) (newSharpnessOf ((c1.he ((c1.he h).prev)).sharpness))
      (newSharpnessOf ((c2.he ((c2.he h).prev)).sharpness)) := by
    rw [strip_prev (hgc.strip h)]
    exact sharpRel_new htpos (hcr _)
  have h0 : sharpRel (t - 1) (0 : Int) 0 := Or.inr rfl
  unfold sharpWriteList
  dsimp only
  rw [← twinIdx1_cong hgc, ← twinIdx4_cong hgc,
    show (ns2.he (4 * h + 1)).twin = (ns1.he (4 * h + 1)).twin from
      (strip_twin (hns.strip _)).symm,
    show (ns2.he (4 * h + 2)).twin = (ns1.he (4 * h + 2)).twin from
      (strip_twin (hns.strip _)).symm]
  refine forall2_append (forall2_append (forall2_append (forall2_append (forall2_append
    (forall2_append (List.Forall₂.cons ⟨rfl, hs1⟩ List.Forall₂.nil) ?_)
    (List.Forall₂.cons ⟨rfl, hs4⟩ List.Forall₂.nil)) ?_)
    (List.Forall₂.cons ⟨rfl, h0⟩ (List.Forall₂.cons ⟨rfl, h0⟩ List.Forall₂.nil))) ?_) ?_
  · by_cases hA : 0 ≤ twinIdx1 c1 h
    · rw [if_pos hA, if_pos hA]
      exact List.Forall₂.cons ⟨rfl, hs1⟩ List.Forall₂.nil
    · rw [if_neg hA, if_neg hA]
      exact List.Forall₂.nil
  · by_cases hB : 0 ≤ twinIdx4 c1 h
    · rw [if_pos hB, if_pos hB]
      exact List.Forall₂.cons ⟨rfl, hs4⟩ List.Forall₂.nil
    · rw [if_neg hB, if_neg hB]
      exact List.Forall₂.nil
  · cases (ns1.he (4 * h + 1)).twin with
    | none => exact List.Forall₂.nil
    | some tw => exact List.Forall₂.cons ⟨rfl, h0⟩ List.Forall₂.nil
  · cases (ns1.he (4 * h + 2)).twin with
    | none => exact List.Forall₂.nil
    | some tw => exact List.Forall₂.cons ⟨rfl, h0⟩ List.Forall₂.nil

theorem simRel_refineStep {t : Int} (htpos : 0 < t) {c1 c2 n1 n2 : Mesh}
    (hgc : GeomCong c1 c2)
    (hcr : ∀ p, sharpRel t ((c1.he p).sharpness) ((c2.he p).sharpness))
    (ht : SimRel (t - 1) n1 n2) (h : Nat) :
    SimRel (t - 1) (refineStep c1 n1 h) (refineStep c2 n2 h) := by
  unfold refineStep
  have hset := simRel_refineSet hgc ht h
  exact simRel_applySharpWrites hset (sharpWriteList_rel htpos hgc hcr hset h)

theorem simRel_facesInitStep {t : Int} {n1 n2 : Mesh} (ht : SimRel t n1 n2) (f : Nat) :
    SimRel t (facesInitStep n1 f) (facesInitStep n2 f) := by
  refine ⟨ht.hV, ?_, ht.hE, ht.hO, ht.hS, ht.hR⟩
  show n1.faces.set f { n1.face f with index := f, valence := 4 }
    = n2.faces.set f { n2.face f with index := f, valence := 4 }
  rw [ht.hF, show n1.face f = n2.face f from by
    show n1.faces.getD f dFace = n2.faces.getD f dFace
    rw [ht.hF]]

theorem foldl_rel {α β : Type} (R : α → α → Prop) (f g : α → β → α) (l : List β)
    (a1 a2 : α) (h0 : R a1 a2) (hstep : ∀ x y b, R x y → R (f x b) (g y b)) :
    R (l.foldl f a1) (l.foldl g a2) := by
  induction l generalizing a1 a2 with
  | nil => exact h0
  | cons b tl ih => exact ih _ _ (hstep a1 a2 b h0)

theorem simRel_topologyRefinement {t : Int} (htpos : 0 < t) {c1 c2 n1 n2 : Mesh}
    (hgc : GeomCong c1 c2)
    (hcr : ∀ p, sharpRel t ((c1.he p).sharpness) ((c2.he p).sharpness))
    (ht : SimRel (t - 1) n1 n2) :
    SimRel (t - 1) (topologyRefinement c1 n1) (topologyRefinement c2 n2) := by
  unfold topologyRefinement
  rw [numHalfEdges_cong hgc, show n1.numFaces = n2.numFaces from congrArg List.length ht.hF]
  exact foldl_rel (SimRel (t - 1)) _ _ _ _ _
    (foldl_rel (SimRel (t - 1)) _ _ _ _ _ ht (fun x y b hxy => simRel_facesInitStep hxy b))
    (fun x y b hxy => simRel_refineStep htpos hgc hcr hxy b)

/-- One subdivision level preserves the simulation: a finite-sharpness mesh
and its infinitely-sharp counterpart produce identical geometry and stay
related with the sharpness budget decreased by one. -/
theorem simRel_subdivide {t : Int} {m1 m2 : Mesh} (htpos : 0 < t) (hr : SimRel t m1 m2) :
    SimRel (t - 1) (subdivide m1) (subdivide m2) := by
  have hgc := geomCong_of_simRel htpos hr
  have hres : reserveSizes m1 emptyMesh = reserveSizes m2 emptyMesh := by
    unfold reserveSizes
    rw [numVerts_cong hgc, numFaces_cong hgc, numEdges_cong hgc, numHalfEdges_cong hgc]
  have hgeo : geometryRefinement m1 (reserveSizes m1 emptyMesh)
      = geometryRefinement m2 (reserveSizes m2 emptyMesh) := by
    rw [hres, geometryRefinement_cong hgc]
  show SimRel (t - 1)
    (topologyRefinement m1 (geometryRefinement m1 (reserveSizes m1 emptyMesh)))
    (topologyRefinement m2 (geometryRefinement m2 (reserveSizes m2 emptyMesh)))
  have h0 : SimRel (t - 1) (geometryRefinement m1 (reserveSizes m1 emptyMesh))
      (geometryRefinement m2 (reserveSizes m2 emptyMesh)) := by
    rw [hgeo]
    exact ⟨rfl, rfl, rfl, rfl, rfl, fun p => Or.inr rfl⟩
  exact simRel_topologyRefinement htpos hgc hr.hR h0

/-! ## Sharpness decay of a single mesh across levels -/

theorem getD_replicate {α : Type} (n p : Nat) (d : α) : (List.replicate n d).getD p d = d := by
  induction n generalizing p with
  | zero => cases p <;> rfl
  | succ n ih =>
    cases p with
    | zero => rfl
    | succ q => exact ih q

theorem geo_sharp_zero (m : Mesh) (p : Nat) :
    ((geometryRefinement m (reserveSizes m emptyMesh)).he p).sharpness = 0 := by
  show ((geometryRefinement m (reserveSizes m emptyMesh)).halfEdges.getD p dHalfEdge).sharpness
    = 0
  rw [geometry_halfEdges_eq]
  show ((resizeL ([] : List HalfEdge) (m.numHalfEdges * 4) dHalfEdge).getD p
    dHalfEdge).sharpness = 0
  rw [show resizeL ([] : List HalfEdge) (m.numHalfEdges * 4) dHalfEdge
      = List.replicate (m.numHalfEdges * 4) dHalfEdge from by simp [resizeL]]
  rw [getD_replicate]
  rfl

theorem sharp_refineSet (cm nm : Mesh) (h q : Nat) :
    ((refineSet cm nm h).he q).sharpness = (nm.he q).sharpness := by
  unfold refineSet
  rw [sharp_setHalfEdgeData, sharp_setHalfEdgeData, sharp_setHalfEdgeData,
    sharp_setHalfEdgeData]

/-- Pointwise membership of sharpness values in a set is preserved by a write
sequence whose values all lie in the set. -/
theorem applySharpWrites_setd (x : Mesh) (ws : List (Nat × Int)) (S : Int → Prop)
    (hvals : ∀ pv, pv ∈ ws → S pv.2) (hx : ∀ q, S ((x.he q).sharpness)) :
    ∀ q, S (((applySharpWrites x ws).he q).sharpness) := by
  induction ws generalizing x with
  | nil => exact hx
  | cons w tl ih =>
    refine ih (setSharpAt x w.1 w.2) (fun pv hpv => hvals pv (by simp [hpv])) ?_
    intro q
    rcases sharp_setSharpAt_cases x w.1 w.2 q with hc | ⟨_, hc⟩
    · rw [hc]
      exact hx q
    · rw [hc]
      exact hvals w (by simp)

/-- Every value stored by the sharpness-propagation writes is the decayed
sharpness of the split half-edge, the decayed sharpness of its `prev`, or a
literal `0`. -/
theorem sharpWriteList_vals (cm ns : Mesh) (h : Nat) (S : Int → Prop)
    (h1 : S (newSharpnessOf ((cm.he h).sharpness)))
    (h4 : S (newSharpnessOf ((cm.he ((cm.he h).prev)).sharpness)))
    (h0 : S 0) :
    ∀ pv, pv ∈ sharpWriteList cm ns h → S pv.2 := by
  intro pv hpv
  unfold sharpWriteList at hpv
  dsimp only at hpv
  rcases List.mem_append.mp hpv with h1' | hD
  · rcases List.mem_append.mp h1' with h2' | hC
    · rcases List.mem_append.mp h2' with h3' | hZ
      · rcases List.mem_append.mp h3' with h4' | hB
        · rcases List.mem_append.mp h4' with h5' | hS4
          · rcases List.mem_append.mp h5' with hS1 | hA
            · rw [List.mem_singleton.mp hS1]
              exact h1
            · by_cases hA0 : 0 ≤ twinIdx1 cm h
              · rw [if_pos hA0] at hA
                rw [List.mem_singleton.mp hA]
                exact h1
              · rw [if_neg hA0] at hA
                exact absurd hA (List.not_mem_nil _)
          · rw [List.mem_singleton.mp hS4]
            exact h4
        · by_cases hB0 : 0 ≤ twinIdx4 cm h
          · rw [if_pos hB0] at hB
            rw [List.mem_singleton.mp hB]
            exact h4
          · rw [if_neg hB0] at hB
            exact absurd hB (List.not_mem_nil _)
      · rcases List.mem_cons.mp hZ with hz | hz
        · rw [hz]
          exact h0
        · rw [List.mem_singleton.mp hz]
          exact h0
    · cases ht1 : (ns.he (4 * h + 1)).twin with
      | none =>
        rw [ht1] at hC
        exact absurd hC (List.not_mem_nil _)
      | some tw =>
        rw [ht1] at hC
        rw [List.mem_singleton.mp hC]
        exact h0
  · cases ht2 : (ns.he (4 * h + 2)).twin with
    | none =>
      rw [ht2] at hD
      exact absurd hD (List.not_mem_nil _)
    | some tw =>
      rw [ht2] at hD
      rw [List.mem_singleton.mp hD]
      exact h0

/-- All sharpness values of one `subdivide` output are either the decay of `t`
or `0`, whenever the input's are all `t` or `0`. -/
theorem sharp_bound_subdivide (m : Mesh) (t : Int)
    (hall : ∀ p, (m.he p).sharpness = t ∨ (m.he p).sharpness = 0) :
    ∀ p, ((subdivide m).he p).sharpness = newSharpnessOf t
      ∨ ((subdivide m).he p).sharpness = 0 := by
  have hz : newSharpnessOf 0 = 0 := rfl
  have hstep : ∀ x h2, h2 ∈ List.range m.numHalfEdges →
      (∀ q, (x.he q).sharpness = newSharpnessOf t ∨ (x.he q).sharpness = 0) →
      (∀ q, ((refineStep m x h2).he q).sharpness = newSharpnessOf t
        ∨ ((refineStep m x h2).he q).sharpness = 0) := by
    intro x h2 _ hx
    unfold refineStep
    refine applySharpWrites_setd _ _ (fun v => v = newSharpnessOf t ∨ v = 0) ?_ ?_
    · refine sharpWriteList_vals m _ h2 (fun v => v = newSharpnessOf t ∨ v = 0) ?_ ?_
        (Or.inr rfl)
      · rcases hall h2 with hc | hc
        · rw [hc]
          exact Or.inl rfl
        · rw [hc, hz]
          exact Or.inr rfl
      · rcases hall ((m.he h2).prev) with hc | hc
        · rw [hc]
          exact Or.inl rfl
        · rw [hc, hz]
          exact Or.inr rfl
    · intro q
      rw [sharp_refineSet]
      exact hx q
  have hbase : ∀ q, (((List.range
      (geometryRefinement m (reserveSizes m emptyMesh)).numFaces).foldl facesInitStep
      (geometryRefinement m (reserveSizes m emptyMesh))).he q).sharpness = newSharpnessOf t
      ∨ (((List.range
      (geometryRefinement m (reserveSizes m emptyMesh)).numFaces).foldl facesInitStep
      (geometryRefinement m (reserveSizes m emptyMesh))).he q).sharpness = 0 := by
    intro q
    right
    show ((((List.range _).foldl facesInitStep _).halfEdges).getD q dHalfEdge).sharpness = 0
    rw [facesInit_halfEdges]
    exact geo_sharp_zero m q
  intro p
  show ((topologyRefinement m
    (geometryRefinement m (reserveSizes m emptyMesh))).he p).sharpness = _ ∨ _
  unfold topologyRefinement
  exact foldl_invariant
    (fun nm => ∀ q, (nm.he q).sharpness = newSharpnessOf t ∨ (nm.he q).sharpness = 0)
    (refineStep m) (List.range m.numHalfEdges) _ hbase hstep p

theorem iterSub_add (a b : Nat) (m : Mesh) : iterSub (a + b) m = iterSub b (iterSub a m) := by
  induction a generalizing m with
  | zero =>
    rw [Nat.zero_add]
    rfl
  | succ a ih =>
    show iterSub (a + 1 + b) m = iterSub b (iterSub a (subdivide m))
    rw [show a + 1 + b = a + b + 1 from by omega]
    show iterSub (a + b) (subdivide m) = _
    rw [ih]

theorem iter_zero (m : Mesh) (hzero : ∀ p, (m.he p).sharpness = 0) :
    ∀ j p, ((iterSub j m).he p).sharpness = 0 := by
  intro j
  induction j generalizing m with
  | zero => exact hzero
  | succ j ih =>
    intro p
    show ((iterSub j (subdivide m)).he p).sharpness = 0
    refine ih (subdivide m) ?_ p
    intro q
    rcases sharp_bound_subdivide m 0 (fun r => Or.inr (hzero r)) q with hc | hc
    · rw [hc]
      rfl
    · exact hc

theorem iter_decay (m : Mesh) : ∀ (k : Nat) (t : Int), (k : Int) ≤ t →
    (∀ p, (m.he p).sharpness = t ∨ (m.he p).sharpness = 0) →
    ∀ p, ((iterSub k m).he p).sharpness = t - k ∨ ((iterSub k m).he p).sharpness = 0 := by
  intro k
  induction k generalizing m with
  | zero =>
    intro t _ hall p
    simpa using hall p
  | succ k ih =>
    intro t hk hall p
    have htpos : (0 : Int) < t := by
      push_cast at hk
      omega
    have hnewt : newSharpnessOf t = t - 1 := by
      unfold newSharpnessOf
      rw [if_pos htpos]
    have hall2 : ∀ q, ((subdivide m).he q).sharpness = t - 1
        ∨ ((subdivide m).he q).sharpness = 0 := by
      intro q
      rw [← hnewt]
      exact sharp_bound_subdivide m t hall q
    have hrec := ih (subdivide m) (t - 1) (by push_cast at hk ⊢; omega) hall2 p
    show ((iterSub k (subdivide m)).he p).sharpness = t - (k + 1 : Nat)
      ∨ ((iterSub k (subdivide m)).he p).sharpness = 0
    rw [show ((t : Int) - ((k + 1 : Nat) : Int)) = t - 1 - (k : Int) from by push_cast; ring]
    exact hrec

theorem iter_sim {m1 m2 : Mesh} : ∀ (k : Nat) (t : Int), (k : Int) ≤ t →
    SimRel t m1 m2 → SimRel (t - k) (iterSub k m1) (iterSub k m2) := by
  intro k
  induction k generalizing m1 m2 with
  | zero =>
    intro t _ hrel
    simpa using hrel
  | succ k ih =>
    intro t hk hrel
    have htpos : (0 : Int) < t := by
      push_cast at hk
      omega
    have h1 := simRel_subdivide htpos hrel
    have hrec := ih (t - 1) (by push_cast at hk ⊢; omega) h1
    show SimRel (t - (k + 1 : Nat)) (iterSub k (subdivide m1)) (iterSub k (subdivide m2))
    rw [show ((t : Int) - ((k + 1 : Nat) : Int)) = t - 1 - (k : Int) from by push_cast; ring]
    exact hrec

/-- C3: a mesh whose crease half-edges carry finite sharpness `s > 0` (all
other half-edges smooth) behaves identically — same vertex lists, hence the
same vertex positions — to the mesh with those half-edges at infinite
sharpness `-1`, for each of the first `s` subdivision levels.  From level `s`
on, every half-edge of the finite-sharpness mesh carries sharpness `0` and is
not a sharp edge, so the smooth rules apply to all its children. -/
theorem C3_finite_crease_equivalence (m1 m2 : Mesh) (s : Nat) (hs : 0 < s)
    (hrel : SimRel (s : Int) m1 m2)
    (hz : ∀ p, (m1.he p).sharpness = (s : Int) ∨ (m1.he p).sharpness = 0) :
    (∀ k, k ≤ s → (iterSub k m1).vertices = (iterSub k m2).vertices) ∧
    (∀ j p, ((iterSub (s + j) m1).he p).sharpness = 0 ∧
      ((iterSub (s + j) m1).he p).isSharpEdge = false) := by
  constructor
  · intro k hk
    exact (iter_sim k (s : Int) (by push_cast; omega) hrel).hV
  · have hzs : ∀ p, ((iterSub s m1).he p).sharpness = 0 := by
      intro p
      rcases iter_decay m1 s (s : Int) (le_refl _) hz p with hc | hc
      · rw [hc, sub_self]
      · exact hc
    intro j p
    have hsp : ((iterSub (s + j) m1).he p).sharpness = 0 := by
      rw [iterSub_add]
      exact iter_zero (iterSub s m1) hzs j p
    refine ⟨hsp, ?_⟩
    unfold HalfEdge.isSharpEdge
    rw [hsp]
    decide

/-- The pillow with infinite sharpness on edge 0 only. -/
def pillowSInf : Mesh := setSharpList pillow [(0, -1), (4, -1)]

theorem C3_finite_crease_equivalence_witness :
    (∀ k, k ≤ 5 → (iterSub k pillowS).vertices = (iterSub k pillowSInf).vertices) ∧
    (∀ j p, ((iterSub (5 + j) pillowS).he p).sharpness = 0 ∧
      ((iterSub (5 + j) pillowS).he p).isSharpEdge = false) := by
  refine C3_finite_crease_equivalence pillowS pillowSInf 5 (by decide) ⟨by decide, by decide,
    by decide, by decide, by decide, ?_⟩ ?_
  · intro p
    by_cases hp : p < 8
    · interval_cases p <;> (unfold sharpRel; decide)
    · right
      show (pillowS.halfEdges.getD p dHalfEdge).sharpness
        = (pillowSInf.halfEdges.getD p dHalfEdge).sharpness
      rw [List.getD_eq_default _ _
          (by rw [show pillowS.halfEdges.length = 8 from by decide]; omega),
        List.getD_eq_default _ _
          (by rw [show pillowSInf.halfEdges.length = 8 from by decide]; omega)]
  · intro p
    by_cases hp : p < 8
    · interval_cases p <;> first
        | exact Or.inl (by decide)
        | exact Or.inr (by decide)
    · right
      show (pillowS.halfEdges.getD p dHalfEdge).sharpness = 0
      rw [List.getD_eq_default _ _
        (by rw [show pillowS.halfEdges.length = 8 from by decide]; omega)]
      rfl

end Catmark
